import Mathlib

/-!
Verification of the virus-genealogy graph engine (`virus_genealogy.h`).

The C++ class `VirusGenealogy<Virus>` keeps an ordered map (`std::map`) from
virus identifiers to nodes; each node stores the set of parent identifiers
(`std::set<id>`) and the set of child handles (`std::set<shared_ptr<Virus>>`,
one canonical handle per node, so it is a set of child identifiers).

Shallow embedding conventions:
* identifiers are `Nat` (the template only needs a totally ordered, copyable
  id type); `std::set` becomes a strictly sorted duplicate-free `List VId`;
  `std::map` becomes a sorted association list.
* a C++ exception becomes an `Err` value returned next to the post-call state,
  because a thrown exception leaves the object in whatever state it had.
* resource-exhaustion failures (`std::bad_alloc` and friends) are modelled by
  a failure schedule `List Bool` consumed one entry per fallible operation
  (container insertions, `push_back`, `make_shared`, and by-value id copies
  such as `Virus::get_id`; comparisons and erasures are assumed non-throwing,
  which is exact for arithmetic id types).  An empty schedule means that no
  failure is ever injected.
* the recursive cascade of `remove` genuinely fails to terminate on cyclic
  graphs (reachable through `connect`, undefined behaviour for the class), so
  it is embedded with explicit fuel; `Err.outOfFuel` stands for the stack
  overflow of the C++ recursion.  The wrapper `remove` supplies fuel that is
  proven sufficient for acyclic graphs.
-/

set_option maxHeartbeats 1000000

namespace VirusModel

/-- Virus identifier, `Virus::id_type` of the C++ template. -/
abbrev VId := Nat

/-- One entry of the node table: the private class `VirusGenealogy::Node`.
The `shared_ptr<Virus>` payload is keyed by the identifier only (the `Virus`
object is constructed from the id and the child set stores one canonical
handle per node), so both sets are modelled as sorted id lists. -/
structure Node where
  parent_ids : List VId
  children : List VId
deriving DecidableEq, Repr

/-- The whole `VirusGenealogy` object: the stem id and the node table. -/
structure GState where
  stem_id : VId
  graph : List (VId × Node)
deriving DecidableEq, Repr

/-- The three exception classes of the header, plus the two modelling errors:
`injected` is a resource-exhaustion failure taken from the schedule, and
`outOfFuel` is the stack overflow of an unbounded recursive cascade. -/
inductive Err where
  | notFound
  | alreadyCreated
  | triedToRemoveStem
  | injected
  | outOfFuel
deriving DecidableEq, Repr

/-- Insertion into a strictly sorted id list, the effect of `std::set::insert`. -/
def setInsert (x : VId) : List VId → List VId
  | [] => [x]
  | y :: ys => if x < y then x :: y :: ys else if x = y then y :: ys else y :: setInsert x ys

/-- Removal from an id list, the effect of `std::set::erase` by key
(on a duplicate-free list it removes exactly the element, if present). -/
def setErase (x : VId) : List VId → List VId
  | [] => []
  | y :: ys => if x = y then ys else y :: setErase x ys

/-- Lookup in the association list, the effect of `std::map::find`. -/
def mfind : List (VId × Node) → VId → Option Node
  | [], _ => none
  | e :: rest, i => if i = e.1 then some e.2 else mfind rest i

/-- Keyed insertion, the effect of `std::map::insert` (no overwrite of an
existing key). -/
def minsert : List (VId × Node) → VId → Node → List (VId × Node)
  | [], i, v => [(i, v)]
  | e :: rest, i, v =>
    if i < e.1 then (i, v) :: e :: rest
    else if i = e.1 then e :: rest
    else e :: minsert rest i v

/-- Keyed removal, the effect of `std::map::erase`. -/
def merase : List (VId × Node) → VId → List (VId × Node)
  | [], _ => []
  | e :: rest, i => if i = e.1 then rest else e :: merase rest i

/-- In-place modification of one node through a map iterator
(`it->second.… = …`); modifying an absent key does nothing. -/
def mupdate (g : List (VId × Node)) (i : VId) (f : Node → Node) : List (VId × Node) :=
  g.map (fun e => if e.1 = i then (e.1, f e.2) else e)

/-- Identifiers present in the table. -/
def keys (s : GState) : List VId := s.graph.map Prod.fst

def findNode (s : GState) (i : VId) : Option Node := mfind s.graph i

def updNode (s : GState) (i : VId) (f : Node → Node) : GState :=
  { s with graph := mupdate s.graph i f }

def eraseNode (s : GState) (i : VId) : GState :=
  { s with graph := merase s.graph i }

def insNode (s : GState) (i : VId) (n : Node) : GState :=
  { s with graph := minsert s.graph i n }

/-- Consume one entry of the failure schedule; `true` means the corresponding
fallible operation throws.  An exhausted schedule injects no failures. -/
def tick : List Bool → Bool × List Bool
  | [] => (false, [])
  | b :: rest => (b, rest)

/-- Consume `k` schedule entries (one per loop iteration of a fallible loop),
reporting whether any of them throws. -/
def recordTicks : Nat → List Bool → Bool × List Bool
  | 0, sched => (false, sched)
  | k + 1, sched =>
    if (tick sched).1 then (true, (tick sched).2) else recordTicks k (tick sched).2

/-- The constructor `VirusGenealogy(stem_id)`: a table holding only the stem
node, which has no parents and no children. -/
def mkGenealogy (stem : VId) : GState :=
  { stem_id := stem, graph := [(stem, { parent_ids := [], children := [] })] }

/-- Method `get_stem_id`. -/
def get_stem_id (s : GState) : VId := s.stem_id

/-- Method `exists`. -/
def existsVirus (s : GState) (id : VId) : Bool := (findNode s id).isSome

/-- Method `get_parents`: `VirusNotFound` when absent, otherwise the vector
built from the parent set in its (sorted) iteration order.  The method is
`const`; the returned list is a value, not a view into the state. -/
def get_parents (s : GState) (id : VId) : Except Err (List VId) :=
  match findNode s id with
  | none => Except.error Err.notFound
  | some n => Except.ok n.parent_ids

/-- The parent-lookup loop of `create`: `graph.find(parent_id)` throwing
`VirusNotFound` on a miss, then `parents_its.push_back` whose allocation is
one fallible tick. -/
def lookupParents (s : GState) : List VId → List Bool → Option Err × List Bool
  | [], sched => (none, sched)
  | p :: ps, sched =>
    match findNode s p with
    | none => (some Err.notFound, sched)
    | some _ =>
      if (tick sched).1 then (some Err.injected, (tick sched).2)
      else lookupParents s ps (tick sched).2

/-- The loop filling the new node's parent set
(`new_node.parent_ids.insert(parent_id)`), one fallible tick per insertion;
the set is local, so a failure here mutates nothing visible. -/
def buildParentSet : List VId → List VId → List Bool → Option Err × List VId × List Bool
  | [], acc, sched => (none, acc, sched)
  | p :: ps, acc, sched =>
    if (tick sched).1 then (some Err.injected, acc, (tick sched).2)
    else buildParentSet ps (setInsert p acc) (tick sched).2

/-- The guarded loop of `create`'s `try` block: for each recorded parent,
`children_virus_ptrs.insert(new_node.virus)` (first tick) followed by
`edges_to_parents.push_back(it)` (second tick).  `done` accumulates the
parents whose inserted edge was also recorded; an insertion whose recording
throws is performed but not recorded, exactly as in the C++ code. -/
def insertChildEdges (id : VId) : List VId → GState → List VId → List Bool →
    Option Err × GState × List VId × List Bool
  | [], s, done, sched => (none, s, done, sched)
  | p :: ps, s, done, sched =>
    if (tick sched).1 then (some Err.injected, s, done, (tick sched).2)
    else
      if (tick (tick sched).2).1 then
        (some Err.injected,
         updNode s p (fun n => { n with children := setInsert id n.children }), done,
         (tick (tick sched).2).2)
      else
        insertChildEdges id ps
          (updNode s p (fun n => { n with children := setInsert id n.children }))
          (p :: done) (tick (tick sched).2).2

/-- The `catch` block of `create`: erase the recorded child-set entries again
(`erase` by iterator, non-throwing).  The recorded order is immaterial. -/
def rollbackChildEdges (id : VId) (done : List VId) (s : GState) : GState :=
  done.foldl (fun acc p => updNode acc p (fun n => { n with children := setErase id n.children })) s

/-- Method `create(id, parent_ids)`, translated branch by branch:
empty parent list returns silently; an existing `id` throws
`VirusAlreadyCreated`; a missing parent throws `VirusNotFound`;
`make_shared` is one tick; then the guarded edge insertions, and finally
`graph.insert({id, new_node})` (one tick) commits the node. -/
def create (s : GState) (sched : List Bool) (id : VId) (parent_ids : List VId) :
    Option Err × GState × List Bool :=
  if parent_ids = [] then (none, s, sched)
  else if (findNode s id).isSome then (some Err.alreadyCreated, s, sched)
  else match lookupParents s parent_ids sched with
    | (some e, sched1) => (some e, s, sched1)
    | (none, sched1) =>
      if (tick sched1).1 then (some Err.injected, s, (tick sched1).2)
      else match buildParentSet parent_ids [] (tick sched1).2 with
        | (some e, _, sched2) => (some e, s, sched2)
        | (none, pset, sched2) =>
          match insertChildEdges id parent_ids s [] sched2 with
          | (some e, s1, done, sched3) => (some e, rollbackChildEdges id done s1, sched3)
          | (none, s1, done, sched3) =>
            if (tick sched3).1 then
              (some Err.injected, rollbackChildEdges id done s1, (tick sched3).2)
            else (none, insNode s1 id { parent_ids := pset, children := [] }, (tick sched3).2)

/-- The single-parent overload of `create`. -/
def createOne (s : GState) (sched : List Bool) (id : VId) (parent_id : VId) :
    Option Err × GState × List Bool :=
  create s sched id [parent_id]

/-- Method `connect(child_id, parent_id)`: both lookups, then
`parent_ids.insert(parent_id)` (a duplicate is found without allocating and
the call returns; a real insertion is one tick), then the guarded
`children_virus_ptrs.insert` (one tick) whose failure rolls the parent entry
back out of the child. -/
def connect (s : GState) (sched : List Bool) (child_id parent_id : VId) :
    Option Err × GState × List Bool :=
  match findNode s child_id, findNode s parent_id with
  | some cnode, some _ =>
    if parent_id ∈ cnode.parent_ids then (none, s, sched)
    else
      if (tick sched).1 then (some Err.injected, s, (tick sched).2)
      else
        if (tick (tick sched).2).1 then
          (some Err.injected,
           updNode (updNode s child_id
               (fun n => { n with parent_ids := setInsert parent_id n.parent_ids }))
             child_id (fun n => { n with parent_ids := setErase parent_id n.parent_ids }),
           (tick (tick sched).2).2)
        else
          (none,
           updNode (updNode s child_id
               (fun n => { n with parent_ids := setInsert parent_id n.parent_ids }))
             parent_id (fun n => { n with children := setInsert child_id n.children }),
           (tick (tick sched).2).2)
  | _, _ => (some Err.notFound, s, sched)

/-- The children loop of `remove`, iterating the child set recorded at entry
(the C++ code iterates the live `std::set`; during a cascade from a
consistent state the set is never mutated while being iterated, see the
invariant development below).  Each iteration: the by-value `get_id` copy is
one tick; the lookup of the child (which the C++ code dereferences
unchecked — a miss is undefined behaviour there and is modelled as skipping
the child); `parent_ids.erase(id)`; and when the parent set became empty the
recursive removal, whose failure triggers the `catch` block that re-inserts
`id` (one tick, since `std::set::insert` allocates) and rethrows. -/
def childPass (recRemove : GState → List Bool → VId → Option Err × GState × List Bool)
    (id : VId) : List VId → GState → List Bool → Option Err × GState × List Bool
  | [], s, sched => (none, s, sched)
  | c :: cs, s, sched =>
    if (tick sched).1 then (some Err.injected, s, (tick sched).2)
    else match findNode s c with
      | none => childPass recRemove id cs s (tick sched).2
      | some cnode =>
        if setErase id cnode.parent_ids = [] then
          match recRemove
              (updNode s c (fun n => { n with parent_ids := setErase id cnode.parent_ids }))
              (tick sched).2 c with
          | (none, s2, sched2) => childPass recRemove id cs s2 sched2
          | (some e, s2, sched2) =>
            if (tick sched2).1 then (some Err.injected, s2, (tick sched2).2)
            else
              (some e,
               updNode s2 c (fun n => { n with parent_ids := setInsert id n.parent_ids }),
               (tick sched2).2)
        else
          childPass recRemove id cs
            (updNode s c (fun n => { n with parent_ids := setErase id cnode.parent_ids }))
            (tick sched).2

/-- Method `remove(id)` with explicit recursion fuel: the stem check before
any lookup, the lookup throwing `VirusNotFound`, the parent-iterator
recording loop (one `push_back` tick per parent), the children loop, and
finally the removal of the node's handle from every recorded parent's child
set followed by `graph.erase(id)` (both erasures non-throwing; a recorded
parent that disappeared during the cascade — impossible from a consistent
state, undefined behaviour in C++ — is skipped). -/
def removeAux : Nat → GState → List Bool → VId → Option Err × GState × List Bool
  | 0, s, sched, _ => (some Err.outOfFuel, s, sched)
  | fuel + 1, s, sched, id =>
    if id = s.stem_id then (some Err.triedToRemoveStem, s, sched)
    else match findNode s id with
      | none => (some Err.notFound, s, sched)
      | some node =>
        match recordTicks node.parent_ids.length sched with
        | (true, sched1) => (some Err.injected, s, sched1)
        | (false, sched1) =>
          match childPass (removeAux fuel) id node.children s sched1 with
          | (some e, s2, sched2) => (some e, s2, sched2)
          | (none, s2, sched2) =>
            (none,
             eraseNode
               (node.parent_ids.foldl
                 (fun acc p =>
                   updNode acc p (fun n => { n with children := setErase id n.children })) s2)
               id,
             sched2)

/-- Total number of parent-set entries in the table; each recursive call of
the cascade is preceded by a successful erasure of one such entry, so
`totalParents s + 1` bounds the recursion depth on consistent acyclic
graphs. -/
def totalParents (s : GState) : Nat :=
  (s.graph.map (fun e => e.2.parent_ids.length)).sum

/-- Method `remove(id)`: the recursion with fuel sufficient for every graph
on which the C++ recursion terminates. -/
def remove (s : GState) (sched : List Bool) (id : VId) : Option Err × GState × List Bool :=
  removeAux (totalParents s + 1) s sched id

/-! ### Sorted id lists -/

/-- Strictly ascending (hence duplicate-free) id list: the contents of a
`std::set` ordered by the id order. -/
def SortedIds (l : List VId) : Prop := l.Pairwise (· < ·)

lemma SortedIds.nodup {l : List VId} (h : SortedIds l) : l.Nodup :=
  List.Pairwise.nodup h

lemma mem_setInsert {x y : VId} {l : List VId} :
    y ∈ setInsert x l ↔ y = x ∨ y ∈ l := by
  induction l with
  | nil => simp [setInsert]
  | cons z zs ih =>
    by_cases h1 : x < z
    · simp [setInsert, h1]
    · by_cases h2 : x = z
      · subst h2
        have hrw : setInsert x (x :: zs) = x :: zs := by simp [setInsert, h1]
        rw [hrw]
        simp only [List.mem_cons]
        tauto
      · simp [setInsert, h1, h2, ih]
        tauto

lemma setInsert_ne_nil {x : VId} {l : List VId} : setInsert x l ≠ [] := by
  cases l with
  | nil => simp [setInsert]
  | cons z zs =>
    by_cases h1 : x < z
    · simp [setInsert, h1]
    · by_cases h2 : x = z
      · simp [setInsert, h1, h2]
      · simp [setInsert, h1, h2]

lemma sorted_setInsert {x : VId} {l : List VId} (h : SortedIds l) :
    SortedIds (setInsert x l) := by
  induction l with
  | nil => simp [setInsert, SortedIds]
  | cons z zs ih =>
    rcases List.pairwise_cons.mp h with ⟨hz, hzs⟩
    by_cases h1 : x < z
    · have : SortedIds (x :: z :: zs) := by
        refine List.pairwise_cons.mpr ⟨?_, h⟩
        intro y hy
        rcases List.mem_cons.mp hy with rfl | hy
        · exact h1
        · exact h1.trans (hz y hy)
      simpa [setInsert, h1] using this
    · by_cases h2 : x = z
      · rw [show setInsert x (z :: zs) = z :: zs by simp [setInsert, h1, h2]]
        exact h
      · have hzx : z < x := Nat.lt_of_le_of_ne (Nat.le_of_not_lt h1) (Ne.symm h2)
        have : SortedIds (z :: setInsert x zs) := by
          refine List.pairwise_cons.mpr ⟨?_, ih hzs⟩
          intro y hy
          rcases mem_setInsert.mp hy with rfl | hy
          · exact hzx
          · exact hz y hy
        simpa [setInsert, h1, h2] using this

lemma setErase_sublist (x : VId) (l : List VId) : (setErase x l).Sublist l := by
  induction l with
  | nil => simp [setErase]
  | cons z zs ih =>
    by_cases h : x = z
    · simpa [setErase, h] using List.sublist_cons_self z zs
    · simpa [setErase, h] using ih.cons₂ z

lemma mem_of_mem_setErase {x y : VId} {l : List VId} (h : y ∈ setErase x l) : y ∈ l :=
  (setErase_sublist x l).mem h

lemma sorted_setErase {x : VId} {l : List VId} (h : SortedIds l) :
    SortedIds (setErase x l) :=
  List.Pairwise.sublist (setErase_sublist x l) h

lemma mem_setErase_of_ne {x y : VId} {l : List VId} (hy : y ∈ l) (hne : y ≠ x) :
    y ∈ setErase x l := by
  induction l with
  | nil => simp at hy
  | cons z zs ih =>
    by_cases h : x = z
    · subst h
      rcases List.mem_cons.mp hy with rfl | hy
      · exact absurd rfl hne
      · simpa [setErase] using hy
    · rcases List.mem_cons.mp hy with rfl | hy
      · simp [setErase, h]
      · simp only [setErase, if_neg h, List.mem_cons]
        exact Or.inr (ih hy)

lemma not_mem_setErase_self {x : VId} {l : List VId} (h : l.Nodup) :
    x ∉ setErase x l := by
  induction l with
  | nil => simp [setErase]
  | cons z zs ih =>
    rcases List.nodup_cons.mp h with ⟨hz, hzs⟩
    by_cases hx : x = z
    · subst hx; simpa [setErase] using hz
    · simp only [setErase, if_neg hx, List.mem_cons]
      rintro (rfl | hmem)
      · exact hx rfl
      · exact ih hzs hmem

lemma mem_setErase {x y : VId} {l : List VId} (h : l.Nodup) :
    y ∈ setErase x l ↔ y ∈ l ∧ y ≠ x := by
  constructor
  · intro hy
    refine ⟨mem_of_mem_setErase hy, ?_⟩
    rintro rfl
    exact not_mem_setErase_self h hy
  · rintro ⟨hy, hne⟩
    exact mem_setErase_of_ne hy hne

lemma setErase_of_not_mem {x : VId} {l : List VId} (h : x ∉ l) :
    setErase x l = l := by
  induction l with
  | nil => rfl
  | cons z zs ih =>
    simp only [List.mem_cons, not_or] at h
    simp [setErase, h.1, ih h.2]

lemma length_setErase_of_mem {x : VId} {l : List VId} (h : x ∈ l) :
    (setErase x l).length + 1 = l.length := by
  induction l with
  | nil => simp at h
  | cons z zs ih =>
    by_cases hx : x = z
    · simp [setErase, hx]
    · rcases List.mem_cons.mp h with rfl | hmem
      · exact absurd rfl hx
      · have := ih hmem
        simp only [setErase, if_neg hx, List.length_cons]
        omega

lemma length_setErase_le (x : VId) (l : List VId) :
    (setErase x l).length ≤ l.length :=
  (setErase_sublist x l).length_le

lemma setInsert_setErase_of_mem {x : VId} {l : List VId} (hs : SortedIds l)
    (h : x ∈ l) : setInsert x (setErase x l) = l := by
  induction l with
  | nil => simp at h
  | cons z zs ih =>
    rcases List.pairwise_cons.mp hs with ⟨hz, hzs⟩
    by_cases hx : x = z
    · subst hx
      simp only [setErase, if_pos rfl]
      cases zs with
      | nil => rfl
      | cons w ws =>
        have hw : x < w := hz w (List.mem_cons_self w ws)
        simp [setInsert, hw]
    · rcases List.mem_cons.mp h with rfl | hmem
      · exact absurd rfl hx
      · have hzx : z < x := hz x hmem
        have h1 : ¬ x < z := Nat.not_lt.mpr (Nat.le_of_lt hzx)
        simp [setErase, hx, setInsert, h1, ih hzs hmem]

lemma setErase_setInsert_of_not_mem {x : VId} {l : List VId} (h : x ∉ l) :
    setErase x (setInsert x l) = l := by
  induction l with
  | nil => simp [setInsert, setErase]
  | cons z zs ih =>
    simp only [List.mem_cons, not_or] at h
    by_cases h1 : x < z
    · simp [setInsert, h1, setErase]
    · simp only [setInsert, if_neg h1, if_neg h.1, setErase, if_neg h.1]
      rw [ih h.2]

/-! ### Association-list map lemmas -/

lemma mfind_eq_some_mem {g : List (VId × Node)} {i : VId} {n : Node}
    (h : mfind g i = some n) : (i, n) ∈ g := by
  induction g with
  | nil => simp [mfind] at h
  | cons e rest ih =>
    by_cases he : i = e.1
    · simp only [mfind, if_pos he, Option.some_inj] at h
      subst h
      subst he
      exact List.mem_cons.mpr (Or.inl rfl)
    · simp only [mfind, if_neg he] at h
      exact List.mem_cons.mpr (Or.inr (ih h))

lemma mfind_isSome_iff {g : List (VId × Node)} {i : VId} :
    (mfind g i).isSome ↔ i ∈ g.map Prod.fst := by
  induction g with
  | nil => simp [mfind]
  | cons e rest ih =>
    by_cases he : i = e.1
    · simp [mfind, he]
    · simp [mfind, he, ih]

lemma mfind_eq_none_iff {g : List (VId × Node)} {i : VId} :
    mfind g i = none ↔ i ∉ g.map Prod.fst := by
  rw [← mfind_isSome_iff, Option.not_isSome_iff_eq_none]

lemma mem_map_fst_of_mfind {g : List (VId × Node)} {i : VId} {n : Node}
    (h : mfind g i = some n) : i ∈ g.map Prod.fst := by
  rw [← mfind_isSome_iff, h]
  rfl

lemma mfind_of_mem {g : List (VId × Node)} {i : VId} {n : Node}
    (hnd : (g.map Prod.fst).Nodup) (h : (i, n) ∈ g) : mfind g i = some n := by
  induction g with
  | nil => simp at h
  | cons e rest ih =>
    rcases List.nodup_cons.mp hnd with ⟨he, hrest⟩
    rcases List.mem_cons.mp h with rfl | hmem
    · simp [mfind]
    · have hne : i ≠ e.1 := by
        rintro rfl
        exact he (List.mem_map.mpr ⟨(e.1, n), hmem, rfl⟩)
      simp [mfind, hne, ih hrest hmem]

lemma mupdate_cons (e : VId × Node) (rest : List (VId × Node)) (i : VId) (f : Node → Node) :
    mupdate (e :: rest) i f =
      (if e.1 = i then (e.1, f e.2) else e) :: mupdate rest i f := rfl

lemma mupdate_head_fst (e : VId × Node) (i : VId) (f : Node → Node) :
    (if e.1 = i then (e.1, f e.2) else e).1 = e.1 := by
  split
  · rfl
  · rfl

lemma mupdate_map_fst (g : List (VId × Node)) (i : VId) (f : Node → Node) :
    (mupdate g i f).map Prod.fst = g.map Prod.fst := by
  induction g with
  | nil => rfl
  | cons e rest ih =>
    by_cases he : e.1 = i
    · simp [mupdate, he] at ih ⊢
      exact ih
    · simp [mupdate, he] at ih ⊢
      exact ih

lemma mfind_mupdate_self (g : List (VId × Node)) (i : VId) (f : Node → Node) :
    mfind (mupdate g i f) i = (mfind g i).map f := by
  induction g with
  | nil => rfl
  | cons e rest ih =>
    by_cases he : e.1 = i
    · simp [mupdate, mfind, he]
    · have hne : i ≠ e.1 := fun h => he h.symm
      simp only [mupdate, List.map_cons, if_neg he]
      simp only [mfind, if_neg hne]
      exact ih

lemma mfind_mupdate_ne (g : List (VId × Node)) {i j : VId} (f : Node → Node)
    (h : j ≠ i) : mfind (mupdate g i f) j = mfind g j := by
  induction g with
  | nil => rfl
  | cons e rest ih =>
    rw [mupdate_cons]
    by_cases hj : j = e.1
    · have hei : ¬ e.1 = i := fun hc => h (hj.trans hc)
      rw [if_neg hei]
      simp only [mfind, if_pos hj]
    · simp only [mfind, mupdate_head_fst, if_neg hj]
      exact ih

lemma mem_mupdate {g : List (VId × Node)} {i : VId} {f : Node → Node} {e : VId × Node}
    (h : e ∈ mupdate g i f) :
    ∃ e0 ∈ g, e.1 = e0.1 ∧ (e.2 = e0.2 ∨ e.2 = f e0.2) := by
  rcases List.mem_map.mp h with ⟨e0, he0, heq⟩
  by_cases hi : e0.1 = i
  · refine ⟨e0, he0, ?_⟩
    rw [if_pos hi] at heq
    subst heq
    exact ⟨rfl, Or.inr rfl⟩
  · refine ⟨e0, he0, ?_⟩
    rw [if_neg hi] at heq
    subst heq
    exact ⟨rfl, Or.inl rfl⟩

lemma merase_map_fst (g : List (VId × Node)) (i : VId) :
    (merase g i).map Prod.fst = setErase i (g.map Prod.fst) := by
  induction g with
  | nil => rfl
  | cons e rest ih =>
    by_cases he : i = e.1
    · simp [merase, setErase, he]
    · simp [merase, setErase, he, ih]

lemma merase_sublist (g : List (VId × Node)) (i : VId) : (merase g i).Sublist g := by
  induction g with
  | nil => simp [merase]
  | cons e rest ih =>
    by_cases he : i = e.1
    · simpa [merase, he] using List.sublist_cons_self e rest
    · simpa [merase, he] using ih.cons₂ e

lemma merase_cons (e : VId × Node) (rest : List (VId × Node)) (i : VId) :
    merase (e :: rest) i = if i = e.1 then rest else e :: merase rest i := rfl

lemma mfind_merase_ne (g : List (VId × Node)) {i j : VId} (h : j ≠ i) :
    mfind (merase g i) j = mfind g j := by
  induction g with
  | nil => rfl
  | cons e rest ih =>
    rw [merase_cons]
    by_cases he : i = e.1
    · rw [if_pos he]
      have hj : ¬ j = e.1 := fun hc => h (hc.trans he.symm)
      simp only [mfind, if_neg hj]
    · rw [if_neg he]
      by_cases hj : j = e.1
      · simp only [mfind, if_pos hj]
      · simp only [mfind, if_neg hj]
        exact ih

lemma mfind_merase_self (g : List (VId × Node)) (i : VId)
    (hnd : (g.map Prod.fst).Nodup) : mfind (merase g i) i = none := by
  rw [mfind_eq_none_iff, merase_map_fst]
  exact not_mem_setErase_self hnd

lemma minsert_map_fst (g : List (VId × Node)) (i : VId) (v : Node) :
    (minsert g i v).map Prod.fst = setInsert i (g.map Prod.fst) := by
  induction g with
  | nil => rfl
  | cons e rest ih =>
    by_cases h1 : i < e.1
    · simp [minsert, setInsert, h1]
    · by_cases h2 : i = e.1
      · simp [minsert, setInsert, h1, h2]
      · simp [minsert, setInsert, h1, h2, ih]

lemma mfind_minsert_self (g : List (VId × Node)) {i : VId} (v : Node)
    (h : i ∉ g.map Prod.fst) : mfind (minsert g i v) i = some v := by
  induction g with
  | nil => simp [minsert, mfind]
  | cons e rest ih =>
    simp only [List.map_cons, List.mem_cons, not_or] at h
    by_cases h1 : i < e.1
    · simp [minsert, mfind, h1]
    · simp only [minsert, if_neg h1, if_neg h.1]
      simp only [mfind, if_neg h.1]
      exact ih h.2

lemma mfind_minsert_ne (g : List (VId × Node)) {i j : VId} (v : Node)
    (h : j ≠ i) : mfind (minsert g i v) j = mfind g j := by
  induction g with
  | nil => simp [minsert, mfind, h]
  | cons e rest ih =>
    by_cases h1 : i < e.1
    · simp only [minsert, if_pos h1]
      simp only [mfind, if_neg h]
    · by_cases h2 : i = e.1
      · simp [minsert, h1, h2]
      · by_cases hj : j = e.1
        · simp [minsert, mfind, h1, h2, hj]
        · simp only [minsert, if_neg h1, if_neg h2]
          simp only [mfind, if_neg hj]
          exact ih

lemma mem_minsert {g : List (VId × Node)} {i : VId} {v : Node} {e : VId × Node}
    (h : e ∈ minsert g i v) : e = (i, v) ∨ e ∈ g := by
  induction g with
  | nil => simpa [minsert] using h
  | cons e0 rest ih =>
    by_cases h1 : i < e0.1
    · simp only [minsert, if_pos h1, List.mem_cons] at h
      rcases h with rfl | h
      · exact Or.inl rfl
      · exact Or.inr (List.mem_cons.mpr h)
    · by_cases h2 : i = e0.1
      · simp only [minsert, if_neg h1, if_pos h2] at h
        exact Or.inr h
      · simp only [minsert, if_neg h1, if_neg h2, List.mem_cons] at h
        rcases h with rfl | h
        · exact Or.inr (List.mem_cons_self _ _)
        · rcases ih h with h | h
          · exact Or.inl h
          · exact Or.inr (List.mem_cons.mpr (Or.inr h))

/-! ### Invariants of the node table -/

/-- Parent-id set of a node, empty for an absent id. -/
def parentsOf (s : GState) (i : VId) : List VId :=
  ((findNode s i).map Node.parent_ids).getD []

/-- Child-id set of a node, empty for an absent id. -/
def childrenOf (s : GState) (i : VId) : List VId :=
  ((findNode s i).map Node.children).getD []

/-- Representation well-formedness: the `std::map` is keyed in strictly
ascending order and every `std::set` field is strictly ascending. -/
def WF (s : GState) : Prop :=
  (s.graph.map Prod.fst).Pairwise (· < ·) ∧
  ∀ e ∈ s.graph, SortedIds e.2.parent_ids ∧ SortedIds e.2.children

/-- Spec invariant I1: every recorded parent exists and lists the node among
its children (edge symmetry, in the parent-to-children direction). -/
def SpecI1 (s : GState) : Prop :=
  ∀ e ∈ s.graph, ∀ p ∈ e.2.parent_ids, p ∈ keys s ∧ e.1 ∈ childrenOf s p

/-- Spec invariant I2: the stem node exists and has no parents. -/
def SpecI2 (s : GState) : Prop :=
  s.stem_id ∈ keys s ∧ parentsOf s s.stem_id = []

/-- Spec invariant I3: every non-stem node has at least one parent. -/
def SpecI3 (s : GState) : Prop :=
  ∀ e ∈ s.graph, e.1 ≠ s.stem_id → e.2.parent_ids ≠ []

/-- Spec invariant I4: identifiers are unique across the table. -/
def SpecI4 (s : GState) : Prop := (keys s).Nodup

/-- Reverse edge symmetry, with an exception list: every child recorded by a
node outside `ex` exists and lists that node among its parents.  The running
code maintains it with `ex = []`; during a cascading removal it only holds
away from the removal stack. -/
def ChildrenBacked (s : GState) (ex : List VId) : Prop :=
  ∀ e ∈ s.graph, e.1 ∉ ex → ∀ c ∈ e.2.children, c ∈ keys s ∧ e.1 ∈ parentsOf s c

/-- The full invariant package maintained by the implementation between
calls (spec I4 follows from `WF`). -/
def Invariant (s : GState) : Prop :=
  WF s ∧ SpecI1 s ∧ SpecI2 s ∧ SpecI3 s ∧ ChildrenBacked s []

instance decSortedIds (l : List VId) : Decidable (SortedIds l) := by
  unfold SortedIds
  infer_instance

instance decWF (s : GState) : Decidable (WF s) := by
  unfold WF
  infer_instance

instance decSpecI1 (s : GState) : Decidable (SpecI1 s) := by
  unfold SpecI1
  infer_instance

instance decSpecI2 (s : GState) : Decidable (SpecI2 s) := by
  unfold SpecI2
  infer_instance

instance decSpecI3 (s : GState) : Decidable (SpecI3 s) := by
  unfold SpecI3
  infer_instance

instance decSpecI4 (s : GState) : Decidable (SpecI4 s) := by
  unfold SpecI4
  infer_instance

instance decChildrenBacked (s : GState) (ex : List VId) :
    Decidable (ChildrenBacked s ex) := by
  unfold ChildrenBacked
  infer_instance

instance decInvariant (s : GState) : Decidable (Invariant s) := by
  unfold Invariant
  infer_instance

lemma WF.nodup_keys {s : GState} (h : WF s) : (keys s).Nodup :=
  List.Pairwise.nodup h.1

lemma mem_keys_iff {s : GState} {i : VId} : i ∈ keys s ↔ (findNode s i).isSome :=
  mfind_isSome_iff.symm

lemma findNode_eq_none_iff {s : GState} {i : VId} :
    findNode s i = none ↔ i ∉ keys s := mfind_eq_none_iff

lemma parentsOf_eq {s : GState} {i : VId} {n : Node} (h : findNode s i = some n) :
    parentsOf s i = n.parent_ids := by
  simp [parentsOf, h]

lemma childrenOf_eq {s : GState} {i : VId} {n : Node} (h : findNode s i = some n) :
    childrenOf s i = n.children := by
  simp [childrenOf, h]

/-! ### Claim C8: `create` with an empty parent list is a silent no-op
(`virus_genealogy.h` line 170: `if (parent_ids.empty()) return;`). -/

/-- Claim C8: for every graph, schedule and identifier — present, absent or
even the stem — `create(id, [])` raises no error, creates no node and
returns the state untouched. -/
theorem c8_create_empty_parents_noop (s : GState) (sched : List Bool) (id : VId) :
    create s sched id [] = (none, s, sched) := by
  simp [create]

/-! ### Claim C7: `create` on an existing id.  The empty-parent-list early
return precedes the `VirusAlreadyCreated` check, so the claim as frozen
(quantified over every parent list) fails on the empty list. -/

/-- Counterexample to claim C7 as stated: in the freshly constructed
genealogy the stem id `0` is present, yet `create(0, [])` raises nothing
(and in particular not `VirusAlreadyCreated`). -/
theorem c7_counterexample :
    (findNode (mkGenealogy 0) 0).isSome = true ∧
    (create (mkGenealogy 0) [] 0 []).1 = none := by
  decide

/-- Claim C7 amended: for every NON-EMPTY parent list, `create` on an id
already present in the table raises `VirusAlreadyCreated` and never mutates
the graph (under any failure schedule; the check precedes every fallible
operation). -/
theorem c7_amended_create_existing_raises (s : GState) (sched : List Bool) (id : VId)
    (parent_ids : List VId) (hne : parent_ids ≠ [])
    (hid : (findNode s id).isSome) :
    create s sched id parent_ids = (some Err.alreadyCreated, s, sched) := by
  simp [create, hne, hid]

/-- Witness for `c7_amended_create_existing_raises` at a concrete input. -/
theorem c7_amended_witness :
    create (mkGenealogy 0) [] 0 [0] = (some Err.alreadyCreated, mkGenealogy 0, []) :=
  c7_amended_create_existing_raises (mkGenealogy 0) [] 0 [0] (by decide) (by decide)

/-! ### Claim C9: `get_parents` (lines 135–143). -/

/-- Claim C9: `get_parents` raises `VirusNotFound` on an absent id, returns
the empty sequence on the stem of a graph satisfying I2, and otherwise
returns the node's parent identifiers as a value (a snapshot: the method is
`const` and the result is a copy, which in this embedding is expressed by
`get_parents` being a pure function of the state). -/
theorem c9_get_parents_spec (s : GState) (id : VId) :
    (findNode s id = none → get_parents s id = Except.error Err.notFound) ∧
    (SpecI2 s → get_parents s s.stem_id = Except.ok []) ∧
    (∀ n, findNode s id = some n → get_parents s id = Except.ok n.parent_ids) := by
  refine ⟨?_, ?_, ?_⟩
  · intro h
    simp [get_parents, h]
  · rintro ⟨hmem, hpar⟩
    rcases Option.isSome_iff_exists.mp (mem_keys_iff.mp hmem) with ⟨n, hn⟩
    have : n.parent_ids = [] := by
      have := parentsOf_eq hn
      rw [hpar] at this
      exact this.symm
    simp [get_parents, hn, this]
  · intro n h
    simp [get_parents, h]

/-- Witness for `c9_get_parents_spec` at a concrete input. -/
theorem c9_get_parents_witness :
    (findNode (mkGenealogy 0) 1 = none →
      get_parents (mkGenealogy 0) 1 = Except.error Err.notFound) ∧
    (SpecI2 (mkGenealogy 0) → get_parents (mkGenealogy 0) 0 = Except.ok []) ∧
    (∀ n, findNode (mkGenealogy 0) 1 = some n →
      get_parents (mkGenealogy 0) 1 = Except.ok n.parent_ids) :=
  c9_get_parents_spec (mkGenealogy 0) 1

/-! ### Counterexample state for the removal claims: stem `0`, and nodes
`1 ∈ {0}`, `2 ∈ {0,1}`, `3 ∈ {1}`, `4 ∈ {0,3}` (buildable by four `create`
calls).  During `remove 1` the children of `1` are visited in the order
`2, 3`; node `2` only loses the parent link to `1`, node `3` becomes
parentless and is removed recursively, and that nested removal can fail at
the tick for its child `4`. -/
def cascadeState : GState :=
  { stem_id := 0,
    graph := [
      (0, { parent_ids := [], children := [1, 2, 4] }),
      (1, { parent_ids := [0], children := [2, 3] }),
      (2, { parent_ids := [0, 1], children := [] }),
      (3, { parent_ids := [1], children := [4] }),
      (4, { parent_ids := [0, 3], children := [] })] }

/-- Counterexample to claim C2 as stated: `remove 1` on `cascadeState` with
a resource failure injected into the nested recursive removal of node `3`
raises an error, yet the post-call state differs from the pre-call state —
node `2` has lost its parent link to `1`, because the `catch` block of the
children loop only restores the parent set of the child whose recursive
removal failed, not the links already severed for earlier siblings. -/
theorem c2_counterexample :
    (remove cascadeState [false, false, false, true, false] 1).1 = some Err.injected ∧
    (remove cascadeState [false, false, false, true, false] 1).2.1 ≠ cascadeState ∧
    parentsOf (remove cascadeState [false, false, false, true, false] 1).2.1 2 = [0] ∧
    parentsOf cascadeState 2 = [0, 1] := by
  decide

/-- Counterexample to claim C3 as stated: on `cascadeState`, injecting one
failure into the nested removal of node `3` and a second failure into the
`catch`-block re-insertion `child_node->second.parent_ids.insert(id)` leaves
node `3` present with an empty parent set, so invariant I3 (every non-stem
node has at least one parent) is violated after the failed call. -/
theorem c3_counterexample :
    (remove cascadeState [false, false, false, true, true] 1).1 = some Err.injected ∧
    ¬ SpecI3 (remove cascadeState [false, false, false, true, true] 1).2.1 := by
  decide

/-! ### State-level update lemmas -/

lemma findNode_updNode_self (s : GState) (i : VId) (f : Node → Node) :
    findNode (updNode s i f) i = (findNode s i).map f :=
  mfind_mupdate_self s.graph i f

lemma findNode_updNode_ne (s : GState) {i j : VId} (f : Node → Node) (h : j ≠ i) :
    findNode (updNode s i f) j = findNode s j :=
  mfind_mupdate_ne s.graph f h

lemma keys_updNode (s : GState) (i : VId) (f : Node → Node) :
    keys (updNode s i f) = keys s :=
  mupdate_map_fst s.graph i f

lemma stem_updNode (s : GState) (i : VId) (f : Node → Node) :
    (updNode s i f).stem_id = s.stem_id := rfl

lemma mupdate_mupdate (g : List (VId × Node)) (i : VId) (f h : Node → Node) :
    mupdate (mupdate g i f) i h = mupdate g i (fun n => h (f n)) := by
  induction g with
  | nil => rfl
  | cons e rest ih =>
    rw [mupdate_cons, mupdate_cons, mupdate_cons]
    by_cases he : e.1 = i
    · simp only [if_pos he, ih]
    · simp only [if_neg he, if_neg he, ih]

lemma mupdate_congr_id {g : List (VId × Node)} {i : VId} {f : Node → Node}
    (h : ∀ e ∈ g, e.1 = i → f e.2 = e.2) : mupdate g i f = g := by
  induction g with
  | nil => rfl
  | cons e rest ih =>
    rw [mupdate_cons]
    by_cases he : e.1 = i
    · rw [if_pos he, h e (List.mem_cons_self e rest) he]
      rw [ih (fun e0 h0 hi => h e0 (List.mem_cons.mpr (Or.inr h0)) hi)]
    · rw [if_neg he, ih (fun e0 h0 hi => h e0 (List.mem_cons.mpr (Or.inr h0)) hi)]

lemma updNode_updNode (s : GState) (i : VId) (f h : Node → Node) :
    updNode (updNode s i f) i h = updNode s i (fun n => h (f n)) :=
  congrArg (fun g => GState.mk s.stem_id g) (mupdate_mupdate s.graph i f h)

lemma updNode_congr_id {s : GState} {i : VId} {f : Node → Node}
    (h : ∀ e ∈ s.graph, e.1 = i → f e.2 = e.2) : updNode s i f = s := by
  show GState.mk s.stem_id (mupdate s.graph i f) = s
  rw [mupdate_congr_id h]

lemma setInsert_idem (x : VId) (l : List VId) :
    setInsert x (setInsert x l) = setInsert x l := by
  induction l with
  | nil => simp [setInsert]
  | cons z zs ih =>
    by_cases h1 : x < z
    · simp [setInsert, h1]
    · by_cases h2 : x = z
      · simp [setInsert, h1, h2]
      · simp only [setInsert, if_neg h1, if_neg h2]
        rw [ih]

lemma setErase_idem_of_nodup {x : VId} {l : List VId} (h : l.Nodup) :
    setErase x (setErase x l) = setErase x l :=
  setErase_of_not_mem (not_mem_setErase_self h)

/-! ### Claim C6: `connect` (lines 221–239). -/

/-- Claim C6: `connect` is idempotent — a parent already recorded makes the
call a no-op without error under any schedule, and two identical calls yield
the same graph as one; either absent endpoint raises `VirusNotFound`
unchanged; and any failing `connect` on a well-formed state rolls the
half-added edge back and returns the state exactly as it was. -/
theorem c6_connect_spec :
    (∀ s sched c p cn, findNode s c = some cn → (findNode s p).isSome →
       p ∈ cn.parent_ids → connect s sched c p = (none, s, sched)) ∧
    (∀ s c p, (connect (connect s [] c p).2.1 [] c p).2.1 = (connect s [] c p).2.1) ∧
    (∀ s sched c p, (findNode s c = none ∨ findNode s p = none) →
       connect s sched c p = (some Err.notFound, s, sched)) ∧
    (∀ s sched c p e s2 sched2, WF s →
       connect s sched c p = (some e, s2, sched2) → s2 = s) := by
  have hnoop : ∀ s sched c p cn, findNode s c = some cn → (findNode s p).isSome →
      p ∈ cn.parent_ids → connect s sched c p = (none, s, sched) := by
    intro s sched c p cn hc hp hmem
    rcases Option.isSome_iff_exists.mp hp with ⟨pn, hpn⟩
    simp [connect, hc, hpn, hmem]
  have habsent : ∀ s sched c p, (findNode s c = none ∨ findNode s p = none) →
      connect s sched c p = (some Err.notFound, s, sched) := by
    intro s sched c p h
    cases hc : findNode s c with
    | none =>
      cases hp : findNode s p with
      | none => simp [connect, hc, hp]
      | some pn => simp [connect, hc, hp]
    | some cn =>
      cases hp : findNode s p with
      | none => simp [connect, hc, hp]
      | some pn =>
        rcases h with h | h
        · rw [hc] at h; cases h
        · rw [hp] at h; cases h
  refine ⟨hnoop, ?_, habsent, ?_⟩
  · intro s c p
    cases hc : findNode s c with
    | none => rw [habsent s [] c p (Or.inl hc), habsent s [] c p (Or.inl hc)]
    | some cn =>
      cases hp : findNode s p with
      | none => rw [habsent s [] c p (Or.inr hp), habsent s [] c p (Or.inr hp)]
      | some pn =>
        by_cases hmem : p ∈ cn.parent_ids
        · rw [hnoop s [] c p cn hc (by simp [hp]) hmem,
              hnoop s [] c p cn hc (by simp [hp]) hmem]
        · have hfirst : connect s [] c p =
              (none,
               updNode (updNode s c
                 (fun n => { n with parent_ids := setInsert p n.parent_ids })) p
                 (fun n => { n with children := setInsert c n.children }), []) := by
            simp [connect, hc, hp, hmem, tick]
          rw [hfirst]
          by_cases hcp : c = p
          · subst hcp
            have h1 : findNode (updNode s c
                (fun n => { n with parent_ids := setInsert c n.parent_ids })) c =
                some { cn with parent_ids := setInsert c cn.parent_ids } := by
              rw [findNode_updNode_self, hc]; rfl
            have h2 : findNode (updNode (updNode s c
                (fun n => { n with parent_ids := setInsert c n.parent_ids })) c
                (fun n => { n with children := setInsert c n.children })) c =
                some { parent_ids := setInsert c cn.parent_ids,
                       children := setInsert c cn.children } := by
              rw [findNode_updNode_self, h1]; rfl
            rw [hnoop _ [] c c _ h2 (by rw [h2]; rfl)
              (mem_setInsert.mpr (Or.inl rfl))]
          · have h1 : findNode (updNode s c
                (fun n => { n with parent_ids := setInsert p n.parent_ids })) c =
                some { cn with parent_ids := setInsert p cn.parent_ids } := by
              rw [findNode_updNode_self, hc]; rfl
            have h2 : findNode (updNode (updNode s c
                (fun n => { n with parent_ids := setInsert p n.parent_ids })) p
                (fun n => { n with children := setInsert c n.children })) c =
                some { cn with parent_ids := setInsert p cn.parent_ids } := by
              rw [findNode_updNode_ne _ _ hcp, h1]
            have hp1 : findNode (updNode s c
                (fun n => { n with parent_ids := setInsert p n.parent_ids })) p =
                some pn := by
              rw [findNode_updNode_ne _ _ (fun hh => hcp hh.symm), hp]
            have hp2 : (findNode (updNode (updNode s c
                (fun n => { n with parent_ids := setInsert p n.parent_ids })) p
                (fun n => { n with children := setInsert c n.children })) p).isSome := by
              rw [findNode_updNode_self, hp1]; rfl
            rw [hnoop _ [] c p _ h2 hp2 (mem_setInsert.mpr (Or.inl rfl))]
  · intro s sched c p e s2 sched2 hwf h
    cases hc : findNode s c with
    | none =>
      rw [habsent s sched c p (Or.inl hc)] at h
      cases h; rfl
    | some cn =>
      cases hp : findNode s p with
      | none =>
        rw [habsent s sched c p (Or.inr hp)] at h
        cases h; rfl
      | some pn =>
        by_cases hmem : p ∈ cn.parent_ids
        · rw [hnoop s sched c p cn hc (by simp [hp]) hmem] at h
          cases h
        · simp only [connect, hc, hp, if_neg hmem] at h
          by_cases ht1 : (tick sched).1
          · rw [if_pos ht1] at h
            cases h; rfl
          · rw [if_neg ht1] at h
            by_cases ht2 : (tick (tick sched).2).1
            · rw [if_pos ht2] at h
              have hstate : updNode (updNode s c
                  (fun n => { n with parent_ids := setInsert p n.parent_ids })) c
                  (fun n => { n with parent_ids := setErase p n.parent_ids }) = s2 :=
                congrArg (fun x => x.2.1) h
              rw [← hstate, updNode_updNode]
              apply updNode_congr_id
              intro e0 he0 hfst
              have hfind : findNode s c = some e0.2 :=
                mfind_of_mem hwf.nodup_keys (hfst ▸ he0 : (c, e0.2) ∈ s.graph)
              rw [hc] at hfind
              have he2 : e0.2 = cn := (Option.some_inj.mp hfind).symm
              rw [he2]
              show Node.mk (setErase p (setInsert p cn.parent_ids)) cn.children = cn
              rw [setErase_setInsert_of_not_mem hmem]
            · rw [if_neg ht2] at h
              cases h

/-! ### Lemmas for `create` (claim C4) -/

lemma lookupParents_nosched_ok {s : GState} {ps : List VId}
    (h : ∀ q ∈ ps, (findNode s q).isSome) :
    lookupParents s ps [] = (none, []) := by
  induction ps with
  | nil => rfl
  | cons q qs ih =>
    rcases Option.isSome_iff_exists.mp (h q (List.mem_cons_self q qs)) with ⟨n, hn⟩
    simp only [lookupParents, hn, tick]
    exact ih (fun r hr => h r (List.mem_cons.mpr (Or.inr hr)))

lemma lookupParents_nosched_notFound {s : GState} {ps : List VId}
    (h : ∃ q ∈ ps, findNode s q = none) :
    lookupParents s ps [] = (some Err.notFound, []) := by
  induction ps with
  | nil => simp at h
  | cons q qs ih =>
    cases hq : findNode s q with
    | none => simp [lookupParents, hq]
    | some n =>
      rcases h with ⟨r, hr, hrn⟩
      rcases List.mem_cons.mp hr with rfl | hr
      · rw [hq] at hrn; cases hrn
      · simp only [lookupParents, hq, tick]
        exact ih ⟨r, hr, hrn⟩

lemma lookupParents_err {s : GState} {ps : List VId} {sched sched1 : List Bool} {e : Err}
    (h : lookupParents s ps sched = (some e, sched1)) :
    e = Err.notFound ∨ e = Err.injected := by
  induction ps generalizing sched with
  | nil => cases h
  | cons q qs ih =>
    cases hq : findNode s q with
    | none =>
      rw [lookupParents, hq] at h
      cases h
      exact Or.inl rfl
    | some n =>
      rw [lookupParents, hq] at h
      by_cases ht : (tick sched).1
      · rw [if_pos ht] at h
        cases h
        exact Or.inr rfl
      · rw [if_neg ht] at h
        exact ih h

lemma buildParentSet_err {ps acc : List VId} {sched sched1 : List Bool} {e : Err}
    {out : List VId}
    (h : buildParentSet ps acc sched = (some e, out, sched1)) : e = Err.injected := by
  induction ps generalizing acc sched with
  | nil => cases h
  | cons q qs ih =>
    rw [buildParentSet] at h
    by_cases ht : (tick sched).1
    · rw [if_pos ht] at h
      cases h
      rfl
    · rw [if_neg ht] at h
      exact ih h

lemma insertChildEdges_err {id : VId} {ps : List VId} {s s1 : GState}
    {done done1 : List VId} {sched sched1 : List Bool} {e : Err}
    (h : insertChildEdges id ps s done sched = (some e, s1, done1, sched1)) :
    e = Err.injected := by
  induction ps generalizing s done sched with
  | nil => cases h
  | cons q qs ih =>
    rw [insertChildEdges] at h
    by_cases ht : (tick sched).1
    · rw [if_pos ht] at h
      cases h
      rfl
    · rw [if_neg ht] at h
      by_cases ht2 : (tick (tick sched).2).1
      · rw [if_pos ht2] at h
        cases h
        rfl
      · rw [if_neg ht2] at h
        exact ih h

lemma double_child_insert (id : VId) (n : Node) :
    (fun m => { m with children := setInsert id m.children })
      ((fun m => { m with children := setInsert id m.children }) n) =
    (fun m => { m with children := setInsert id m.children }) n := by
  show Node.mk n.parent_ids (setInsert id (setInsert id n.children)) = _
  rw [setInsert_idem]

lemma map_double_child_insert (id : VId) (o : Option Node) :
    (o.map (fun m => { m with children := setInsert id m.children })).map
      (fun m => { m with children := setInsert id m.children }) =
    o.map (fun m => { m with children := setInsert id m.children }) := by
  cases o with
  | none => rfl
  | some n => exact congrArg some (double_child_insert id n)

lemma insertChildEdges_pointwise (id : VId) :
    ∀ (ps : List VId) (s : GState) (done : List VId) (sched : List Bool)
      (r : Option Err) (s1 : GState) (done1 : List VId) (sched1 : List Bool),
    insertChildEdges id ps s done sched = (r, s1, done1, sched1) →
    (∀ j, findNode s1 j = findNode s j ∨
       (j ∈ ps ∧ findNode s1 j =
         (findNode s j).map (fun m => { m with children := setInsert id m.children }))) ∧
    (∀ j, j ∈ done1 → j ∈ done ∨
       (j ∈ ps ∧ findNode s1 j =
         (findNode s j).map (fun m => { m with children := setInsert id m.children }))) := by
  intro ps
  induction ps with
  | nil =>
    intro s done sched r s1 done1 sched1 h
    cases h
    exact ⟨fun j => Or.inl rfl, fun j hj => Or.inl hj⟩
  | cons p qs ih =>
    intro s done sched r s1 done1 sched1 h
    rw [insertChildEdges] at h
    by_cases ht : (tick sched).1
    · rw [if_pos ht] at h
      cases h
      exact ⟨fun j => Or.inl rfl, fun j hj => Or.inl hj⟩
    · rw [if_neg ht] at h
      by_cases ht2 : (tick (tick sched).2).1
      · rw [if_pos ht2] at h
        cases h
        refine ⟨?_, fun j hj => Or.inl hj⟩
        intro j
        by_cases hj : j = p
        · subst hj
          exact Or.inr ⟨List.mem_cons_self _ _, findNode_updNode_self s j _⟩
        · exact Or.inl (findNode_updNode_ne s _ hj)
      · rw [if_neg ht2] at h
        rcases ih _ _ _ _ _ _ _ h with ⟨hpt, hdn⟩
        have hinserted : findNode s1 p =
            (findNode s p).map (fun m => { m with children := setInsert id m.children }) := by
          have heq : findNode (updNode s p
              (fun m => { m with children := setInsert id m.children })) p =
              (findNode s p).map (fun m => { m with children := setInsert id m.children }) :=
            findNode_updNode_self s p _
          rcases hpt p with h1 | ⟨_, h2⟩
          · rw [h1, heq]
          · rw [h2, heq, map_double_child_insert]
        have hcomp : ∀ j, findNode s1 j = findNode s j ∨
            (j ∈ p :: qs ∧ findNode s1 j =
              (findNode s j).map (fun m => { m with children := setInsert id m.children })) := by
          intro j
          by_cases hj : j = p
          · subst hj
            exact Or.inr ⟨List.mem_cons_self _ _, hinserted⟩
          · have heq : findNode (updNode s p
                (fun m => { m with children := setInsert id m.children })) j =
                findNode s j := findNode_updNode_ne s _ hj
            rcases hpt j with h1 | ⟨h1, h2⟩
            · exact Or.inl (h1.trans heq)
            · exact Or.inr ⟨List.mem_cons.mpr (Or.inr h1), h2.trans (by rw [heq])⟩
        refine ⟨hcomp, ?_⟩
        intro j hj
        rcases hdn j hj with hj1 | ⟨hj1, hj2⟩
        · rcases List.mem_cons.mp hj1 with rfl | hj1
          · exact Or.inr ⟨List.mem_cons_self _ _, hinserted⟩
          · exact Or.inl hj1
        · refine Or.inr ⟨List.mem_cons.mpr (Or.inr hj1), ?_⟩
          by_cases hjp : j = p
          · subst hjp
            exact hinserted
          · have heq : findNode (updNode s p
                (fun m => { m with children := setInsert id m.children })) j =
                findNode s j := findNode_updNode_ne s _ hjp
            rw [hj2, heq]

/-! ### Well-formedness preservation and rollback characterization -/

lemma WF_updNode {s : GState} {i : VId} {f : Node → Node} (hw : WF s)
    (hf : ∀ n, SortedIds n.parent_ids → SortedIds n.children →
          SortedIds (f n).parent_ids ∧ SortedIds (f n).children) :
    WF (updNode s i f) := by
  constructor
  · show ((updNode s i f).graph.map Prod.fst).Pairwise (· < ·)
    rw [show (updNode s i f).graph = mupdate s.graph i f from rfl, mupdate_map_fst]
    exact hw.1
  · intro e he
    rcases mem_mupdate he with ⟨e0, he0, _, hcase⟩
    rcases hw.2 e0 he0 with ⟨hp0, hc0⟩
    rcases hcase with h2 | h2
    · rw [h2]; exact ⟨hp0, hc0⟩
    · rw [h2]; exact hf e0.2 hp0 hc0

lemma WF_eraseNode {s : GState} {i : VId} (hw : WF s) : WF (eraseNode s i) := by
  constructor
  · show ((eraseNode s i).graph.map Prod.fst).Pairwise (· < ·)
    exact List.Pairwise.sublist ((merase_sublist s.graph i).map Prod.fst) hw.1
  · intro e he
    exact hw.2 e ((merase_sublist s.graph i).mem he)

lemma WF_insNode {s : GState} {i : VId} {n : Node} (hw : WF s)
    (hp : SortedIds n.parent_ids) (hc : SortedIds n.children) :
    WF (insNode s i n) := by
  constructor
  · show ((insNode s i n).graph.map Prod.fst).Pairwise (· < ·)
    rw [show (insNode s i n).graph = minsert s.graph i n from rfl, minsert_map_fst]
    exact sorted_setInsert hw.1
  · intro e he
    rcases mem_minsert he with rfl | he
    · exact ⟨hp, hc⟩
    · exact hw.2 e he

lemma rollback_step (id d : VId) (ds : List VId) (σ : GState) :
    rollbackChildEdges id (d :: ds) σ =
      rollbackChildEdges id ds
        (updNode σ d (fun m => { m with children := setErase id m.children })) := rfl

lemma rollback_pointwise (id : VId) :
    ∀ (done : List VId) (σ : GState), WF σ → ∀ j,
    findNode (rollbackChildEdges id done σ) j =
      if j ∈ done then
        (findNode σ j).map (fun m => { m with children := setErase id m.children })
      else findNode σ j := by
  intro done
  induction done with
  | nil =>
    intro σ _ j
    simp [rollbackChildEdges]
  | cons d ds ih =>
    intro σ hw j
    rw [rollback_step]
    have hw2 : WF (updNode σ d (fun m => { m with children := setErase id m.children })) :=
      WF_updNode hw (fun n hp hc => ⟨hp, sorted_setErase hc⟩)
    rw [ih _ hw2 j]
    by_cases hjd : j = d
    · subst hjd
      have hself : findNode (updNode σ j
          (fun m => { m with children := setErase id m.children })) j =
          (findNode σ j).map (fun m => { m with children := setErase id m.children }) :=
        findNode_updNode_self σ j _
      by_cases hjds : j ∈ ds
      · rw [if_pos hjds, if_pos (List.mem_cons_self j ds), hself]
        cases hfj : findNode σ j with
        | none => rfl
        | some n =>
          have hnd : n.children.Nodup :=
            (hw.2 (j, n) (mfind_eq_some_mem hfj)).2.nodup
          exact congrArg some (by
            show Node.mk n.parent_ids (setErase id (setErase id n.children)) = _
            rw [setErase_idem_of_nodup hnd])
      · rw [if_neg hjds, if_pos (List.mem_cons_self j ds), hself]
    · have hne : findNode (updNode σ d
          (fun m => { m with children := setErase id m.children })) j = findNode σ j :=
        findNode_updNode_ne σ _ hjd
      by_cases hjds : j ∈ ds
      · rw [if_pos hjds, if_pos (List.mem_cons.mpr (Or.inr hjds)), hne]
      · rw [if_neg hjds, hne,
          if_neg (fun hc => (List.mem_cons.mp hc).elim (fun hh => hjd hh) (fun hh => hjds hh))]

lemma insertChildEdges_WF {id : VId} :
    ∀ {ps : List VId} {s s1 : GState} {done done1 : List VId}
      {sched sched1 : List Bool} {r : Option Err},
    insertChildEdges id ps s done sched = (r, s1, done1, sched1) → WF s → WF s1 := by
  intro ps
  induction ps with
  | nil =>
    intro s s1 done done1 sched sched1 r h hw
    cases h
    exact hw
  | cons p qs ih =>
    intro s s1 done done1 sched sched1 r h hw
    rw [insertChildEdges] at h
    have hw1 : WF (updNode s p (fun n => { n with children := setInsert id n.children })) :=
      WF_updNode hw (fun n hp hc => ⟨hp, sorted_setInsert hc⟩)
    by_cases ht : (tick sched).1
    · rw [if_pos ht] at h
      cases h
      exact hw
    · rw [if_neg ht] at h
      by_cases ht2 : (tick (tick sched).2).1
      · rw [if_pos ht2] at h
        cases h
        exact hw1
      · rw [if_neg ht2] at h
        exact ih h hw1

/-- Errors of `create` other than a resource failure are raised before any
mutation, so they return the state unchanged. -/
lemma create_nonres_fail_unchanged {s : GState} {sched : List Bool} {id : VId}
    {ps : List VId} {e : Err} {s2 : GState} {sched2 : List Bool}
    (h : create s sched id ps = (some e, s2, sched2)) (hne : e ≠ Err.injected) :
    s2 = s := by
  unfold create at h
  split at h
  · cases h
  · split at h
    · cases h
      rfl
    · split at h
      next e1 sc1 heq =>
        cases h
        rfl
      next sc1 heq =>
        split at h
        · cases h
          exact absurd rfl hne
        · split at h
          next e2 x sc2 heq2 =>
            cases h
            exact absurd (buildParentSet_err heq2) hne
          next pset sc2 heq2 =>
            split at h
            next e3 s1 done sc3 heq3 =>
              cases h
              exact absurd (insertChildEdges_err heq3) hne
            next s1 done sc3 heq3 =>
              split at h
              · cases h
                exact absurd rfl hne
              · cases h

/-- Pointwise effect of a failed `create`: every node is either untouched or
has the fresh id leaked into its child set; the latter can only happen to a
listed parent whose inserted edge could not be recorded into
`edges_to_parents`. -/
lemma create_fail_pointwise {s : GState} {sched : List Bool} {id : VId}
    {ps : List VId} {e : Err} {s2 : GState} {sched2 : List Bool} (hwf : WF s)
    (hnc : ∀ e0 ∈ s.graph, id ∉ e0.2.children)
    (h : create s sched id ps = (some e, s2, sched2)) :
    ∀ j, findNode s2 j = findNode s j ∨
      (j ∈ ps ∧ findNode s2 j =
        (findNode s j).map (fun m => { m with children := setInsert id m.children })) := by
  unfold create at h
  split at h
  · cases h
  · split at h
    · cases h
      exact fun j => Or.inl rfl
    · split at h
      next e1 sc1 heq =>
        cases h
        exact fun j => Or.inl rfl
      next sc1 heq =>
        split at h
        · cases h
          exact fun j => Or.inl rfl
        · split at h
          next e2 x sc2 heq2 =>
            cases h
            exact fun j => Or.inl rfl
          next pset sc2 heq2 =>
            have key : ∀ (r : Option Err) (s1 : GState) (done : List VId) (sc3 : List Bool),
                insertChildEdges id ps s [] sc2 = (r, s1, done, sc3) →
                ∀ j, findNode (rollbackChildEdges id done s1) j = findNode s j ∨
                  (j ∈ ps ∧ findNode (rollbackChildEdges id done s1) j =
                    (findNode s j).map
                      (fun m => { m with children := setInsert id m.children })) := by
              intro r s1 done sc3 heq3 j
              have hw1 : WF s1 := insertChildEdges_WF heq3 hwf
              rcases insertChildEdges_pointwise id ps s [] sc2 r s1 done sc3 heq3 with ⟨hpt, hdn⟩
              rw [rollback_pointwise id done s1 hw1 j]
              by_cases hjdone : j ∈ done
              · rw [if_pos hjdone]
                rcases hdn j hjdone with hj | ⟨_, hj⟩
                · cases hj
                · rw [hj]
                  cases hfj : findNode s j with
                  | none => exact Or.inl rfl
                  | some n =>
                    have hni : id ∉ n.children := hnc (j, n) (mfind_eq_some_mem hfj)
                    refine Or.inl (congrArg some ?_)
                    show Node.mk n.parent_ids (setErase id (setInsert id n.children)) = n
                    rw [setErase_setInsert_of_not_mem hni]
              · rw [if_neg hjdone]
                exact hpt j
            split at h
            next e3 s1 done sc3 heq3 =>
              cases h
              exact key _ _ _ _ heq3
            next s1 done sc3 heq3 =>
              split at h
              · cases h
                exact key _ _ _ _ heq3
              · cases h

/-! ### Claim C4: failure behaviour of `create` (lines 178–206). -/

/-- Counterexample to claim C4 as stated: on the fresh genealogy with stem
`0`, `create(1, [0])` with a resource failure injected into the
`edges_to_parents.push_back` recording step fails after the child-set
insertion, and the `catch` block — which only erases recorded edges — leaks
the dangling child edge: afterwards node `0` lists the never-created virus
`1` among its children. -/
theorem c4_counterexample :
    (create (mkGenealogy 0) [false, false, false, false, true] 1 [0]).1 =
      some Err.injected ∧
    (create (mkGenealogy 0) [false, false, false, false, true] 1 [0]).2.1 ≠
      mkGenealogy 0 ∧
    childrenOf (create (mkGenealogy 0) [false, false, false, false, true] 1 [0]).2.1 0 =
      [1] ∧
    findNode (create (mkGenealogy 0) [false, false, false, false, true] 1 [0]).2.1 1 =
      none := by
  decide

/-- Claim C4 amended: if `id` itself is absent (an existing id raises
`VirusAlreadyCreated` first) and some listed parent is absent, `create`
raises `VirusNotFound` with the graph unchanged (stated with no injected
failures, which could pre-empt the check); every failure other than a
resource failure leaves the graph unchanged; and a resource failure leaves
every node untouched — all recorded child-set insertions are undone and no
node is created — except that an insertion whose recording into
`edges_to_parents` fails is leaked into that parent's child set. -/
theorem c4_amended_create_failure_spec :
    (∀ (s : GState) (id : VId) (ps : List VId), findNode s id = none → ps ≠ [] →
       (∃ q ∈ ps, findNode s q = none) →
       create s [] id ps = (some Err.notFound, s, [])) ∧
    (∀ (s : GState) (sched : List Bool) (id : VId) (ps : List VId)
       (e : Err) (s2 : GState) (sched2 : List Bool),
       create s sched id ps = (some e, s2, sched2) → e ≠ Err.injected → s2 = s) ∧
    (∀ (s : GState) (sched : List Bool) (id : VId) (ps : List VId)
       (e : Err) (s2 : GState) (sched2 : List Bool), WF s →
       (∀ e0 ∈ s.graph, id ∉ e0.2.children) →
       create s sched id ps = (some e, s2, sched2) →
       ∀ j, findNode s2 j = findNode s j ∨
         (j ∈ ps ∧ findNode s2 j =
           (findNode s j).map (fun m => { m with children := setInsert id m.children }))) := by
  refine ⟨?_, ?_, ?_⟩
  · intro s id ps hid hne habs
    unfold create
    rw [if_neg hne, if_neg (by rw [hid]; simp)]
    rw [lookupParents_nosched_notFound habs]
  · intro s sched id ps e s2 sched2 h hne
    exact create_nonres_fail_unchanged h hne
  · intro s sched id ps e s2 sched2 hwf hnc h
    exact create_fail_pointwise hwf hnc h

/-- A minimal two-node state: stem `0` with a single virus `1` descending
from it, used to instantiate the specifications at concrete inputs. -/
def linked : GState :=
  { stem_id := 0,
    graph := [(0, { parent_ids := [], children := [1] }),
              (1, { parent_ids := [0], children := [] })] }

/-- Witness for `c4_amended_create_failure_spec`: a missing parent raises
`VirusNotFound` unchanged; a non-resource failure returns the state
unchanged; and the pointwise leak bound holds for the concrete failing
`create` of `c4_counterexample`. -/
theorem c4_amended_witness :
    create linked [] 3 [0, 7] = (some Err.notFound, linked, []) ∧
    (create linked [] 3 [7]).2.1 = linked ∧
    (∀ j, findNode (create linked [false, false, false, false, true] 3 [0]).2.1 j =
        findNode linked j ∨
      (j ∈ [0] ∧ findNode (create linked [false, false, false, false, true] 3 [0]).2.1 j =
        (findNode linked j).map (fun m => { m with children := setInsert 3 m.children }))) := by
  refine ⟨?_, ?_, ?_⟩
  · exact c4_amended_create_failure_spec.1 linked 3 [0, 7] (by decide) (by decide)
      ⟨7, by decide, by decide⟩
  · exact c4_amended_create_failure_spec.2.1 linked [] 3 [7] Err.notFound
      (create linked [] 3 [7]).2.1 [] (by decide) (by decide)
  · exact c4_amended_create_failure_spec.2.2 linked [false, false, false, false, true] 3 [0]
      Err.injected (create linked [false, false, false, false, true] 3 [0]).2.1 []
      (by decide) (by decide) (by decide)

/-- Witness for `c6_connect_spec`: on `linked`, connecting `1` to its
existing parent `0` is a no-op; the idempotence equation at `(1, 0)`; a
missing id raises `VirusNotFound`; and the failing `connect 0 1` (resource
failure at the child-set insertion, schedule `[false, true]`) rolls back to
`linked` exactly. -/
theorem c6_connect_witness :
    connect linked [] 1 0 = (none, linked, []) ∧
    (connect (connect linked [] 1 0).2.1 [] 1 0).2.1 = (connect linked [] 1 0).2.1 ∧
    connect linked [] 5 0 = (some Err.notFound, linked, []) ∧
    (connect linked [false, true] 0 1).2.1 = linked := by
  refine ⟨?_, c6_connect_spec.2.1 linked 1 0, ?_, ?_⟩
  · exact c6_connect_spec.1 linked [] 1 0 { parent_ids := [0], children := [] }
      (by decide) (by decide) (by decide)
  · exact c6_connect_spec.2.2.1 linked [] 5 0 (Or.inl (by decide))
  · exact c6_connect_spec.2.2.2 linked [false, true] 0 1 Err.injected
      (connect linked [false, true] 0 1).2.1 [] (by decide) (by decide)

/-! ### Reachability along child edges

Edges point from a parent to a member of its child set (both present in the
table); `ReachP` is the reflexive-transitive closure, `AcyclicP` is spec
invariant I5, and `reachB`/`acyclicB` are fuel-bounded executable versions
used to discharge hypotheses on concrete states. -/

def chEdge (s : GState) (u v : VId) : Prop :=
  ∃ nu, findNode s u = some nu ∧ v ∈ nu.children ∧ v ∈ keys s

def ReachP (s : GState) : VId → VId → Prop := Relation.ReflTransGen (chEdge s)

def AcyclicP (s : GState) : Prop := ∀ n, ¬ Relation.TransGen (chEdge s) n n

/-- Paths witnessing reachability: the list records the vertices after the
start, in order. -/
inductive PathT (s : GState) : VId → VId → List VId → Prop
  | refl (a : VId) : PathT s a a []
  | head {a u b : VId} {l : List VId} :
      chEdge s a u → PathT s u b l → PathT s a b (u :: l)

lemma reachP_iff_pathT {s : GState} {a b : VId} :
    ReachP s a b ↔ ∃ l, PathT s a b l := by
  constructor
  · intro h
    induction h using Relation.ReflTransGen.head_induction_on with
    | refl => exact ⟨[], PathT.refl b⟩
    | head hr _ ih =>
      rcases ih with ⟨l, hl⟩
      exact ⟨_ :: l, PathT.head hr hl⟩
  · rintro ⟨l, hl⟩
    induction hl with
    | refl => exact Relation.ReflTransGen.refl
    | head hr _ ih => exact Relation.ReflTransGen.head hr ih

lemma pathT_nil_eq {s : GState} {a b : VId} (h : PathT s a b []) : a = b := by
  cases h
  rfl

lemma pathT_mem_keys {s : GState} {a b : VId} {l : List VId} (h : PathT s a b l) :
    ∀ u ∈ l, u ∈ keys s := by
  induction h with
  | refl => intro u hu; cases hu
  | head hr _ ih =>
    intro u hu
    rcases List.mem_cons.mp hu with rfl | hu
    · rcases hr with ⟨_, _, _, hk⟩
      exact hk
    · exact ih u hu

lemma pathT_drop {s : GState} {u b : VId} :
    ∀ {l1 l2 : List VId} {a : VId}, PathT s a b (l1 ++ u :: l2) → PathT s u b l2 := by
  intro l1
  induction l1 with
  | nil =>
    intro l2 a h
    cases h with
    | head hr htail => exact htail
  | cons v l1 ih =>
    intro l2 a h
    cases h with
    | head hr htail => exact ih htail

lemma pathT_shorten {s : GState} :
    ∀ (n : Nat) {a b : VId} {l : List VId}, l.length ≤ n → PathT s a b l →
      ∃ l2, PathT s a b l2 ∧ l2.Sublist l ∧ (a :: l2).Nodup := by
  intro n
  induction n with
  | zero =>
    intro a b l hlen h
    rw [List.length_eq_zero.mp (Nat.le_zero.mp hlen)] at h
    rcases pathT_nil_eq h with rfl
    rw [List.length_eq_zero.mp (Nat.le_zero.mp hlen)]
    exact ⟨[], h, List.Sublist.refl [], List.nodup_cons.mpr ⟨List.not_mem_nil a, List.nodup_nil⟩⟩
  | succ n ih =>
    intro a b l hlen h
    by_cases hal : a ∈ l
    · rcases List.append_of_mem hal with ⟨l1, l2, rfl⟩
      have h2 : PathT s a b l2 := pathT_drop h
      have hlen2 : l2.length ≤ n := by
        have := List.length_append l1 (a :: l2)
        simp only [List.length_cons] at this
        omega
      rcases ih hlen2 h2 with ⟨l3, hp3, hsub3, hnd3⟩
      refine ⟨l3, hp3, ?_, hnd3⟩
      exact hsub3.trans ((List.sublist_cons_self a l2).trans
        (List.sublist_append_right l1 (a :: l2)))
    · cases h with
      | refl =>
        exact ⟨[], PathT.refl a, List.nil_sublist _,
          List.nodup_cons.mpr ⟨List.not_mem_nil a, List.nodup_nil⟩⟩
      | head hr htail =>
        rename_i u l'
        have hlen' : l'.length ≤ n := by
          simp only [List.length_cons] at hlen
          omega
        rcases ih hlen' htail with ⟨l3, hp3, hsub3, hnd3⟩
        refine ⟨u :: l3, PathT.head hr hp3, hsub3.cons₂ u, ?_⟩
        rw [List.nodup_cons]
        refine ⟨?_, hnd3⟩
        intro hmem
        rcases List.mem_cons.mp hmem with rfl | hmem
        · exact hal (List.mem_cons_self a l')
        · exact hal (List.mem_cons.mpr (Or.inr (hsub3.mem hmem)))

/-- Fuel-bounded reachability test (fuel bounds the path length). -/
def reachB (s : GState) : Nat → VId → VId → Bool
  | 0, a, b => a == b
  | n + 1, a, b =>
    a == b ||
      (match findNode s a with
       | none => false
       | some na => na.children.any (fun c => (findNode s c).isSome && reachB s n c b))

lemma reachB_iff_pathT {s : GState} :
    ∀ {n : Nat} {a b : VId},
      reachB s n a b = true ↔ ∃ l, PathT s a b l ∧ l.length ≤ n := by
  intro n
  induction n with
  | zero =>
    intro a b
    constructor
    · intro h
      have : a = b := by simpa [reachB] using h
      subst this
      exact ⟨[], PathT.refl a, Nat.le_refl 0⟩
    · rintro ⟨l, hp, hlen⟩
      rw [List.length_eq_zero.mp (Nat.le_zero.mp hlen)] at hp
      rcases pathT_nil_eq hp with rfl
      simp [reachB]
  | succ n ih =>
    intro a b
    constructor
    · intro h
      rw [reachB, Bool.or_eq_true] at h
      rcases h with h | h
      · rcases beq_iff_eq.mp h with rfl
        exact ⟨[], PathT.refl a, Nat.zero_le _⟩
      · cases hfa : findNode s a with
        | none => rw [hfa] at h; cases h
        | some na =>
          rw [hfa] at h
          rcases List.any_eq_true.mp h with ⟨c, hc, hcond⟩
          rw [Bool.and_eq_true] at hcond
          rcases hcond with ⟨hsome, hrec⟩
          rcases ih.mp hrec with ⟨l, hp, hlen⟩
          refine ⟨c :: l, PathT.head ⟨na, hfa, hc, mem_keys_iff.mpr hsome⟩ hp, ?_⟩
          simp only [List.length_cons]
          omega
    · rintro ⟨l, hp, hlen⟩
      cases hp with
      | refl => simp [reachB]
      | head hr htail =>
        rename_i u l'
        rcases hr with ⟨na, hfa, hu, huk⟩
        rw [reachB, Bool.or_eq_true, hfa]
        refine Or.inr (List.any_eq_true.mpr ⟨u, hu, ?_⟩)
        rw [Bool.and_eq_true]
        refine ⟨mem_keys_iff.mp huk, ih.mpr ⟨l', htail, ?_⟩⟩
        simp only [List.length_cons] at hlen
        omega

/-- Reachability is decided by `reachB` with fuel the table size. -/
lemma reachP_iff_reachB {s : GState} {a b : VId} :
    ReachP s a b ↔ reachB s (keys s).length a b = true := by
  constructor
  · intro h
    rcases reachP_iff_pathT.mp h with ⟨l, hp⟩
    rcases pathT_shorten l.length (Nat.le_refl _) hp with ⟨l2, hp2, hsub2, hnd2⟩
    refine reachB_iff_pathT.mpr ⟨l2, hp2, ?_⟩
    have hsubset : l2 ⊆ keys s := fun u hu => pathT_mem_keys hp2 u hu
    have hnd : l2.Nodup := (List.nodup_cons.mp hnd2).2
    exact (hnd.subperm hsubset).length_le
  · intro h
    rcases reachB_iff_pathT.mp h with ⟨l, hp, _⟩
    exact reachP_iff_pathT.mpr ⟨l, hp⟩

/-- Executable acyclicity check: no node's child reaches back to it. -/
def acyclicB (s : GState) : Bool :=
  s.graph.all (fun e =>
    !(e.2.children.any (fun c => (findNode s c).isSome && reachB s (keys s).length c e.1)))

lemma acyclicP_iff_acyclicB {s : GState} (hwf : WF s) :
    AcyclicP s ↔ acyclicB s = true := by
  constructor
  · intro h
    refine List.all_eq_true.mpr ?_
    intro e he
    rw [Bool.not_eq_true']
    by_contra hany
    rw [Bool.not_eq_false, List.any_eq_true] at hany
    rcases hany with ⟨c, hc, hcond⟩
    rw [Bool.and_eq_true] at hcond
    rcases hcond with ⟨hsome, hrec⟩
    have hfe : findNode s e.1 = some e.2 := mfind_of_mem hwf.nodup_keys he
    have hedge : chEdge s e.1 c := ⟨e.2, hfe, hc, mem_keys_iff.mpr hsome⟩
    have hreach : ReachP s c e.1 := reachP_iff_reachB.mpr hrec
    exact h e.1 (Relation.TransGen.head' hedge hreach)
  · intro h n hcyc
    rcases Relation.TransGen.head'_iff.mp hcyc with ⟨c, hedge, hreach⟩
    rcases hedge with ⟨nn, hfn, hc, hck⟩
    have he : (n, nn) ∈ s.graph := mfind_eq_some_mem hfn
    have := List.all_eq_true.mp h (n, nn) he
    rw [Bool.not_eq_true'] at this
    have hcombo : ((findNode s c).isSome && reachB s (keys s).length c (n, nn).1) = true := by
      rw [Bool.and_eq_true]
      exact ⟨mem_keys_iff.mp hck, reachP_iff_reachB.mp hreach⟩
    have hfalse : ((n, nn).2.children.any
        (fun q => (findNode s q).isSome && reachB s (keys s).length q (n, nn).1)) = true :=
      List.any_eq_true.mpr ⟨c, hc, hcombo⟩
    rw [this] at hfalse
    cases hfalse

/-! ### The cascade's removal set -/

/-- The set of nodes the cascade of `remove x` is meant to delete: `x`
itself, and inductively every node all of whose (at least one) parents are
deleted. -/
inductive Dead (s : GState) (x : VId) : VId → Prop
  | base : Dead s x x
  | step {c : VId} {nc : Node} : findNode s c = some nc → nc.parent_ids ≠ [] →
      (∀ q ∈ nc.parent_ids, Dead s x q) → Dead s x c

/-- The stem is never in the removal set of a state satisfying I2 whose
target is not the stem. -/
lemma stem_not_dead {s : GState} {x : VId} (h2 : SpecI2 s) (hx : x ≠ s.stem_id) :
    ¬ Dead s x s.stem_id := by
  intro hd
  cases hd with
  | base => exact hx rfl
  | step hf hne _ =>
    rcases Option.isSome_iff_exists.mp (mem_keys_iff.mp h2.1) with ⟨n0, hn0⟩
    rw [hf] at hn0
    cases hn0
    rename_i nc _
    have := parentsOf_eq hf
    rw [h2.2] at this
    exact hne this.symm

/-! ### Auxiliary lemmas for the cascade analysis -/

lemma recordTicks_nil : ∀ k, recordTicks k [] = (false, []) := by
  intro k
  induction k with
  | zero => rfl
  | succ k ih =>
    rw [recordTicks]
    simpa [tick] using ih

lemma keys_eraseNode (s : GState) (i : VId) :
    keys (eraseNode s i) = setErase i (keys s) :=
  merase_map_fst s.graph i

lemma findNode_eraseNode_self (s : GState) (i : VId) (hnd : (keys s).Nodup) :
    findNode (eraseNode s i) i = none :=
  mfind_merase_self s.graph i hnd

lemma findNode_eraseNode_ne (s : GState) {i j : VId} (h : j ≠ i) :
    findNode (eraseNode s i) j = findNode s j :=
  mfind_merase_ne s.graph h

lemma stem_eraseNode (s : GState) (i : VId) : (eraseNode s i).stem_id = s.stem_id := rfl

lemma setErase_eq_nil_subset {x : VId} {l : List VId}
    (h : setErase x l = []) : ∀ q ∈ l, q = x := by
  induction l with
  | nil => intro q hq; cases hq
  | cons y ys ih =>
    by_cases hxy : x = y
    · subst hxy
      rw [setErase, if_pos rfl] at h
      subst h
      intro q hq
      rcases List.mem_cons.mp hq with rfl | hq
      · rfl
      · cases hq
    · rw [setErase, if_neg hxy] at h
      cases h

/-- Two strictly sorted lists with the same members are equal. -/
lemma sortedIds_ext : ∀ {l1 l2 : List VId}, SortedIds l1 → SortedIds l2 →
    (∀ x, x ∈ l1 ↔ x ∈ l2) → l1 = l2 := by
  intro l1
  induction l1 with
  | nil =>
    intro l2 _ _ hmem
    cases l2 with
    | nil => rfl
    | cons b l2' => exact absurd ((hmem b).mpr (List.mem_cons_self b l2')) (List.not_mem_nil b)
  | cons a l1' ih =>
    intro l2 h1 h2 hmem
    cases l2 with
    | nil => exact absurd ((hmem a).mp (List.mem_cons_self a l1')) (List.not_mem_nil a)
    | cons b l2' =>
      rcases List.pairwise_cons.mp h1 with ⟨ha, h1'⟩
      rcases List.pairwise_cons.mp h2 with ⟨hb, h2'⟩
      have hab : a = b := by
        rcases List.mem_cons.mp ((hmem a).mp (List.mem_cons_self a l1')) with h | h
        · exact h
        · rcases List.mem_cons.mp ((hmem b).mpr (List.mem_cons_self b l2')) with h' | h'
          · exact h'.symm
          · have hba : b < a := hb a h
            have hab2 : a < b := ha b h'
            exact absurd hab2 (Nat.lt_asymm hba)
      subst hab
      have htail : ∀ x, x ∈ l1' ↔ x ∈ l2' := by
        intro x
        constructor
        · intro hx
          rcases List.mem_cons.mp ((hmem x).mp (List.mem_cons.mpr (Or.inr hx))) with h | h
          · subst h
            exact absurd (ha x hx) (lt_irrefl x)
          · exact h
        · intro hx
          rcases List.mem_cons.mp ((hmem x).mpr (List.mem_cons.mpr (Or.inr hx))) with h | h
          · subst h
            exact absurd (hb x hx) (lt_irrefl x)
          · exact h
      rw [ih h1' h2' htail]

lemma pathT_append {s : GState} {a b c : VId} :
    ∀ {l1 l2 : List VId}, PathT s a b l1 → PathT s b c l2 → PathT s a c (l1 ++ l2) := by
  intro l1
  induction l1 generalizing a with
  | nil =>
    intro l2 h1 h2
    rcases pathT_nil_eq h1 with rfl
    exact h2
  | cons u l1' ih =>
    intro l2 h1 h2
    cases h1 with
    | head hr htail => exact PathT.head hr (ih htail h2)

lemma pathT_transport {τ σ : GState} {S : VId → Prop} {a b : VId}
    (hedge : ∀ u v, S u → S v → chEdge τ u v → chEdge σ u v) :
    ∀ {l : List VId}, PathT τ a b l → S a → (∀ u ∈ l, S u) → PathT σ a b l := by
  intro l hp
  induction hp with
  | refl => intro _ _; exact PathT.refl _
  | head hr htail ih =>
    rename_i a' u b' l'
    intro hSa hSl
    have hSu : S u := hSl u (List.mem_cons_self u l')
    exact PathT.head (hedge a' u hSa hSu hr)
      (ih hSu (fun v hv => hSl v (List.mem_cons.mpr (Or.inr hv))))

lemma acyclic_of_edge_mono {τ σ : GState}
    (hedge : ∀ u v, chEdge σ u v → chEdge τ u v) (h : AcyclicP τ) : AcyclicP σ :=
  fun n hcyc => h n (Relation.TransGen.mono hedge hcyc)

/-- Child edges are untouched by updates that only modify parent sets. -/
lemma chEdge_updNode_parents {s : GState} {i : VId} {f : Node → Node}
    (hf : ∀ n, (f n).children = n.children) (u v : VId) :
    chEdge (updNode s i f) u v ↔ chEdge s u v := by
  have hkeys : keys (updNode s i f) = keys s := keys_updNode s i f
  constructor
  · rintro ⟨nu, hnu, hv, hvk⟩
    by_cases hui : u = i
    · subst hui
      rw [findNode_updNode_self] at hnu
      cases hfu : findNode s u with
      | none => rw [hfu] at hnu; cases hnu
      | some n0 =>
        rw [hfu] at hnu
        cases hnu
        refine ⟨n0, hfu, ?_, by rw [← hkeys]; exact hvk⟩
        rw [← hf n0]
        exact hv
    · rw [findNode_updNode_ne s f hui] at hnu
      exact ⟨nu, hnu, hv, by rw [← hkeys]; exact hvk⟩
  · rintro ⟨nu, hnu, hv, hvk⟩
    by_cases hui : u = i
    · subst hui
      refine ⟨f nu, ?_, ?_, by rw [hkeys]; exact hvk⟩
      · rw [findNode_updNode_self, hnu]
        rfl
      · rw [hf nu]
        exact hv
    · exact ⟨nu, by rw [findNode_updNode_ne s f hui]; exact hnu, hv, by rw [hkeys]; exact hvk⟩

lemma chEdge_eraseNode {s : GState} {i : VId} {u v : VId} (hwf : WF s)
    (h : chEdge (eraseNode s i) u v) : chEdge s u v := by
  rcases h with ⟨nu, hnu, hv, hvk⟩
  have hui : u ≠ i := by
    rintro rfl
    rw [findNode_eraseNode_self s u hwf.nodup_keys] at hnu
    cases hnu
  rw [findNode_eraseNode_ne s hui] at hnu
  refine ⟨nu, hnu, hv, ?_⟩
  rw [keys_eraseNode] at hvk
  exact mem_of_mem_setErase hvk

/-! ### Total parent count -/

lemma phi_mupdate_le (g : List (VId × Node)) (i : VId) (f : Node → Node)
    (hle : ∀ m, (f m).parent_ids.length ≤ m.parent_ids.length) :
    ((mupdate g i f).map (fun e => e.2.parent_ids.length)).sum ≤
      (g.map (fun e => e.2.parent_ids.length)).sum := by
  induction g with
  | nil => exact Nat.le_refl _
  | cons e rest ih =>
    rw [mupdate_cons]
    simp only [List.map_cons, List.sum_cons]
    have hhead : (if e.1 = i then (e.1, f e.2) else e).2.parent_ids.length ≤
        e.2.parent_ids.length := by
      split
      · exact hle e.2
      · exact Nat.le_refl _
    exact Nat.add_le_add hhead ih

lemma totalParents_updNode_le {s : GState} {i : VId} {f : Node → Node}
    (h : ∀ n, (f n).parent_ids.length ≤ n.parent_ids.length) :
    totalParents (updNode s i f) ≤ totalParents s :=
  phi_mupdate_le s.graph i f h

lemma phi_mupdate_lt {g : List (VId × Node)} {i : VId} {f : Node → Node} {n : Node}
    (hnd : (g.map Prod.fst).Nodup) (hmem : (i, n) ∈ g)
    (hlt : (f n).parent_ids.length < n.parent_ids.length)
    (hle : ∀ m, (f m).parent_ids.length ≤ m.parent_ids.length) :
    ((mupdate g i f).map (fun e => e.2.parent_ids.length)).sum <
      (g.map (fun e => e.2.parent_ids.length)).sum := by
  induction g with
  | nil => cases hmem
  | cons e rest ih =>
    rw [mupdate_cons]
    simp only [List.map_cons, List.sum_cons]
    rcases List.nodup_cons.mp hnd with ⟨hehd, hnd2⟩
    rcases List.mem_cons.mp hmem with heq | hmem2
    · have he1 : e.1 = i := by rw [← heq]
      have he2 : e.2 = n := by rw [← heq]
      rw [if_pos he1, he2]
      exact Nat.add_lt_add_of_lt_of_le hlt (phi_mupdate_le rest i f hle)
    · have hii : i ∈ rest.map Prod.fst := List.mem_map.mpr ⟨(i, n), hmem2, rfl⟩
      have he1 : ¬ e.1 = i := fun hc => hehd (hc ▸ hii)
      rw [if_neg he1]
      exact Nat.add_lt_add_left (ih hnd2 hmem2) _

lemma totalParents_updNode_lt {s : GState} {i : VId} {f : Node → Node} {n : Node}
    (hnd : (s.graph.map Prod.fst).Nodup)
    (hfind : findNode s i = some n)
    (hlt : (f n).parent_ids.length < n.parent_ids.length)
    (hle : ∀ m, (f m).parent_ids.length ≤ m.parent_ids.length) :
    totalParents (updNode s i f) < totalParents s :=
  phi_mupdate_lt hnd (mfind_eq_some_mem hfind) hlt hle

lemma phi_merase_le (g : List (VId × Node)) (i : VId) :
    ((merase g i).map (fun e => e.2.parent_ids.length)).sum ≤
      (g.map (fun e => e.2.parent_ids.length)).sum := by
  induction g with
  | nil => exact Nat.le_refl _
  | cons e rest ih =>
    rw [merase_cons]
    by_cases he : i = e.1
    · rw [if_pos he]
      simp only [List.map_cons, List.sum_cons]
      omega
    · rw [if_neg he]
      simp only [List.map_cons, List.sum_cons]
      omega

lemma totalParents_eraseNode_le (s : GState) (i : VId) :
    totalParents (eraseNode s i) ≤ totalParents s :=
  phi_merase_le s.graph i

/-! ### Removal-set lemmas -/

lemma dead_reach {τ : GState} {x d : VId}
    (pb : ∀ j nj, findNode τ j = some nj → ∀ q ∈ nj.parent_ids,
      ∃ nq, findNode τ q = some nq ∧ j ∈ nq.children)
    (hd : Dead τ x d) : ReachP τ x d := by
  induction hd with
  | base => exact Relation.ReflTransGen.refl
  | step hf hne hall ih =>
    rename_i c nc
    rcases List.exists_mem_of_ne_nil _ hne with ⟨q, hq⟩
    rcases pb c nc hf q hq with ⟨nq, hnq, hcq⟩
    exact Relation.ReflTransGen.tail (ih q hq)
      ⟨nq, hnq, hcq, mem_keys_iff.mpr (by rw [hf]; rfl)⟩

/-- A node that reaches the removal target along child edges is never in the
removal set of an acyclic graph (its ancestors stay alive). -/
lemma not_dead_of_reaches {τ : GState} {x a : VId}
    (pb : ∀ j nj, findNode τ j = some nj → ∀ q ∈ nj.parent_ids,
      ∃ nq, findNode τ q = some nq ∧ j ∈ nq.children)
    (hacyc : AcyclicP τ) (hne : a ≠ x) (hreach : ReachP τ a x) : ¬ Dead τ x a := by
  intro hd
  have hxa : ReachP τ x a := dead_reach pb hd
  rcases Relation.ReflTransGen.cases_head hxa with heq | ⟨c, hedge, hrest⟩
  · exact hne heq.symm
  · exact hacyc x (Relation.TransGen.head' hedge (hrest.trans hreach))

/-- Transport of the removal set of a sub-cascade into the removal set of
the enclosing cascade: if the sub-state only lost nodes and parent entries
that are dead for the enclosing cascade, and the sub-target is dead for the
enclosing cascade, then everything dead for the sub-cascade is dead for the
enclosing one. -/
lemma dead_mono {τ σ : GState} {x c : VId}
    (hnodes : ∀ j nσ, findNode σ j = some nσ → ∃ nτ, findNode τ j = some nτ ∧
      (∀ q ∈ nσ.parent_ids, q ∈ nτ.parent_ids) ∧
      (∀ q ∈ nτ.parent_ids, ¬ Dead τ x q → q ∈ nσ.parent_ids))
    (hc : Dead τ x c) : ∀ {d}, Dead σ c d → Dead τ x d := by
  intro d hd
  induction hd with
  | base => exact hc
  | step hf hne hall ih =>
    rename_i j nσ
    rcases hnodes _ _ hf with ⟨nτ, hfτ, hsub, hkeep⟩
    refine Dead.step hfτ ?_ ?_
    · intro h0
      rcases List.exists_mem_of_ne_nil _ hne with ⟨q, hq⟩
      have := hsub q hq
      rw [h0] at this
      cases this
    · intro q hqτ
      by_cases hqd : Dead τ x q
      · exact hqd
      · exact ih q (hkeep q hqτ hqd)

/-! ### The invariant carried by one frame of the cascading removal -/

/-- Hypotheses under which one call of the recursive removal (one C++ stack
frame) runs to completion: `τ` is the state at frame entry, `x` the node
being removed, `A` the ids of the frames on the C++ call stack below this
one (each of which reaches `x` through a chain inside the stack). -/
structure FrameHyp (τ : GState) (x : VId) (A : List VId) : Prop where
  wf : WF τ
  pback : ∀ j nj, findNode τ j = some nj → ∀ q ∈ nj.parent_ids,
    ∃ nq, findNode τ q = some nq ∧ j ∈ nq.children
  cback : ∀ j nj, findNode τ j = some nj → j ∉ A → ∀ c ∈ nj.children,
    ∃ nc, findNode τ c = some nc ∧ j ∈ nc.parent_ids
  acyc : AcyclicP τ
  stem_mem : τ.stem_id ∈ keys τ
  stem_nopar : parentsOf τ τ.stem_id = []
  h5 : ∀ j nj, findNode τ j = some nj → j ∉ A → j ≠ τ.stem_id → j ≠ x →
    nj.parent_ids ≠ []
  x_mem : x ∈ keys τ
  x_notin : x ∉ A
  x_nstem : x ≠ τ.stem_id
  alive : ∀ q ∈ parentsOf τ x, ¬ Dead τ x q
  chainA : ∀ a ∈ A, ∃ l, PathT τ a x l ∧ ∀ u ∈ l, u ∈ A ∨ u = x
  A_mem : ∀ a ∈ A, a ∈ keys τ

/-- What one completed frame of the cascade guarantees about its result
state `σ` in terms of its entry state `τ`. -/
structure FrameConcl (τ : GState) (x : VId) (A : List VId) (σ : GState) : Prop where
  stem_eq : σ.stem_id = τ.stem_id
  keys_sub : ∀ j ∈ keys σ, j ∈ keys τ
  erased_dead : ∀ j ∈ keys τ, j ∉ keys σ → Dead τ x j
  x_gone : x ∉ keys σ
  nodes : ∀ j nσ, findNode σ j = some nσ → ∃ nτ, findNode τ j = some nτ ∧
    (∀ q ∈ nσ.parent_ids, q ∈ nτ.parent_ids) ∧
    (∀ q ∈ nτ.parent_ids, q ∉ nσ.parent_ids → Dead τ x q) ∧
    (∀ q ∈ nτ.parent_ids, ¬ Dead τ x q → q ∈ nσ.parent_ids) ∧
    (∀ q, q ∈ nσ.children ↔ q ∈ nτ.children ∧ ¬(q = x ∧ j ∈ parentsOf τ x))
  wf : WF σ
  pback : ∀ j nj, findNode σ j = some nj → ∀ q ∈ nj.parent_ids,
    ∃ nq, findNode σ q = some nq ∧ j ∈ nq.children
  cback : ∀ j nj, findNode σ j = some nj → j ∉ A → ∀ c ∈ nj.children,
    ∃ nc, findNode σ c = some nc ∧ j ∈ nc.parent_ids
  h5 : ∀ j nj, findNode σ j = some nj → j ∉ A → j ≠ σ.stem_id → nj.parent_ids ≠ []
  acyc : AcyclicP σ
  phi_le : totalParents σ ≤ totalParents τ
  edgeA : ∀ u v, u ∈ A → v ∈ A → chEdge τ u v → chEdge σ u v
  keepA : ∀ a ∈ A, a ∈ keys σ

/-- Specification of the recursive removal at a given amount of fuel: on
any state satisfying the frame hypotheses and with fuel above the total
parent count, the call succeeds without consuming schedule entries and its
result satisfies the frame conclusions. -/
def FrameSpec (fuel : Nat) (R : GState → List Bool → VId → Option Err × GState × List Bool) :
    Prop :=
  ∀ τ x A, FrameHyp τ x A → totalParents τ + 1 ≤ fuel →
    ∃ σ, R τ [] x = (none, σ, []) ∧ FrameConcl τ x A σ

/-- Invariant of the children loop of one frame: `τ0`/`nx` are the frame's
entry state and entry node, `τ` the current state, `cs` the children not yet
processed. -/
structure PassHyp (x : VId) (A : List VId) (τ0 : GState) (nx : Node)
    (τ : GState) (cs : List VId) : Prop where
  hfind0 : findNode τ0 x = some nx
  wf : WF τ
  pback : ∀ j nj, findNode τ j = some nj → ∀ q ∈ nj.parent_ids,
    ∃ nq, findNode τ q = some nq ∧ j ∈ nq.children
  cback : ∀ j nj, findNode τ j = some nj → j ∉ (x :: A) → ∀ c ∈ nj.children,
    ∃ nc, findNode τ c = some nc ∧ j ∈ nc.parent_ids
  acyc : AcyclicP τ
  stem_eq : τ.stem_id = τ0.stem_id
  stem_mem : τ.stem_id ∈ keys τ
  stem_nopar : parentsOf τ τ.stem_id = []
  h5 : ∀ j nj, findNode τ j = some nj → j ∉ A → j ≠ τ.stem_id → j ≠ x →
    nj.parent_ids ≠ []
  keys_sub : ∀ j ∈ keys τ, j ∈ keys τ0
  erased_dead : ∀ j ∈ keys τ0, j ∉ keys τ → Dead τ0 x j
  x_entry : findNode τ x = some nx
  nodes : ∀ j nτ, findNode τ j = some nτ → ∃ n0, findNode τ0 j = some n0 ∧
    (∀ q ∈ nτ.parent_ids, q ∈ n0.parent_ids) ∧
    (∀ q ∈ n0.parent_ids, q ∉ nτ.parent_ids → Dead τ0 x q) ∧
    (∀ q ∈ n0.parent_ids, ¬ Dead τ0 x q → q ∈ nτ.parent_ids) ∧
    nτ.children = n0.children
  sever : ∀ j nτ, findNode τ j = some nτ → x ∈ nτ.parent_ids → j ∈ cs
  cs_ok : ∀ c ∈ cs, ∃ nc, findNode τ c = some nc ∧ x ∈ nc.parent_ids
  cs_sub : ∀ c ∈ cs, c ∈ nx.children
  cs_nodup : cs.Nodup
  x_notin : x ∉ A
  x_nstem0 : x ≠ τ0.stem_id
  alive0 : ∀ q ∈ nx.parent_ids, ¬ Dead τ0 x q
  chainA : ∀ a ∈ A, ∃ l, PathT τ a x l ∧ ∀ u ∈ l, u ∈ A ∨ u = x
  keepA : ∀ a ∈ A, a ∈ keys τ
  wf0 : WF τ0
  phi_le : totalParents τ ≤ totalParents τ0

/-- At frame entry, the children loop starts with the full child list of the
node being removed and the pass invariant holds trivially. -/
lemma passHyp_init {τ : GState} {x : VId} {A : List VId} {nx : Node}
    (H : FrameHyp τ x A) (hx : findNode τ x = some nx) :
    PassHyp x A τ nx τ nx.children := by
  refine ⟨hx, H.wf, H.pback, ?_, H.acyc, rfl, H.stem_mem, H.stem_nopar, H.h5,
    fun j hj => hj, ?_, hx, ?_, ?_, ?_, ?_, ?_, H.x_notin, H.x_nstem, ?_,
    H.chainA, H.A_mem, H.wf, Nat.le_refl _⟩
  · intro j nj hj hjA c hc
    exact H.cback j nj hj (fun hmem => hjA (List.mem_cons.mpr (Or.inr hmem))) c hc
  · intro j hj hj2
    exact absurd hj hj2
  · intro j nτ hj
    exact ⟨nτ, hj, fun q hq => hq, fun q hq hq2 => absurd hq hq2, fun q hq _ => hq, rfl⟩
  · intro j nj hj hxp
    rcases H.pback j nj hj x hxp with ⟨nq, hnq, hjc⟩
    rw [hx] at hnq
    cases hnq
    exact hjc
  · intro c hc
    exact H.cback x nx hx H.x_notin c hc
  · exact fun c hc => hc
  · exact ((H.wf.2 (x, nx) (mfind_eq_some_mem hx)).2).nodup
  · intro q hq
    exact H.alive q (by rw [parentsOf_eq hx]; exact hq)

/-- When a child's parent set becomes empty, the state passed to the nested
recursive removal satisfies the frame hypotheses with the current frame
pushed onto the stack. -/
lemma nested_frameHyp {x : VId} {A : List VId} {τ0 : GState} {nx : Node}
    {τ : GState} {c : VId} {cs : List VId} {nc : Node}
    (P : PassHyp x A τ0 nx τ (c :: cs))
    (hc : findNode τ c = some nc)
    (hxc : x ∈ nc.parent_ids)
    (hempty : setErase x nc.parent_ids = []) :
    FrameHyp (updNode τ c (fun n => { n with parent_ids := setErase x nc.parent_ids }))
      c (x :: A) := by
  have hsc := P.wf.2 (c, nc) (mfind_eq_some_mem hc)
  have hwf2 : WF (updNode τ c (fun n => { n with parent_ids := setErase x nc.parent_ids })) :=
    WF_updNode P.wf (fun n _ hcn => ⟨sorted_setErase hsc.1, hcn⟩)
  have hfind_c : findNode (updNode τ c
      (fun n => { n with parent_ids := setErase x nc.parent_ids })) c =
      some { nc with parent_ids := setErase x nc.parent_ids } := by
    rw [findNode_updNode_self, hc]
    rfl
  have hfind_ne : ∀ j, j ≠ c → findNode (updNode τ c
      (fun n => { n with parent_ids := setErase x nc.parent_ids })) j = findNode τ j :=
    fun j hj => findNode_updNode_ne τ _ hj
  have hkeys : keys (updNode τ c
      (fun n => { n with parent_ids := setErase x nc.parent_ids })) = keys τ :=
    keys_updNode τ c _
  have hedge : ∀ u v, chEdge (updNode τ c
      (fun n => { n with parent_ids := setErase x nc.parent_ids })) u v ↔ chEdge τ u v :=
    chEdge_updNode_parents (fun n => rfl)
  have hcx : c ≠ x := by
    rintro rfl
    rw [P.x_entry] at hc
    cases hc
    rcases P.pback c nx P.x_entry c hxc with ⟨nq, hnq, hin⟩
    rw [P.x_entry] at hnq
    cases hnq
    exact P.acyc c (Relation.TransGen.single
      ⟨nx, P.x_entry, hin, mem_keys_iff.mpr (by rw [P.x_entry]; rfl)⟩)
  have hedge_xc : chEdge τ x c :=
    ⟨nx, P.x_entry, P.cs_sub c (List.mem_cons_self c cs),
      mem_keys_iff.mpr (by rw [hc]; rfl)⟩
  have hcA : c ∉ A := by
    intro hmem
    rcases P.chainA c hmem with ⟨l, hp, _⟩
    exact P.acyc x (Relation.TransGen.head' hedge_xc (reachP_iff_pathT.mpr ⟨l, hp⟩))
  have hcstem : c ≠ τ.stem_id := by
    rintro rfl
    have := parentsOf_eq hc
    rw [P.stem_nopar] at this
    rw [← this] at hxc
    cases hxc
  have hcnotin : c ∉ x :: A := by
    intro hmem
    rcases List.mem_cons.mp hmem with h | h
    · exact hcx h
    · exact hcA h
  refine ⟨hwf2, ?_, ?_, ?_, ?_, ?_, ?_, ?_, hcnotin, ?_, ?_, ?_, ?_⟩
  · -- pback
    intro j nj hj q hq
    by_cases hjc : j = c
    · subst hjc
      rw [hfind_c] at hj
      cases hj
      rw [hempty] at hq
      cases hq
    · rw [hfind_ne j hjc] at hj
      rcases P.pback j nj hj q hq with ⟨nq, hnq, hjin⟩
      by_cases hqc : q = c
      · subst hqc
        rw [hc] at hnq
        cases hnq
        exact ⟨_, hfind_c, hjin⟩
      · exact ⟨nq, by rw [hfind_ne q hqc]; exact hnq, hjin⟩
  · -- cback off the extended stack
    intro j nj hj hjA ch hch
    by_cases hjc : j = c
    · rw [hjc] at hj
      rw [hjc]
      rw [hfind_c] at hj
      cases hj
      rcases P.cback c nc hc hcnotin ch hch with ⟨nch, hnch, hin⟩
      have hchc : ch ≠ c := by
        rintro rfl
        exact P.acyc ch (Relation.TransGen.single
          ⟨nc, hc, hch, mem_keys_iff.mpr (by rw [hnch]; rfl)⟩)
      exact ⟨nch, by rw [hfind_ne ch hchc]; exact hnch, hin⟩
    · rw [hfind_ne j hjc] at hj
      rcases P.cback j nj hj hjA ch hch with ⟨nch, hnch, hin⟩
      by_cases hchc : ch = c
      · rw [hchc] at hnch
        rw [hc] at hnch
        cases hnch
        exfalso
        have hjx : j ≠ x := fun hjx => hjA (hjx ▸ List.mem_cons_self x A)
        exact hjx (setErase_eq_nil_subset hempty j hin)
      · exact ⟨nch, by rw [hfind_ne ch hchc]; exact hnch, hin⟩
  · exact acyclic_of_edge_mono (fun u v h => (hedge u v).mp h) P.acyc
  · show τ.stem_id ∈ keys _
    rw [hkeys]
    exact P.stem_mem
  · show parentsOf _ τ.stem_id = []
    show ((findNode _ τ.stem_id).map Node.parent_ids).getD [] = []
    rw [hfind_ne τ.stem_id (fun hh => hcstem hh.symm)]
    exact P.stem_nopar
  · -- h5 off the extended stack
    intro j nj hj hjA hjstem hjc
    rw [hfind_ne j hjc] at hj
    have hjx : j ≠ x := fun hjx => hjA (hjx ▸ List.mem_cons_self x A)
    exact P.h5 j nj hj (fun hm => hjA (List.mem_cons.mpr (Or.inr hm))) hjstem hjx
  · show c ∈ keys _
    rw [hkeys]
    exact mem_keys_iff.mpr (by rw [hc]; rfl)
  · exact hcstem
  · -- alive: the freshly emptied parent set
    intro q hq
    rw [parentsOf_eq hfind_c] at hq
    rw [hempty] at hq
    cases hq
  · -- chains from the extended stack
    intro a ha
    rcases List.mem_cons.mp ha with rfl | ha
    · refine ⟨[c], PathT.head ((hedge a c).mpr hedge_xc) (PathT.refl c), ?_⟩
      intro u hu
      rcases List.mem_cons.mp hu with rfl | hu
      · exact Or.inr rfl
      · cases hu
    · rcases P.chainA a ha with ⟨l, hp, hl⟩
      have hp2 : PathT (updNode τ c
          (fun n => { n with parent_ids := setErase x nc.parent_ids })) a x l :=
        pathT_transport (S := fun _ => True)
          (fun u v _ _ h => (hedge u v).mpr h) hp trivial (fun _ _ => trivial)
      refine ⟨l ++ [c], pathT_append hp2 (PathT.head ((hedge x c).mpr hedge_xc)
        (PathT.refl c)), ?_⟩
      intro u hu
      rcases List.mem_append.mp hu with hu | hu
      · rcases hl u hu with h | h
        · exact Or.inl (List.mem_cons.mpr (Or.inr h))
        · exact Or.inl (h ▸ List.mem_cons_self x A)
      · rcases List.mem_cons.mp hu with rfl | hu
        · exact Or.inr rfl
        · cases hu
  · -- stack members stay in the table
    intro a ha
    rcases List.mem_cons.mp ha with rfl | ha
    · show a ∈ keys _
      rw [hkeys]
      exact mem_keys_iff.mpr (by rw [P.x_entry]; rfl)
    · show a ∈ keys _
      rw [hkeys]
      exact P.keepA a ha

/-! ### Auxiliary facts about the frame finale -/

lemma mupdate_congr {g : List (VId × Node)} {i : VId} {f h : Node → Node}
    (hfh : ∀ e ∈ g, e.1 = i → f e.2 = h e.2) : mupdate g i f = mupdate g i h := by
  induction g with
  | nil => rfl
  | cons e rest ih =>
    rw [mupdate_cons, mupdate_cons]
    by_cases he : e.1 = i
    · rw [if_pos he, if_pos he, hfh e (List.mem_cons_self e rest) he,
        ih (fun e0 h0 hi => hfh e0 (List.mem_cons.mpr (Or.inr h0)) hi)]
    · rw [if_neg he, if_neg he, ih (fun e0 h0 hi => hfh e0 (List.mem_cons.mpr (Or.inr h0)) hi)]

lemma updNode_congr {s : GState} {i : VId} {f h : Node → Node}
    (hfh : ∀ e ∈ s.graph, e.1 = i → f e.2 = h e.2) : updNode s i f = updNode s i h := by
  show GState.mk s.stem_id (mupdate s.graph i f) = GState.mk s.stem_id (mupdate s.graph i h)
  rw [mupdate_congr hfh]

/-- Erasing a genuinely present parent entry strictly decreases the total
parent count. -/
lemma totalParents_sever_lt {τ : GState} {c x : VId} {nc : Node}
    (hwf : WF τ) (hc : findNode τ c = some nc) (hx : x ∈ nc.parent_ids) :
    totalParents (updNode τ c (fun n => { n with parent_ids := setErase x nc.parent_ids }))
      < totalParents τ := by
  have hcong : updNode τ c (fun n => { n with parent_ids := setErase x nc.parent_ids }) =
      updNode τ c (fun n => { n with parent_ids := setErase x n.parent_ids }) := by
    apply updNode_congr
    intro e he h1
    have h2 := mfind_of_mem hwf.nodup_keys he
    rw [h1] at h2
    have h3 : nc = e.2 := Option.some.inj (hc.symm.trans h2)
    rw [← h3]
  rw [hcong]
  refine totalParents_updNode_lt hwf.nodup_keys hc ?_
    (fun m => length_setErase_le x m.parent_ids)
  show (setErase x nc.parent_ids).length < nc.parent_ids.length
  have := length_setErase_of_mem hx
  omega

lemma rollback_WF {id : VId} : ∀ {done : List VId} {s : GState}, WF s →
    WF (rollbackChildEdges id done s) := by
  intro done
  induction done with
  | nil => intro s h; exact h
  | cons d ds ih =>
    intro s h
    rw [rollback_step]
    exact ih (WF_updNode h (fun n hp hc => ⟨hp, sorted_setErase hc⟩))

lemma keys_rollback (id : VId) : ∀ (done : List VId) (s : GState),
    keys (rollbackChildEdges id done s) = keys s := by
  intro done
  induction done with
  | nil => intro s; rfl
  | cons d ds ih =>
    intro s
    rw [rollback_step, ih, keys_updNode]

lemma stem_rollback (id : VId) : ∀ (done : List VId) (s : GState),
    (rollbackChildEdges id done s).stem_id = s.stem_id := by
  intro done
  induction done with
  | nil => intro s; rfl
  | cons d ds ih =>
    intro s
    rw [rollback_step, ih, stem_updNode]

lemma phi_rollback_le (id : VId) : ∀ (done : List VId) (s : GState),
    totalParents (rollbackChildEdges id done s) ≤ totalParents s := by
  intro done
  induction done with
  | nil => intro s; exact Nat.le_refl _
  | cons d ds ih =>
    intro s
    rw [rollback_step]
    exact Nat.le_trans (ih _) (totalParents_updNode_le (fun n => Nat.le_refl _))

/-- The finale's child-set erasures only shrink the edge relation. -/
lemma rollback_edge_sub {id : VId} {done : List VId} {s : GState} (hw : WF s)
    {u v : VId} (h : chEdge (rollbackChildEdges id done s) u v) : chEdge s u v := by
  rcases h with ⟨nu, hnu, hv, hk⟩
  rw [rollback_pointwise id done s hw u] at hnu
  rw [keys_rollback] at hk
  by_cases hud : u ∈ done
  · rw [if_pos hud] at hnu
    cases hfu : findNode s u with
    | none => rw [hfu] at hnu; cases hnu
    | some m =>
      rw [hfu] at hnu
      cases hnu
      exact ⟨m, hfu, mem_of_mem_setErase hv, hk⟩
  · rw [if_neg hud] at hnu
    exact ⟨nu, hnu, hv, hk⟩

/-- A surviving node none of whose parents died, in a cascade whose target
had no parents at frame entry, is preserved exactly. -/
lemma frameConcl_preserves_node {τp σ : GState} {t : VId} {B : List VId}
    (hwf : WF τp) (C : FrameConcl τp t B σ)
    (hnopar : parentsOf τp t = [])
    {j : VId} {nj : Node} (hj : findNode τp j = some nj)
    (hjσ : j ∈ keys σ)
    (halive : ∀ q ∈ nj.parent_ids, ¬ Dead τp t q) :
    findNode σ j = some nj := by
  rcases Option.isSome_iff_exists.mp (mem_keys_iff.mp hjσ) with ⟨m, hm⟩
  rcases C.nodes j m hm with ⟨nτ, hnτ, hsub, _, hkeep, hch⟩
  rw [hj] at hnτ
  cases hnτ
  have hPmem : ∀ q, q ∈ m.parent_ids ↔ q ∈ nj.parent_ids := by
    intro q
    constructor
    · exact hsub q
    · intro hq
      exact hkeep q hq (halive q hq)
  have hCmem : ∀ q, q ∈ m.children ↔ q ∈ nj.children := by
    intro q
    constructor
    · intro hq
      exact ((hch q).mp hq).1
    · intro hq
      refine (hch q).mpr ⟨hq, ?_⟩
      rintro ⟨-, hjp⟩
      rw [hnopar] at hjp
      cases hjp
  have hms := C.wf.2 (j, m) (mfind_eq_some_mem hm)
  have hjs := hwf.2 (j, nj) (mfind_eq_some_mem hj)
  have h1 : m.parent_ids = nj.parent_ids := sortedIds_ext hms.1 hjs.1 hPmem
  have h2 : m.children = nj.children := sortedIds_ext hms.2 hjs.2 hCmem
  have hmn : m = nj := congrArg₂ Node.mk h1 h2
  rw [hm, hmn]

/-- One iteration of the children loop in which the erased parent entry was
not the child's last one: no recursion happens and the pass invariant
advances to the remaining children. -/
lemma pass_step_norec {x : VId} {A : List VId} {τ0 : GState} {nx : Node}
    {τ : GState} {c : VId} {cs : List VId} {nc : Node}
    (P : PassHyp x A τ0 nx τ (c :: cs))
    (hc : findNode τ c = some nc)
    (hxc : x ∈ nc.parent_ids)
    (hne : setErase x nc.parent_ids ≠ []) :
    PassHyp x A τ0 nx
      (updNode τ c (fun n => { n with parent_ids := setErase x nc.parent_ids })) cs := by
  have hsc := P.wf.2 (c, nc) (mfind_eq_some_mem hc)
  have hwf2 : WF (updNode τ c (fun n => { n with parent_ids := setErase x nc.parent_ids })) :=
    WF_updNode P.wf (fun n _ hcn => ⟨sorted_setErase hsc.1, hcn⟩)
  have hfind_c : findNode (updNode τ c
      (fun n => { n with parent_ids := setErase x nc.parent_ids })) c =
      some { nc with parent_ids := setErase x nc.parent_ids } := by
    rw [findNode_updNode_self, hc]
    rfl
  have hfind_ne : ∀ j, j ≠ c → findNode (updNode τ c
      (fun n => { n with parent_ids := setErase x nc.parent_ids })) j = findNode τ j :=
    fun j hj => findNode_updNode_ne τ _ hj
  have hkeys : keys (updNode τ c
      (fun n => { n with parent_ids := setErase x nc.parent_ids })) = keys τ :=
    keys_updNode τ c _
  have hedge : ∀ u v, chEdge (updNode τ c
      (fun n => { n with parent_ids := setErase x nc.parent_ids })) u v ↔ chEdge τ u v :=
    chEdge_updNode_parents (fun n => rfl)
  have hcx : c ≠ x := by
    rintro rfl
    rw [P.x_entry] at hc
    cases hc
    rcases P.pback c nx P.x_entry c hxc with ⟨nq, hnq, hin⟩
    rw [P.x_entry] at hnq
    cases hnq
    exact P.acyc c (Relation.TransGen.single
      ⟨nx, P.x_entry, hin, mem_keys_iff.mpr (by rw [P.x_entry]; rfl)⟩)
  have hedge_xc : chEdge τ x c :=
    ⟨nx, P.x_entry, P.cs_sub c (List.mem_cons_self c cs),
      mem_keys_iff.mpr (by rw [hc]; rfl)⟩
  have hcA : c ∉ A := by
    intro hmem
    rcases P.chainA c hmem with ⟨l, hp, _⟩
    exact P.acyc x (Relation.TransGen.head' hedge_xc (reachP_iff_pathT.mpr ⟨l, hp⟩))
  have hcstem : c ≠ τ.stem_id := by
    rintro rfl
    have := parentsOf_eq hc
    rw [P.stem_nopar] at this
    rw [← this] at hxc
    cases hxc
  have hcnotin : c ∉ x :: A := fun hmem => (List.mem_cons.mp hmem).elim hcx hcA
  have hnd_pc : nc.parent_ids.Nodup := hsc.1.nodup
  have hcnodupcs : c ∉ cs := (List.nodup_cons.mp P.cs_nodup).1
  refine ⟨P.hfind0, hwf2, ?_, ?_, ?_, ?_, ?_, ?_, ?_, ?_, ?_, ?_, ?_, ?_, ?_, ?_, ?_,
    P.x_notin, P.x_nstem0, P.alive0, ?_, ?_, P.wf0, ?_⟩
  · -- pback
    intro j nj hj q hq
    by_cases hjc : j = c
    · rw [hjc] at hj
      rw [hjc]
      rw [hfind_c] at hj
      cases hj
      have hq2 : q ∈ nc.parent_ids := mem_of_mem_setErase hq
      rcases P.pback c nc hc q hq2 with ⟨nq, hnq, hjin⟩
      by_cases hqc : q = c
      · rw [hqc] at hnq ⊢
        rw [hc] at hnq
        cases hnq
        exact ⟨_, hfind_c, hjin⟩
      · exact ⟨nq, by rw [hfind_ne q hqc]; exact hnq, hjin⟩
    · rw [hfind_ne j hjc] at hj
      rcases P.pback j nj hj q hq with ⟨nq, hnq, hjin⟩
      by_cases hqc : q = c
      · rw [hqc] at hnq ⊢
        rw [hc] at hnq
        cases hnq
        exact ⟨_, hfind_c, hjin⟩
      · exact ⟨nq, by rw [hfind_ne q hqc]; exact hnq, hjin⟩
  · -- cback
    intro j nj hj hjA ch hch
    by_cases hjc : j = c
    · rw [hjc] at hj
      rw [hjc]
      rw [hfind_c] at hj
      cases hj
      rcases P.cback c nc hc hcnotin ch hch with ⟨nch, hnch, hin⟩
      by_cases hchc : ch = c
      · exfalso
        rw [hchc] at hch
        exact P.acyc c (Relation.TransGen.single
          ⟨nc, hc, hch, mem_keys_iff.mpr (by rw [hc]; rfl)⟩)
      · exact ⟨nch, by rw [hfind_ne ch hchc]; exact hnch, hin⟩
    · rw [hfind_ne j hjc] at hj
      rcases P.cback j nj hj hjA ch hch with ⟨nch, hnch, hin⟩
      by_cases hchc : ch = c
      · rw [hchc] at hnch ⊢
        rw [hc] at hnch
        cases hnch
        have hjx : j ≠ x := fun h => hjA (h ▸ List.mem_cons_self x A)
        exact ⟨_, hfind_c, mem_setErase_of_ne hin hjx⟩
      · exact ⟨nch, by rw [hfind_ne ch hchc]; exact hnch, hin⟩
  · -- acyclicity
    exact acyclic_of_edge_mono (fun u v h => (hedge u v).mp h) P.acyc
  · -- stem id unchanged
    exact P.stem_eq
  · -- stem membership
    show τ.stem_id ∈ keys _
    rw [hkeys]
    exact P.stem_mem
  · -- stem without parents
    show parentsOf _ τ.stem_id = []
    show ((findNode _ τ.stem_id).map Node.parent_ids).getD [] = []
    rw [hfind_ne τ.stem_id (fun hh => hcstem hh.symm)]
    exact P.stem_nopar
  · -- every off-stack non-stem survivor keeps a parent
    intro j nj hj hjA hjstem hjx
    by_cases hjc : j = c
    · rw [hjc] at hj
      rw [hfind_c] at hj
      cases hj
      exact hne
    · rw [hfind_ne j hjc] at hj
      exact P.h5 j nj hj hjA hjstem hjx
  · -- keys only shrink
    intro j hj
    rw [hkeys] at hj
    exact P.keys_sub j hj
  · -- erased nodes are dead
    intro j hj hj2
    rw [hkeys] at hj2
    exact P.erased_dead j hj hj2
  · -- the target's entry is untouched
    rw [hfind_ne x (fun h => hcx h.symm)]
    exact P.x_entry
  · -- node windows
    intro j nτ hj
    by_cases hjc : j = c
    · rw [hjc] at hj ⊢
      rw [hfind_c] at hj
      cases hj
      rcases P.nodes c nc hc with ⟨n0, h0, hsub, hdead, hkeep, hchld⟩
      refine ⟨n0, h0, ?_, ?_, ?_, ?_⟩
      · intro q hq
        exact hsub q (mem_of_mem_setErase hq)
      · intro q hq hq2
        by_cases hqnc : q ∈ nc.parent_ids
        · have hqx : q = x := by
            by_contra hqx
            exact hq2 (mem_setErase_of_ne hqnc hqx)
          rw [hqx]
          exact Dead.base
        · exact hdead q hq hqnc
      · intro q hq hqd
        have hq2 : q ∈ nc.parent_ids := hkeep q hq hqd
        have hqx : q ≠ x := fun h => hqd (h ▸ Dead.base)
        exact mem_setErase_of_ne hq2 hqx
      · exact hchld
    · rw [hfind_ne j hjc] at hj
      exact P.nodes j nτ hj
  · -- the severed entries are exactly the pending children
    intro j nτ hj hxp
    by_cases hjc : j = c
    · rw [hjc] at hj
      rw [hfind_c] at hj
      cases hj
      exact absurd hxp (not_mem_setErase_self hnd_pc)
    · rw [hfind_ne j hjc] at hj
      have h2 := P.sever j nτ hj hxp
      rcases List.mem_cons.mp h2 with h | h
      · exact absurd h hjc
      · exact h
  · -- pending children still carry the target as parent
    intro d hcs
    have hdc : d ≠ c := fun h => hcnodupcs (h ▸ hcs)
    rcases P.cs_ok d (List.mem_cons.mpr (Or.inr hcs)) with ⟨nd, hnd, hx2⟩
    exact ⟨nd, by rw [hfind_ne d hdc]; exact hnd, hx2⟩
  · -- pending children among recorded children
    exact fun d h => P.cs_sub d (List.mem_cons.mpr (Or.inr h))
  · -- pending children distinct
    exact (List.nodup_cons.mp P.cs_nodup).2
  · -- chains from stack
    intro a ha
    rcases P.chainA a ha with ⟨l, hp, hl⟩
    exact ⟨l, pathT_transport (S := fun _ => True) (fun u v _ _ h => (hedge u v).mpr h)
      hp trivial (fun _ _ => trivial), hl⟩
  · -- stack members stay in the table
    intro a ha
    show a ∈ keys _
    rw [hkeys]
    exact P.keepA a ha
  · -- the parent count shrank
    exact Nat.le_trans (Nat.le_of_lt (totalParents_sever_lt P.wf hc hxc)) P.phi_le

/-- One iteration of the children loop in which the child lost its last
parent: after the successful nested removal the pass invariant advances to
the remaining children. -/
lemma pass_step_rec {x : VId} {A : List VId} {τ0 : GState} {nx : Node}
    {τ : GState} {c : VId} {cs : List VId} {nc : Node} {σ : GState}
    (P : PassHyp x A τ0 nx τ (c :: cs))
    (hc : findNode τ c = some nc)
    (hxc : x ∈ nc.parent_ids)
    (hempty : setErase x nc.parent_ids = [])
    (C : FrameConcl
      (updNode τ c (fun n => { n with parent_ids := setErase x nc.parent_ids })) c (x :: A) σ) :
    PassHyp x A τ0 nx σ cs := by
  have H' := nested_frameHyp P hc hxc hempty
  have hfind_c : findNode (updNode τ c
      (fun n => { n with parent_ids := setErase x nc.parent_ids })) c =
      some { nc with parent_ids := setErase x nc.parent_ids } := by
    rw [findNode_updNode_self, hc]
    rfl
  have hfind_ne : ∀ j, j ≠ c → findNode (updNode τ c
      (fun n => { n with parent_ids := setErase x nc.parent_ids })) j = findNode τ j :=
    fun j hj => findNode_updNode_ne τ _ hj
  have hkeys : keys (updNode τ c
      (fun n => { n with parent_ids := setErase x nc.parent_ids })) = keys τ :=
    keys_updNode τ c _
  have hedge : ∀ u v, chEdge (updNode τ c
      (fun n => { n with parent_ids := setErase x nc.parent_ids })) u v ↔ chEdge τ u v :=
    chEdge_updNode_parents (fun n => rfl)
  have hcx : c ≠ x := by
    rintro rfl
    rw [P.x_entry] at hc
    cases hc
    rcases P.pback c nx P.x_entry c hxc with ⟨nq, hnq, hin⟩
    rw [P.x_entry] at hnq
    cases hnq
    exact P.acyc c (Relation.TransGen.single
      ⟨nx, P.x_entry, hin, mem_keys_iff.mpr (by rw [P.x_entry]; rfl)⟩)
  have hedge_xc : chEdge τ x c :=
    ⟨nx, P.x_entry, P.cs_sub c (List.mem_cons_self c cs),
      mem_keys_iff.mpr (by rw [hc]; rfl)⟩
  have hcstem : c ≠ τ.stem_id := by
    rintro rfl
    have := parentsOf_eq hc
    rw [P.stem_nopar] at this
    rw [← this] at hxc
    cases hxc
  have hcnodupcs : c ∉ cs := (List.nodup_cons.mp P.cs_nodup).1
  have hnopar : parentsOf (updNode τ c
      (fun n => { n with parent_ids := setErase x nc.parent_ids })) c = [] := by
    rw [parentsOf_eq hfind_c]
    exact hempty
  rcases P.nodes c nc hc with ⟨n0c, h0c, hsub0, hdead0, hkeep0, hch0⟩
  have hall_dead : ∀ q ∈ n0c.parent_ids, Dead τ0 x q := by
    intro q hq
    by_cases hqnc : q ∈ nc.parent_ids
    · have hqx : q = x := setErase_eq_nil_subset hempty q hqnc
      rw [hqx]
      exact Dead.base
    · exact hdead0 q hq hqnc
  have hc_dead : Dead τ0 x c := by
    refine Dead.step h0c ?_ hall_dead
    intro h0
    rw [h0] at hsub0
    exact (List.not_mem_nil x) (hsub0 x hxc)
  have hD2 : ∀ {d}, Dead (updNode τ c
      (fun n => { n with parent_ids := setErase x nc.parent_ids })) c d → Dead τ0 x d := by
    refine dead_mono ?_ hc_dead
    intro j m hj
    by_cases hjc : j = c
    · rw [hjc] at hj ⊢
      rw [hfind_c] at hj
      cases hj
      refine ⟨n0c, h0c, ?_, ?_⟩
      · intro q hq
        have h1 : q ∈ setErase x nc.parent_ids := hq
        rw [hempty] at h1
        cases h1
      · intro q hq hqd
        exact absurd (hall_dead q hq) hqd
    · rw [hfind_ne j hjc] at hj
      rcases P.nodes j m hj with ⟨n0, h0, hsubj, _, hkeepj, _⟩
      exact ⟨n0, h0, hsubj, hkeepj⟩
  have hstem_ne_c : τ.stem_id ≠ c := fun h => hcstem h.symm
  have hstem_not_dead : ¬ Dead (updNode τ c
      (fun n => { n with parent_ids := setErase x nc.parent_ids })) c
      (updNode τ c (fun n => { n with parent_ids := setErase x nc.parent_ids })).stem_id :=
    stem_not_dead ⟨H'.stem_mem, H'.stem_nopar⟩ H'.x_nstem
  have hstem_mem_σ : τ.stem_id ∈ keys σ := by
    by_contra hno
    have hmem2 : τ.stem_id ∈ keys (updNode τ c
        (fun n => { n with parent_ids := setErase x nc.parent_ids })) := by
      rw [hkeys]
      exact P.stem_mem
    exact hstem_not_dead (C.erased_dead _ hmem2 hno)
  have hstem_nopar_σ : parentsOf σ τ.stem_id = [] := by
    rcases Option.isSome_iff_exists.mp (mem_keys_iff.mp hstem_mem_σ) with ⟨nst, hnst⟩
    rcases C.nodes _ _ hnst with ⟨nst2, hnst2, hsubst, _, _, _⟩
    rw [hfind_ne _ hstem_ne_c] at hnst2
    have h1 : nst2.parent_ids = [] := (parentsOf_eq hnst2).symm.trans P.stem_nopar
    have h2 : nst.parent_ids = [] := by
      cases hcase : nst.parent_ids with
      | nil => rfl
      | cons a l =>
        have h3 : a ∈ nst2.parent_ids :=
          hsubst a (by rw [hcase]; exact List.mem_cons_self a l)
        rw [h1] at h3
        cases h3
    rw [parentsOf_eq hnst, h2]
  have hx_not_dead : ¬ Dead (updNode τ c
      (fun n => { n with parent_ids := setErase x nc.parent_ids })) c x := by
    refine not_dead_of_reaches H'.pback H'.acyc (fun h => hcx h.symm) ?_
    exact Relation.ReflTransGen.single ((hedge x c).mpr hedge_xc)
  have hx_entry_σ : findNode σ x = some nx := by
    refine frameConcl_preserves_node H'.wf C hnopar ?_ ?_ ?_
    · rw [hfind_ne x (fun h => hcx h.symm)]
      exact P.x_entry
    · exact C.keepA x (List.mem_cons_self x A)
    · exact fun q hq hd => P.alive0 q hq (hD2 hd)
  refine ⟨P.hfind0, C.wf, C.pback, C.cback, C.acyc, ?_, ?_, ?_, ?_, ?_, ?_, hx_entry_σ,
    ?_, ?_, ?_, ?_, ?_, P.x_notin, P.x_nstem0, P.alive0, ?_, ?_, P.wf0, ?_⟩
  · -- stem id unchanged
    exact C.stem_eq.trans P.stem_eq
  · -- stem membership
    rw [C.stem_eq]
    exact hstem_mem_σ
  · -- stem without parents
    rw [C.stem_eq]
    exact hstem_nopar_σ
  · -- every off-stack non-stem survivor keeps a parent
    intro j nj hj hjA hjstem hjx
    refine C.h5 j nj hj ?_ hjstem
    intro hmem
    rcases List.mem_cons.mp hmem with h | h
    · exact hjx h
    · exact hjA h
  · -- keys only shrink
    intro j hj
    have h2 := C.keys_sub j hj
    rw [hkeys] at h2
    exact P.keys_sub j h2
  · -- erased nodes are dead
    intro j hj0 hjσ
    by_cases hjτ : j ∈ keys τ
    · have hjτ2 : j ∈ keys (updNode τ c
          (fun n => { n with parent_ids := setErase x nc.parent_ids })) := by
        rw [hkeys]
        exact hjτ
      exact hD2 (C.erased_dead j hjτ2 hjσ)
    · exact P.erased_dead j hj0 hjτ
  · -- node windows
    intro j nσj hj
    rcases C.nodes j nσj hj with ⟨nτ2, hnτ2, hsub1, hdead1, hkeep1, hch1⟩
    by_cases hjc : j = c
    · rw [hjc] at hj hnτ2 ⊢
      rw [hfind_c] at hnτ2
      cases hnτ2
      refine ⟨n0c, h0c, ?_, ?_, ?_, ?_⟩
      · intro q hq
        have h1 : q ∈ setErase x nc.parent_ids := hsub1 q hq
        rw [hempty] at h1
        cases h1
      · intro q hq _
        exact hall_dead q hq
      · intro q hq hqd
        exact absurd (hall_dead q hq) hqd
      · have hmemc : ∀ q, q ∈ nσj.children ↔ q ∈ n0c.children := by
          intro q
          rw [hch1 q]
          constructor
          · rintro ⟨h1, -⟩
            rw [← hch0]
            exact h1
          · intro h1
            refine ⟨?_, ?_⟩
            · show q ∈ nc.children
              rw [hch0]
              exact h1
            · rintro ⟨-, hcp⟩
              rw [hnopar] at hcp
              cases hcp
        exact sortedIds_ext (C.wf.2 (c, nσj) (mfind_eq_some_mem hj)).2
          (P.wf0.2 (c, n0c) (mfind_eq_some_mem h0c)).2 hmemc
    · rw [hfind_ne j hjc] at hnτ2
      rcases P.nodes j nτ2 hnτ2 with ⟨n0, h0, hsub2, hdead2, hkeep2, hch2⟩
      refine ⟨n0, h0, ?_, ?_, ?_, ?_⟩
      · exact fun q hq => hsub2 q (hsub1 q hq)
      · intro q hq hq2
        by_cases hqτ : q ∈ nτ2.parent_ids
        · exact hD2 (hdead1 q hqτ hq2)
        · exact hdead2 q hq hqτ
      · intro q hq hqd
        refine hkeep1 q (hkeep2 q hq hqd) ?_
        intro hd2
        exact hqd (hD2 hd2)
      · have hmemc : ∀ q, q ∈ nσj.children ↔ q ∈ n0.children := by
          intro q
          rw [hch1 q]
          constructor
          · rintro ⟨h1, -⟩
            rw [← hch2]
            exact h1
          · intro h1
            refine ⟨by rw [hch2]; exact h1, ?_⟩
            rintro ⟨rfl, hjp⟩
            rw [hnopar] at hjp
            cases hjp
        exact sortedIds_ext (C.wf.2 (j, nσj) (mfind_eq_some_mem hj)).2
          (P.wf0.2 (j, n0) (mfind_eq_some_mem h0)).2 hmemc
  · -- the severed entries are exactly the pending children
    intro j nσj hj hxp
    rcases C.nodes j nσj hj with ⟨nτ2, hnτ2, hsub1, _, _, _⟩
    by_cases hjc : j = c
    · rw [hjc] at hnτ2
      rw [hfind_c] at hnτ2
      cases hnτ2
      have h1 : x ∈ setErase x nc.parent_ids := hsub1 x hxp
      rw [hempty] at h1
      cases h1
    · rw [hfind_ne j hjc] at hnτ2
      have hxτ : x ∈ nτ2.parent_ids := hsub1 x hxp
      have h2 := P.sever j nτ2 hnτ2 hxτ
      rcases List.mem_cons.mp h2 with h | h
      · exact absurd h hjc
      · exact h
  · -- pending children still carry the target as parent
    intro d hcs
    have hdc : d ≠ c := fun h => hcnodupcs (h ▸ hcs)
    rcases P.cs_ok d (List.mem_cons.mpr (Or.inr hcs)) with ⟨nd, hnd, hx2⟩
    have hndτ2 : findNode (updNode τ c
        (fun n => { n with parent_ids := setErase x nc.parent_ids })) d = some nd := by
      rw [hfind_ne d hdc]
      exact hnd
    have hd_surv : d ∈ keys σ := by
      by_contra hno
      have hmem2 : d ∈ keys (updNode τ c
          (fun n => { n with parent_ids := setErase x nc.parent_ids })) :=
        mem_keys_iff.mpr (by rw [hndτ2]; rfl)
      have hd := C.erased_dead d hmem2 hno
      cases hd with
      | base => exact hdc rfl
      | step hf hne2 hall =>
        rw [hndτ2] at hf
        cases hf
        exact hx_not_dead (hall x hx2)
    rcases Option.isSome_iff_exists.mp (mem_keys_iff.mp hd_surv) with ⟨m, hm⟩
    rcases C.nodes d m hm with ⟨nτ2, hnτ2, _, _, hkeep1, _⟩
    rw [hndτ2] at hnτ2
    cases hnτ2
    exact ⟨m, hm, hkeep1 x hx2 hx_not_dead⟩
  · -- pending children among recorded children
    exact fun d h => P.cs_sub d (List.mem_cons.mpr (Or.inr h))
  · -- pending children distinct
    exact (List.nodup_cons.mp P.cs_nodup).2
  · -- chains from stack
    intro a ha
    rcases P.chainA a ha with ⟨l, hp, hl⟩
    refine ⟨l, ?_, hl⟩
    refine pathT_transport (S := fun u => u ∈ x :: A) ?_ hp ?_ ?_
    · intro u v hu hv h
      exact C.edgeA u v hu hv ((hedge u v).mpr h)
    · exact List.mem_cons.mpr (Or.inr ha)
    · intro u hu
      rcases hl u hu with h | h
      · exact List.mem_cons.mpr (Or.inr h)
      · exact h ▸ List.mem_cons_self x A
  · -- stack members stay in the table
    exact fun a ha => C.keepA a (List.mem_cons.mpr (Or.inr ha))
  · -- the parent count shrank
    exact Nat.le_trans C.phi_le
      (Nat.le_trans (Nat.le_of_lt (totalParents_sever_lt P.wf hc hxc)) P.phi_le)

/-- Unfolding of one iteration of the children loop on the empty schedule,
once the child's entry is known. -/
lemma childPass_cons_some
    {R : GState → List Bool → VId → Option Err × GState × List Bool}
    {x c : VId} {cs : List VId} {τ : GState} {nc : Node}
    (hc : findNode τ c = some nc) :
    childPass R x (c :: cs) τ [] =
      (if setErase x nc.parent_ids = [] then
        match R (updNode τ c (fun n => { n with parent_ids := setErase x nc.parent_ids }))
            [] c with
        | (none, s2, sched2) => childPass R x cs s2 sched2
        | (some e, s2, sched2) =>
          if (tick sched2).1 then (some Err.injected, s2, (tick sched2).2)
          else (some e,
            updNode s2 c (fun n => { n with parent_ids := setInsert x n.parent_ids }),
            (tick sched2).2)
      else childPass R x cs
        (updNode τ c (fun n => { n with parent_ids := setErase x nc.parent_ids })) []) := by
  have hbody : childPass R x (c :: cs) τ [] = (match findNode τ c with
      | none => childPass R x cs τ []
      | some cnode =>
        if setErase x cnode.parent_ids = [] then
          match R (updNode τ c
              (fun n => { n with parent_ids := setErase x cnode.parent_ids })) [] c with
          | (none, s2, sched2) => childPass R x cs s2 sched2
          | (some e, s2, sched2) =>
            if (tick sched2).1 then (some Err.injected, s2, (tick sched2).2)
            else (some e,
              updNode s2 c (fun n => { n with parent_ids := setInsert x n.parent_ids }),
              (tick sched2).2)
        else childPass R x cs
          (updNode τ c (fun n => { n with parent_ids := setErase x cnode.parent_ids })) []) :=
    rfl
  rw [hbody, hc]

/-- The children loop run above a correct recursive removal: from any pass
invariant it completes without error on the empty schedule and restores the
pass invariant with no children left. -/
lemma childPass_spec {fuel : Nat}
    (hR : FrameSpec fuel (removeAux fuel)) :
    ∀ (cs : List VId) {x : VId} {A : List VId} {τ0 : GState} {nx : Node} {τ : GState},
    PassHyp x A τ0 nx τ cs → totalParents τ0 ≤ fuel →
    ∃ σ, childPass (removeAux fuel) x cs τ [] = (none, σ, []) ∧ PassHyp x A τ0 nx σ [] := by
  intro cs
  induction cs with
  | nil =>
    intro x A τ0 nx τ P _
    exact ⟨τ, rfl, P⟩
  | cons c cs ih =>
    intro x A τ0 nx τ P hfuel
    rcases P.cs_ok c (List.mem_cons_self c cs) with ⟨nc, hc, hxc⟩
    by_cases hempty : setErase x nc.parent_ids = []
    · have H' := nested_frameHyp P hc hxc hempty
      have hfuel2 : totalParents (updNode τ c
          (fun n => { n with parent_ids := setErase x nc.parent_ids })) + 1 ≤ fuel := by
        have h1 := totalParents_sever_lt P.wf hc hxc
        have h2 := P.phi_le
        omega
      rcases hR _ c (x :: A) H' hfuel2 with ⟨σ1, hrun, C⟩
      rcases ih (pass_step_rec P hc hxc hempty C) hfuel with ⟨σ, hrun2, Pf⟩
      refine ⟨σ, ?_, Pf⟩
      rw [childPass_cons_some hc, if_pos hempty, hrun]
      exact hrun2
    · rcases ih (pass_step_norec P hc hxc hempty) hfuel with ⟨σ, hrun2, Pf⟩
      refine ⟨σ, ?_, Pf⟩
      rw [childPass_cons_some hc, if_neg hempty]
      exact hrun2

/-- The finale of one frame: after the children loop has completed, the node
is erased from every recorded parent's child set and dropped from the table,
establishing the frame conclusions. -/
lemma frame_finale {x : VId} {A : List VId} {τ0 : GState} {nx : Node} {σ : GState}
    (P : PassHyp x A τ0 nx σ []) :
    FrameConcl τ0 x A (eraseNode (rollbackChildEdges x nx.parent_ids σ) x) := by
  have hWFρ : WF (rollbackChildEdges x nx.parent_ids σ) := rollback_WF P.wf
  have hkeysρ : keys (rollbackChildEdges x nx.parent_ids σ) = keys σ :=
    keys_rollback x nx.parent_ids σ
  have hkeysF : keys (eraseNode (rollbackChildEdges x nx.parent_ids σ) x) =
      setErase x (keys σ) := by
    rw [keys_eraseNode, hkeysρ]
  have parents0 : parentsOf τ0 x = nx.parent_ids := parentsOf_eq P.hfind0
  have severσ : ∀ j nj, findNode σ j = some nj → x ∉ nj.parent_ids := by
    intro j nj hj hx2
    exact absurd (P.sever j nj hj hx2) (List.not_mem_nil j)
  have hgetσ : ∀ {j : VId} {nj : Node},
      findNode (eraseNode (rollbackChildEdges x nx.parent_ids σ) x) j = some nj →
      j ≠ x ∧ ∃ nσj, findNode σ j = some nσj ∧ nj.parent_ids = nσj.parent_ids ∧
        ((nj.children = setErase x nσj.children ∧ j ∈ nx.parent_ids) ∨
         (nj.children = nσj.children ∧ j ∉ nx.parent_ids)) := by
    intro j nj hjF
    have hjx : j ≠ x := by
      rintro rfl
      rw [findNode_eraseNode_self _ _ hWFρ.nodup_keys] at hjF
      cases hjF
    rw [findNode_eraseNode_ne _ hjx, rollback_pointwise x nx.parent_ids σ P.wf j] at hjF
    by_cases hmem : j ∈ nx.parent_ids
    · rw [if_pos hmem] at hjF
      cases hfσ : findNode σ j with
      | none =>
        rw [hfσ] at hjF
        cases hjF
      | some m =>
        rw [hfσ] at hjF
        cases hjF
        exact ⟨hjx, m, rfl, rfl, Or.inl ⟨rfl, hmem⟩⟩
    · rw [if_neg hmem] at hjF
      exact ⟨hjx, nj, hjF, rfl, Or.inr ⟨rfl, hmem⟩⟩
  have hputF : ∀ {q : VId} {nq : Node}, q ≠ x → findNode σ q = some nq →
      ∃ mq, findNode (eraseNode (rollbackChildEdges x nx.parent_ids σ) x) q = some mq ∧
        mq.parent_ids = nq.parent_ids ∧
        (∀ u, u ∈ mq.children ↔ u ∈ nq.children ∧ (q ∈ nx.parent_ids → u ≠ x)) := by
    intro q nq hqx hq
    rw [findNode_eraseNode_ne _ hqx]
    rw [rollback_pointwise x nx.parent_ids σ P.wf q]
    by_cases hmem : q ∈ nx.parent_ids
    · rw [if_pos hmem, hq]
      refine ⟨_, rfl, rfl, ?_⟩
      intro u
      show u ∈ setErase x nq.children ↔ _
      rw [mem_setErase ((P.wf.2 (q, nq) (mfind_eq_some_mem hq)).2).nodup]
      constructor
      · rintro ⟨h1, h2⟩
        exact ⟨h1, fun _ => h2⟩
      · rintro ⟨h1, h2⟩
        exact ⟨h1, h2 hmem⟩
    · rw [if_neg hmem, hq]
      refine ⟨nq, rfl, rfl, ?_⟩
      intro u
      constructor
      · intro h1
        exact ⟨h1, fun hcon => absurd hcon hmem⟩
      · rintro ⟨h1, -⟩
        exact h1
  refine ⟨?_, ?_, ?_, ?_, ?_, ?_, ?_, ?_, ?_, ?_, ?_, ?_, ?_⟩
  · -- stem id unchanged
    show (rollbackChildEdges x nx.parent_ids σ).stem_id = τ0.stem_id
    rw [stem_rollback]
    exact P.stem_eq
  · -- keys only shrink
    intro j hj
    rw [hkeysF] at hj
    exact P.keys_sub j (mem_of_mem_setErase hj)
  · -- erased nodes are dead
    intro j hj0 hjF
    by_cases hjx : j = x
    · rw [hjx]
      exact Dead.base
    · refine P.erased_dead j hj0 ?_
      intro hjσ
      rw [hkeysF] at hjF
      exact hjF (mem_setErase_of_ne hjσ hjx)
  · -- the target is gone
    intro hmem
    rw [hkeysF] at hmem
    exact not_mem_setErase_self P.wf.nodup_keys hmem
  · -- node windows
    intro j nj hjF
    rcases hgetσ hjF with ⟨hjx, nσj, hσj, hpar, hchl⟩
    rcases P.nodes j nσj hσj with ⟨n0, h0, hsub, hdead, hkeep, hch⟩
    refine ⟨n0, h0, ?_, ?_, ?_, ?_⟩
    · intro q hq
      rw [hpar] at hq
      exact hsub q hq
    · intro q hq hq2
      rw [hpar] at hq2
      exact hdead q hq hq2
    · intro q hq hqd
      rw [hpar]
      exact hkeep q hq hqd
    · intro q
      rw [parents0]
      rcases hchl with ⟨hce, hjp⟩ | ⟨hce, hjp⟩
      · rw [hce, mem_setErase ((P.wf.2 (j, nσj) (mfind_eq_some_mem hσj)).2).nodup, hch]
        constructor
        · rintro ⟨h1, h2⟩
          exact ⟨h1, fun hcon => h2 hcon.1⟩
        · rintro ⟨h1, h2⟩
          refine ⟨h1, ?_⟩
          rintro rfl
          exact h2 ⟨rfl, hjp⟩
      · rw [hce, hch]
        constructor
        · intro h1
          exact ⟨h1, fun hcon => hjp hcon.2⟩
        · rintro ⟨h1, -⟩
          exact h1
  · -- well-formedness
    exact WF_eraseNode hWFρ
  · -- parents backed
    intro j nj hjF q hq
    rcases hgetσ hjF with ⟨hjx, nσj, hσj, hpar, _⟩
    rw [hpar] at hq
    have hqx : q ≠ x := by
      rintro rfl
      exact severσ j nσj hσj hq
    rcases P.pback j nσj hσj q hq with ⟨nq, hnq, hjin⟩
    rcases hputF hqx hnq with ⟨mq, hmq, _, hmemq⟩
    exact ⟨mq, hmq, (hmemq j).mpr ⟨hjin, fun _ => hjx⟩⟩
  · -- children backed off the stack
    intro j nj hjF hjA ch hch
    rcases hgetσ hjF with ⟨hjx, nσj, hσj, _, hchl⟩
    have hjxA : j ∉ x :: A := fun hmem => (List.mem_cons.mp hmem).elim hjx hjA
    have hchσ : ch ∈ nσj.children ∧ ch ≠ x := by
      rcases hchl with ⟨hce, _⟩ | ⟨hce, hjp⟩
      · rw [hce] at hch
        exact (mem_setErase ((P.wf.2 (j, nσj) (mfind_eq_some_mem hσj)).2).nodup).mp hch
      · rw [hce] at hch
        refine ⟨hch, ?_⟩
        rintro rfl
        rcases P.cback j nσj hσj hjxA ch hch with ⟨m, hm, hjm⟩
        rw [P.x_entry] at hm
        cases hm
        exact hjp hjm
    rcases P.cback j nσj hσj hjxA ch hchσ.1 with ⟨nch, hnch, hjp2⟩
    rcases hputF hchσ.2 hnch with ⟨mch, hmch, hparch, _⟩
    refine ⟨mch, hmch, ?_⟩
    rw [hparch]
    exact hjp2
  · -- every off-stack non-stem survivor keeps a parent
    intro j nj hjF hjA hjstem
    rcases hgetσ hjF with ⟨hjx, nσj, hσj, hpar, _⟩
    rw [hpar]
    refine P.h5 j nσj hσj hjA ?_ hjx
    intro hcon
    refine hjstem ?_
    show j = (eraseNode (rollbackChildEdges x nx.parent_ids σ) x).stem_id
    show j = (rollbackChildEdges x nx.parent_ids σ).stem_id
    rw [stem_rollback]
    exact hcon
  · -- acyclicity
    refine acyclic_of_edge_mono ?_ P.acyc
    intro u v h
    exact rollback_edge_sub P.wf (chEdge_eraseNode hWFρ h)
  · -- the parent count shrank
    refine Nat.le_trans (totalParents_eraseNode_le _ _) ?_
    exact Nat.le_trans (phi_rollback_le x nx.parent_ids σ) P.phi_le
  · -- edges inside the stack survive
    intro u v hu hv he
    have hux : u ≠ x := fun h => P.x_notin (h ▸ hu)
    have hvx : v ≠ x := fun h => P.x_notin (h ▸ hv)
    rcases Option.isSome_iff_exists.mp (mem_keys_iff.mp (P.keepA u hu)) with ⟨nσu, hσu⟩
    rcases P.nodes u nσu hσu with ⟨n0u, h0u, _, _, _, hchu⟩
    rcases he with ⟨m0u, hm0u, hv0, _⟩
    rw [h0u] at hm0u
    cases hm0u
    have hvσ : v ∈ nσu.children := by
      rw [hchu]
      exact hv0
    rcases hputF hux hσu with ⟨mu, hmu, _, hmemu⟩
    refine ⟨mu, hmu, (hmemu v).mpr ⟨hvσ, fun _ => hvx⟩, ?_⟩
    rw [hkeysF]
    exact mem_setErase_of_ne (P.keepA v hv) hvx
  · -- stack members stay in the table
    intro a ha
    have hax : a ≠ x := fun h => P.x_notin (h ▸ ha)
    rw [hkeysF]
    exact mem_setErase_of_ne (P.keepA a ha) hax

/-- The recursive removal satisfies its frame specification at every fuel
level. -/
lemma removeAux_frameSpec : ∀ fuel, FrameSpec fuel (removeAux fuel) := by
  intro fuel
  induction fuel with
  | zero =>
    intro τ x A H hfuel
    exact absurd hfuel (by omega)
  | succ fuel ih =>
    intro τ x A H hfuel
    rcases Option.isSome_iff_exists.mp (mem_keys_iff.mp H.x_mem) with ⟨nx, hx⟩
    have hfuel0 : totalParents τ ≤ fuel := by omega
    rcases childPass_spec ih nx.children (passHyp_init H hx) hfuel0 with ⟨σ, hrun, Pf⟩
    refine ⟨eraseNode (rollbackChildEdges x nx.parent_ids σ) x, ?_, frame_finale Pf⟩
    have hbody : removeAux (fuel + 1) τ [] x = (if x = τ.stem_id
        then (some Err.triedToRemoveStem, τ, [])
        else match findNode τ x with
          | none => (some Err.notFound, τ, [])
          | some node =>
            match recordTicks node.parent_ids.length [] with
            | (true, sched1) => (some Err.injected, τ, sched1)
            | (false, sched1) =>
              match childPass (removeAux fuel) x node.children τ sched1 with
              | (some e, s2, sched2) => (some e, s2, sched2)
              | (none, s2, sched2) =>
                (none, eraseNode (node.parent_ids.foldl (fun acc p =>
                  updNode acc p (fun n => { n with children := setErase x n.children })) s2) x,
                 sched2)) := rfl
    rw [hbody, if_neg H.x_nstem, hx]
    show (match recordTicks nx.parent_ids.length ([] : List Bool) with
      | (true, sched1) => (some Err.injected, τ, sched1)
      | (false, sched1) =>
        match childPass (removeAux fuel) x nx.children τ sched1 with
        | (some e, s2, sched2) => (some e, s2, sched2)
        | (none, s2, sched2) =>
          (none, eraseNode (nx.parent_ids.foldl (fun acc p =>
            updNode acc p (fun n => { n with children := setErase x n.children })) s2) x,
           sched2)) = _
    rw [recordTicks_nil]
    show (match childPass (removeAux fuel) x nx.children τ ([] : List Bool) with
      | (some e, s2, sched2) => (some e, s2, sched2)
      | (none, s2, sched2) =>
        (none, eraseNode (nx.parent_ids.foldl (fun acc p =>
          updNode acc p (fun n => { n with children := setErase x n.children })) s2) x,
         sched2)) = _
    rw [hrun]
    rfl

/-! ### Consequences of the frame specification for the public `remove` -/

/-- The running invariant yields the frame hypotheses for a top-level
removal (empty recursion stack). -/
lemma frameHyp_of_invariant {s : GState} {x : VId} (inv : Invariant s)
    (hacyc : AcyclicP s) (hx : x ∈ keys s) (hxs : x ≠ s.stem_id) :
    FrameHyp s x [] := by
  obtain ⟨hwf, h1, h2, h3, hcb⟩ := inv
  have hpb : ∀ j nj, findNode s j = some nj → ∀ q ∈ nj.parent_ids,
      ∃ nq, findNode s q = some nq ∧ j ∈ nq.children := by
    intro j nj hj q hq
    rcases h1 (j, nj) (mfind_eq_some_mem hj) q hq with ⟨hqk, hjc⟩
    rcases Option.isSome_iff_exists.mp (mem_keys_iff.mp hqk) with ⟨nq, hnq⟩
    refine ⟨nq, hnq, ?_⟩
    rw [← childrenOf_eq hnq]
    exact hjc
  refine ⟨hwf, hpb, ?_, hacyc, h2.1, h2.2, ?_, hx, List.not_mem_nil x, hxs, ?_, ?_, ?_⟩
  · -- children backed
    intro j nj hj _ c hc
    rcases hcb (j, nj) (mfind_eq_some_mem hj) (List.not_mem_nil j) c hc with ⟨hck, hjp⟩
    rcases Option.isSome_iff_exists.mp (mem_keys_iff.mp hck) with ⟨nc, hnc⟩
    refine ⟨nc, hnc, ?_⟩
    rw [← parentsOf_eq hnc]
    exact hjp
  · -- every non-stem node has a parent
    intro j nj hj _ hjs _
    exact h3 (j, nj) (mfind_eq_some_mem hj) hjs
  · -- parents of the target stay alive
    intro q hq
    rcases Option.isSome_iff_exists.mp (mem_keys_iff.mp hx) with ⟨nx, hnx⟩
    rw [parentsOf_eq hnx] at hq
    have hqx : q ≠ x := by
      rintro rfl
      rcases hpb q nx hnx q hq with ⟨nq, hnq, hqc⟩
      rw [hnx] at hnq
      cases hnq
      exact hacyc q (Relation.TransGen.single ⟨nx, hnx, hqc, hx⟩)
    have hreach : ReachP s q x := by
      rcases hpb x nx hnx q hq with ⟨nq, hnq, hqc⟩
      exact Relation.ReflTransGen.single ⟨nq, hnq, hqc, hx⟩
    exact not_dead_of_reaches hpb hacyc hqx hreach
  · -- chains: vacuous
    intro a ha
    cases ha
  · -- stack membership: vacuous
    intro a ha
    cases ha

/-- Top-level specification of a successful `remove` on an invariant acyclic
state. -/
lemma remove_spec {s : GState} {x : VId} (inv : Invariant s) (hacyc : AcyclicP s)
    (hx : x ∈ keys s) (hxs : x ≠ s.stem_id) :
    ∃ σ, remove s [] x = (none, σ, []) ∧ FrameConcl s x [] σ :=
  removeAux_frameSpec (totalParents s + 1) s x []
    (frameHyp_of_invariant inv hacyc hx hxs) (Nat.le_refl _)

/-- Everything in the removal set is actually erased by a completed frame. -/
lemma no_dead_survivors {s σ : GState} {x : VId}
    (h2 : SpecI2 s) (hxs : x ≠ s.stem_id)
    (C : FrameConcl s x [] σ) :
    ∀ n, Dead s x n → n ∉ keys σ := by
  intro n hd
  induction hd with
  | base => exact C.x_gone
  | step hf hne hall ih =>
    rename_i c nc
    intro hmem
    rcases Option.isSome_iff_exists.mp (mem_keys_iff.mp hmem) with ⟨nσ, hσ⟩
    rcases C.nodes c nσ hσ with ⟨n0, h0, hsub, _, _, _⟩
    rw [hf] at h0
    cases h0
    have hparnil : nσ.parent_ids = [] := by
      cases hcase : nσ.parent_ids with
      | nil => rfl
      | cons a l =>
        have haσ : a ∈ nσ.parent_ids := by
          rw [hcase]
          exact List.mem_cons_self a l
        rcases C.pback c nσ hσ a haσ with ⟨na, hna, -⟩
        exact absurd (mem_keys_iff.mpr (by rw [hna]; rfl)) (ih a (hsub a haσ))
    have hcstem : c ≠ σ.stem_id := by
      rw [C.stem_eq]
      rintro rfl
      exact stem_not_dead h2 hxs (Dead.step hf hne hall)
    exact C.h5 c nσ hσ (List.not_mem_nil c) hcstem hparnil

/-- The surviving keys of a completed removal are exactly the keys outside
the removal set. -/
lemma survivors_iff {s σ : GState} {x : VId}
    (h2 : SpecI2 s) (hxs : x ≠ s.stem_id)
    (C : FrameConcl s x [] σ) :
    ∀ n, n ∈ keys σ ↔ n ∈ keys s ∧ ¬ Dead s x n := by
  intro n
  constructor
  · intro hmem
    refine ⟨C.keys_sub n hmem, ?_⟩
    intro hd
    exact no_dead_survivors h2 hxs C n hd hmem
  · rintro ⟨hks, hnd⟩
    by_contra hno
    exact hnd (C.erased_dead n hks hno)

/-- A completed top-level removal re-establishes the running invariant. -/
lemma invariant_of_frameConcl {s σ : GState} {x : VId}
    (h2 : SpecI2 s) (hxs : x ≠ s.stem_id)
    (C : FrameConcl s x [] σ) : Invariant σ := by
  have hstem_mem : σ.stem_id ∈ keys σ := by
    rw [C.stem_eq]
    by_contra hno
    exact stem_not_dead h2 hxs (C.erased_dead _ h2.1 hno)
  have hstem_nopar : parentsOf σ σ.stem_id = [] := by
    rcases Option.isSome_iff_exists.mp (mem_keys_iff.mp hstem_mem) with ⟨nst, hnst⟩
    rcases C.nodes _ _ hnst with ⟨nst0, hnst0, hsubst, _, _, _⟩
    rw [C.stem_eq] at hnst0
    have h1 : nst0.parent_ids = [] := (parentsOf_eq hnst0).symm.trans h2.2
    have h2b : nst.parent_ids = [] := by
      cases hcase : nst.parent_ids with
      | nil => rfl
      | cons a l =>
        have h3 : a ∈ nst0.parent_ids :=
          hsubst a (by rw [hcase]; exact List.mem_cons_self a l)
        rw [h1] at h3
        cases h3
    rw [parentsOf_eq hnst, h2b]
  have hI1 : SpecI1 σ := by
    intro e he p hp
    have hfe : findNode σ e.1 = some e.2 := mfind_of_mem C.wf.nodup_keys he
    rcases C.pback e.1 e.2 hfe p hp with ⟨np, hnp, hin⟩
    refine ⟨mem_keys_iff.mpr (by rw [hnp]; rfl), ?_⟩
    rw [childrenOf_eq hnp]
    exact hin
  have hI3 : SpecI3 σ := by
    intro e he hne
    exact C.h5 e.1 e.2 (mfind_of_mem C.wf.nodup_keys he) (List.not_mem_nil e.1) hne
  have hCB : ChildrenBacked σ [] := by
    intro e he _ c hc
    have hfe : findNode σ e.1 = some e.2 := mfind_of_mem C.wf.nodup_keys he
    rcases C.cback e.1 e.2 hfe (List.not_mem_nil e.1) c hc with ⟨nc, hnc, hin⟩
    refine ⟨mem_keys_iff.mpr (by rw [hnc]; rfl), ?_⟩
    rw [parentsOf_eq hnc]
    exact hin
  exact ⟨C.wf, hI1, ⟨hstem_mem, hstem_nopar⟩, hI3, hCB⟩

/-! ### The removal set as unreachability from the stem -/

/-- A child edge avoiding the removal target at both ends. -/
def avEdge (s : GState) (t : VId) (u v : VId) : Prop :=
  chEdge s u v ∧ u ≠ t ∧ v ≠ t

/-- Reachability through child edges that avoid the removal target: the
survival criterion of the cascade. -/
def ReachAvoidP (s : GState) (t a b : VId) : Prop :=
  Relation.ReflTransGen (avEdge s t) a b

/-- A node of the removal set is unreachable from the stem through edges
avoiding the target. -/
lemma dead_not_reachAvoid {s : GState} {x : VId}
    (inv : Invariant s) (hxs : x ≠ s.stem_id) :
    ∀ n, Dead s x n → ¬ ReachAvoidP s x s.stem_id n := by
  intro n hd
  induction hd with
  | base =>
    intro hr
    rcases Relation.ReflTransGen.cases_tail hr with h | ⟨b, _, hedge⟩
    · exact hxs h
    · exact hedge.2.2 rfl
  | step hf hne hall ih =>
    rename_i c nc
    intro hr
    rcases Relation.ReflTransGen.cases_tail hr with h | ⟨a, hra, hedge⟩
    · have h1 : nc.parent_ids = [] := by
        have h2 := parentsOf_eq hf
        rw [h] at h2
        exact h2.symm.trans inv.2.2.1.2
      exact hne h1
    · rcases hedge with ⟨hch, hax, hcx⟩
      rcases hch with ⟨na, hna, hcin, hck⟩
      rcases inv.2.2.2.2 (a, na) (mfind_eq_some_mem hna) (List.not_mem_nil a) c hcin
        with ⟨-, hap⟩
      rw [parentsOf_eq hf] at hap
      exact ih a hap hra

/-- A live node outside the removal set is reachable from the stem through
edges avoiding the target (proved by walking up live parents; the walk
terminates because the visited downward chain can never revisit a node in
an acyclic graph, and is bounded by the key count). -/
lemma alive_reachAvoid_aux {s : GState} {x : VId}
    (inv : Invariant s) (hacyc : AcyclicP s) :
    ∀ (k : Nat) (n : VId) (trail : List VId),
      (keys s).length ≤ k + trail.length →
      trail.Nodup → (∀ t ∈ trail, t ∈ keys s) →
      (∀ t ∈ trail, Relation.TransGen (chEdge s) n t) →
      n ∈ keys s → n ∉ trail →
      ¬ Dead s x n → ReachAvoidP s x s.stem_id n := by
  intro k
  induction k with
  | zero =>
    intro n trail hlen hnd htk hchain hn hnt _
    exfalso
    have hsub : ∀ u ∈ n :: trail, u ∈ keys s := by
      intro u hu
      rcases List.mem_cons.mp hu with rfl | hu
      · exact hn
      · exact htk u hu
    have hnd2 : (n :: trail).Nodup := List.nodup_cons.mpr ⟨hnt, hnd⟩
    have h1 : trail.length + 1 ≤ (keys s).length := by
      have h2 := List.Subperm.length_le (List.Nodup.subperm hnd2 hsub)
      simpa using h2
    omega
  | succ k ih =>
    intro n trail hlen hnd htk hchain hn hnt hndead
    by_cases hstem : n = s.stem_id
    · rw [hstem]
      exact Relation.ReflTransGen.refl
    · rcases Option.isSome_iff_exists.mp (mem_keys_iff.mp hn) with ⟨nn, hnn⟩
      have hnx : n ≠ x := fun h => hndead (h ▸ Dead.base)
      have hpar : nn.parent_ids ≠ [] :=
        inv.2.2.2.1 (n, nn) (mfind_eq_some_mem hnn) hstem
      have hlive : ∃ q ∈ nn.parent_ids, ¬ Dead s x q := by
        by_contra hno
        push_neg at hno
        exact hndead (Dead.step hnn hpar hno)
      rcases hlive with ⟨q, hq, hqnd⟩
      rcases inv.2.1 (n, nn) (mfind_eq_some_mem hnn) q hq with ⟨hqk, hnc⟩
      rcases Option.isSome_iff_exists.mp (mem_keys_iff.mp hqk) with ⟨nq, hnq⟩
      have hedge : chEdge s q n :=
        ⟨nq, hnq, by rw [← childrenOf_eq hnq]; exact hnc, hn⟩
      have hqx : q ≠ x := fun h => hqnd (h ▸ Dead.base)
      have hqnotin : q ∉ n :: trail := by
        intro hmem
        rcases List.mem_cons.mp hmem with rfl | hmem
        · exact hacyc q (Relation.TransGen.single hedge)
        · exact hacyc q (Relation.TransGen.head hedge (hchain q hmem))
      have hsub : ∀ u ∈ n :: trail, u ∈ keys s := by
        intro u hu
        rcases List.mem_cons.mp hu with rfl | hu
        · exact hn
        · exact htk u hu
      have hchain2 : ∀ t ∈ n :: trail, Relation.TransGen (chEdge s) q t := by
        intro t ht
        rcases List.mem_cons.mp ht with rfl | ht
        · exact Relation.TransGen.single hedge
        · exact Relation.TransGen.head hedge (hchain t ht)
      have hlen2 : (keys s).length ≤ k + (n :: trail).length := by
        simp only [List.length_cons]
        omega
      have hreach := ih q (n :: trail) hlen2 (List.nodup_cons.mpr ⟨hnt, hnd⟩)
        hsub hchain2 hqk hqnotin hqnd
      exact Relation.ReflTransGen.tail hreach ⟨hedge, hqx, hnx⟩

/-- A live node outside the removal set is reachable from the stem avoiding
the target. -/
lemma alive_reachAvoid {s : GState} {x : VId}
    (inv : Invariant s) (hacyc : AcyclicP s) {n : VId}
    (hn : n ∈ keys s) (hnd : ¬ Dead s x n) : ReachAvoidP s x s.stem_id n :=
  alive_reachAvoid_aux inv hacyc (keys s).length n []
    (by simp) List.nodup_nil (fun t ht => absurd ht (List.not_mem_nil t))
    (fun t ht => absurd ht (List.not_mem_nil t)) hn (List.not_mem_nil n) hnd

/-! ### Invariant preservation by `create` and `connect` (no injected failures) -/

lemma parentsOf_none {s : GState} {i : VId} (h : findNode s i = none) :
    parentsOf s i = [] := by
  simp [parentsOf, h]

lemma childrenOf_none {s : GState} {i : VId} (h : findNode s i = none) :
    childrenOf s i = [] := by
  simp [childrenOf, h]

lemma specI1_mem {s : GState} (h1 : SpecI1 s) :
    ∀ j q, q ∈ parentsOf s j → q ∈ keys s ∧ j ∈ childrenOf s q := by
  intro j q hq
  cases hf : findNode s j with
  | none =>
    rw [parentsOf_none hf] at hq
    cases hq
  | some m =>
    have hq2 : q ∈ m.parent_ids := by
      rw [← parentsOf_eq hf]
      exact hq
    exact h1 (j, m) (mfind_eq_some_mem hf) q hq2

lemma specI1_intro {s : GState} (hwf : WF s)
    (h : ∀ j q, q ∈ parentsOf s j → q ∈ keys s ∧ j ∈ childrenOf s q) : SpecI1 s := by
  intro e he q hq
  have hfe : findNode s e.1 = some e.2 := mfind_of_mem hwf.nodup_keys he
  exact h e.1 q (by rw [parentsOf_eq hfe]; exact hq)

lemma childrenBacked_mem {s : GState} (h : ChildrenBacked s []) :
    ∀ j c, c ∈ childrenOf s j → c ∈ keys s ∧ j ∈ parentsOf s c := by
  intro j c hc
  cases hf : findNode s j with
  | none =>
    rw [childrenOf_none hf] at hc
    cases hc
  | some m =>
    exact h (j, m) (mfind_eq_some_mem hf) (List.not_mem_nil j)
      c (by rw [← childrenOf_eq hf]; exact hc)

lemma childrenBacked_intro {s : GState} (hwf : WF s)
    (h : ∀ j c, c ∈ childrenOf s j → c ∈ keys s ∧ j ∈ parentsOf s c) :
    ChildrenBacked s [] := by
  intro e he _ c hc
  have hfe : findNode s e.1 = some e.2 := mfind_of_mem hwf.nodup_keys he
  exact h e.1 c (by rw [childrenOf_eq hfe]; exact hc)

lemma specI3_mem {s : GState} (h : SpecI3 s) :
    ∀ j, j ∈ keys s → j ≠ s.stem_id → parentsOf s j ≠ [] := by
  intro j hj hjs
  rcases Option.isSome_iff_exists.mp (mem_keys_iff.mp hj) with ⟨m, hm⟩
  rw [parentsOf_eq hm]
  exact h (j, m) (mfind_eq_some_mem hm) hjs

lemma specI3_intro {s : GState} (hwf : WF s)
    (h : ∀ j, j ∈ keys s → j ≠ s.stem_id → parentsOf s j ≠ []) : SpecI3 s := by
  intro e he hes
  have hfe : findNode s e.1 = some e.2 := mfind_of_mem hwf.nodup_keys he
  have h2 := h e.1 (mem_keys_iff.mpr (by rw [hfe]; rfl)) hes
  rw [parentsOf_eq hfe] at h2
  exact h2

lemma buildParentSet_nosched : ∀ (ps acc : List VId),
    ∃ out, buildParentSet ps acc [] = (none, out, []) ∧
      (∀ q, q ∈ out ↔ q ∈ ps ∨ q ∈ acc) ∧ (SortedIds acc → SortedIds out) := by
  intro ps
  induction ps with
  | nil =>
    intro acc
    refine ⟨acc, rfl, ?_, fun h => h⟩
    intro q
    constructor
    · exact Or.inr
    · rintro (h | h)
      · cases h
      · exact h
  | cons p qs ih =>
    intro acc
    rcases ih (setInsert p acc) with ⟨out, heq, hmem, hsort⟩
    refine ⟨out, heq, ?_, ?_⟩
    · intro q
      rw [hmem q, mem_setInsert]
      constructor
      · rintro (h | h | h)
        · exact Or.inl (List.mem_cons.mpr (Or.inr h))
        · exact Or.inl (h ▸ List.mem_cons_self p qs)
        · exact Or.inr h
      · rintro (h | h)
        · rcases List.mem_cons.mp h with rfl | h
          · exact Or.inr (Or.inl rfl)
          · exact Or.inl h
        · exact Or.inr (Or.inr h)
    · intro hacc
      exact hsort (sorted_setInsert hacc)

lemma insertChildEdges_nosched (id : VId) :
    ∀ (ps : List VId) (s : GState) (done : List VId),
    ∃ s1 done1, insertChildEdges id ps s done [] = (none, s1, done1, []) ∧
      s1.stem_id = s.stem_id ∧
      ∀ j, findNode s1 j = if j ∈ ps then
          (findNode s j).map (fun m => { m with children := setInsert id m.children })
        else findNode s j := by
  intro ps
  induction ps with
  | nil =>
    intro s done
    exact ⟨s, done, rfl, rfl, fun j => by rw [if_neg (List.not_mem_nil j)]⟩
  | cons p qs ih =>
    intro s done
    rcases ih (updNode s p (fun n => { n with children := setInsert id n.children }))
      (p :: done) with ⟨s1, done1, heq, hstem1, hpt⟩
    refine ⟨s1, done1, heq, hstem1.trans (stem_updNode s p _), ?_⟩
    intro j
    rw [hpt j]
    by_cases hjq : j ∈ qs
    · rw [if_pos hjq, if_pos (List.mem_cons.mpr (Or.inr hjq))]
      by_cases hj : j = p
      · subst hj
        rw [findNode_updNode_self, map_double_child_insert]
      · rw [findNode_updNode_ne s _ hj]
    · rw [if_neg hjq]
      by_cases hj : j = p
      · subst hj
        rw [if_pos (List.mem_cons_self j qs), findNode_updNode_self]
      · rw [if_neg (fun hcon => (List.mem_cons.mp hcon).elim hj hjq),
          findNode_updNode_ne s _ hj]

/-- Successful `create` under the empty failure schedule: the exact shape of
the result state. -/
lemma create_nosched_ok {s : GState} {id : VId} {ps : List VId}
    (hwf : WF s) (hps : ps ≠ []) (hid : findNode s id = none)
    (hpar : ∀ q ∈ ps, (findNode s q).isSome) :
    ∃ pset σ, create s [] id ps = (none, σ, []) ∧
      σ.stem_id = s.stem_id ∧ WF σ ∧
      SortedIds pset ∧ (∀ q, q ∈ pset ↔ q ∈ ps) ∧
      ∀ j, findNode σ j =
        if j = id then some { parent_ids := pset, children := [] }
        else if j ∈ ps then
          (findNode s j).map (fun m => { m with children := setInsert id m.children })
        else findNode s j := by
  rcases buildParentSet_nosched ps [] with ⟨pset, hbuild, hmem, hsort⟩
  rcases insertChildEdges_nosched id ps s [] with ⟨s1, done1, hins, hstem1, hpt⟩
  have hlook := lookupParents_nosched_ok hpar
  have hwf1 : WF s1 := insertChildEdges_WF hins hwf
  have hmem2 : ∀ q, q ∈ pset ↔ q ∈ ps := by
    intro q
    rw [hmem q]
    constructor
    · rintro (h | h)
      · exact h
      · cases h
    · exact Or.inl
  have hsort2 : SortedIds pset := hsort List.Pairwise.nil
  have hid1 : findNode s1 id = none := by
    rw [hpt id]
    by_cases hidps : id ∈ ps
    · rw [if_pos hidps, hid]
      rfl
    · rw [if_neg hidps]
      exact hid
  refine ⟨pset, insNode s1 id { parent_ids := pset, children := [] }, ?_, hstem1,
    WF_insNode hwf1 hsort2 List.Pairwise.nil, hsort2, hmem2, ?_⟩
  · simp [create, hps, hid, hlook, hbuild, hins, tick]
  · intro j
    by_cases hj : j = id
    · subst hj
      rw [if_pos rfl]
      exact mfind_minsert_self s1.graph _ (findNode_eq_none_iff.mp hid1)
    · rw [if_neg hj]
      have h2 : findNode (insNode s1 id { parent_ids := pset, children := [] }) j =
          findNode s1 j := mfind_minsert_ne s1.graph _ hj
      rw [h2, hpt j]

/-- `create` on the empty failure schedule preserves the running invariant
(whether it succeeds or raises). -/
lemma create_preserves_invariant (s : GState) (id : VId) (ps : List VId)
    (inv : Invariant s) : Invariant (create s [] id ps).2.1 := by
  obtain ⟨hwf, h1, h2, h3, hcb⟩ := inv
  by_cases hps : ps = []
  · have h : create s [] id ps = (none, s, []) := by
      rw [hps]
      simp [create]
    rw [h]
    exact ⟨hwf, h1, h2, h3, hcb⟩
  by_cases hid : (findNode s id).isSome
  · have h : create s [] id ps = (some Err.alreadyCreated, s, []) := by
      simp [create, hps, hid]
    rw [h]
    exact ⟨hwf, h1, h2, h3, hcb⟩
  have hidn : findNode s id = none := Option.not_isSome_iff_eq_none.mp hid
  by_cases hpar : ∀ q ∈ ps, (findNode s q).isSome
  · rcases create_nosched_ok hwf hps hidn hpar with
      ⟨pset, σ, heq, hstem, hwfσ, hsort, hmem, hpt⟩
    rw [heq]
    show Invariant σ
    have hidk : id ∉ keys s := findNode_eq_none_iff.mp hidn
    have hstemid : s.stem_id ≠ id := fun h => hidk (h ▸ h2.1)
    have hfσ_id : findNode σ id = some { parent_ids := pset, children := [] } := by
      rw [hpt id, if_pos rfl]
    have hparσ_id : parentsOf σ id = pset := parentsOf_eq hfσ_id
    have hchσ_id : childrenOf σ id = [] := childrenOf_eq hfσ_id
    have hback : ∀ j, j ≠ id → ∀ nj, findNode σ j = some nj →
        ∃ m, findNode s j = some m ∧ nj.parent_ids = m.parent_ids ∧
        ((nj.children = m.children ∧ j ∉ ps) ∨
         (nj.children = setInsert id m.children ∧ j ∈ ps)) := by
      intro j hj nj hnj
      rw [hpt j, if_neg hj] at hnj
      by_cases hjps : j ∈ ps
      · rw [if_pos hjps] at hnj
        cases hm : findNode s j with
        | none =>
          rw [hm] at hnj
          cases hnj
        | some m =>
          rw [hm] at hnj
          cases hnj
          exact ⟨m, rfl, rfl, Or.inr ⟨rfl, hjps⟩⟩
      · rw [if_neg hjps] at hnj
        exact ⟨nj, hnj, rfl, Or.inl ⟨rfl, hjps⟩⟩
    have hnone : ∀ j, j ≠ id → findNode σ j = none → findNode s j = none := by
      intro j hj hnj
      rw [hpt j, if_neg hj] at hnj
      by_cases hjps : j ∈ ps
      · rw [if_pos hjps] at hnj
        cases hsj : findNode s j with
        | none => rfl
        | some m =>
          rw [hsj] at hnj
          cases hnj
      · rw [if_neg hjps] at hnj
        exact hnj
    have hkeysσ : ∀ j, j ∈ keys σ ↔ j = id ∨ j ∈ keys s := by
      intro j
      by_cases hj : j = id
      · subst hj
        constructor
        · intro _
          exact Or.inl rfl
        · intro _
          exact mem_keys_iff.mpr (by rw [hfσ_id]; rfl)
      · constructor
        · intro hmemσ
          rcases Option.isSome_iff_exists.mp (mem_keys_iff.mp hmemσ) with ⟨nj, hnj⟩
          rcases hback j hj nj hnj with ⟨m, hm, -, -⟩
          exact Or.inr (mem_keys_iff.mpr (by rw [hm]; rfl))
        · rintro (h | h)
          · exact absurd h hj
          · refine mem_keys_iff.mpr ?_
            cases hnj : findNode σ j with
            | none =>
              have := hnone j hj hnj
              rw [findNode_eq_none_iff] at this
              exact absurd h this
            | some nj => rfl
    have hparsσ : ∀ j, j ≠ id → parentsOf σ j = parentsOf s j := by
      intro j hj
      cases hnj : findNode σ j with
      | none => rw [parentsOf_none hnj, parentsOf_none (hnone j hj hnj)]
      | some nj =>
        rcases hback j hj nj hnj with ⟨m, hm, hp2, -⟩
        rw [parentsOf_eq hnj, parentsOf_eq hm, hp2]
    have hch_mem : ∀ j c, j ≠ id →
        (c ∈ childrenOf σ j ↔ c ∈ childrenOf s j ∨ (c = id ∧ j ∈ ps)) := by
      intro j c hj
      cases hnj : findNode σ j with
      | none =>
        have hsj := hnone j hj hnj
        rw [childrenOf_none hnj, childrenOf_none hsj]
        have hjps : j ∉ ps := by
          intro hjps
          have h4 := hpar j hjps
          rw [hsj] at h4
          cases h4
        constructor
        · intro h4
          cases h4
        · rintro (h4 | ⟨-, h4⟩)
          · cases h4
          · exact absurd h4 hjps
      | some nj =>
        rcases hback j hj nj hnj with ⟨m, hm, -, hcase⟩
        rw [childrenOf_eq hnj, childrenOf_eq hm]
        rcases hcase with ⟨hce, hjps⟩ | ⟨hce, hjps⟩
        · rw [hce]
          constructor
          · intro h4
            exact Or.inl h4
          · rintro (h4 | ⟨-, h4⟩)
            · exact h4
            · exact absurd h4 hjps
        · rw [hce, mem_setInsert]
          constructor
          · rintro (h4 | h4)
            · exact Or.inr ⟨h4, hjps⟩
            · exact Or.inl h4
          · rintro (h4 | ⟨h4, -⟩)
            · exact Or.inr h4
            · exact Or.inl h4
    refine ⟨hwfσ, specI1_intro hwfσ ?_, ⟨?_, ?_⟩, specI3_intro hwfσ ?_,
      childrenBacked_intro hwfσ ?_⟩
    · -- I1
      intro j q hq
      by_cases hj : j = id
      · subst hj
        rw [hparσ_id] at hq
        have hqps : q ∈ ps := (hmem q).mp hq
        have hqs : q ∈ keys s := mem_keys_iff.mpr (hpar q hqps)
        have hqid : q ≠ j := fun h => hidk (h ▸ hqs)
        exact ⟨(hkeysσ q).mpr (Or.inr hqs),
          (hch_mem q j hqid).mpr (Or.inr ⟨rfl, hqps⟩)⟩
      · rw [hparsσ j hj] at hq
        rcases specI1_mem h1 j q hq with ⟨hqk, hjc⟩
        have hqid : q ≠ id := fun h => hidk (h ▸ hqk)
        exact ⟨(hkeysσ q).mpr (Or.inr hqk), (hch_mem q j hqid).mpr (Or.inl hjc)⟩
    · -- I2 membership
      show σ.stem_id ∈ keys σ
      rw [hstem]
      exact (hkeysσ _).mpr (Or.inr h2.1)
    · -- I2 no parents
      show parentsOf σ σ.stem_id = []
      rw [hstem, hparsσ s.stem_id hstemid]
      exact h2.2
    · -- I3
      intro j hjk hjstem
      rw [hstem] at hjstem
      by_cases hj : j = id
      · subst hj
        rw [hparσ_id]
        rcases List.exists_mem_of_ne_nil ps hps with ⟨q, hq⟩
        have hqp : q ∈ pset := (hmem q).mpr hq
        intro hnil
        rw [hnil] at hqp
        cases hqp
      · rw [hparsσ j hj]
        refine specI3_mem h3 j ?_ hjstem
        rcases (hkeysσ j).mp hjk with h | h
        · exact absurd h hj
        · exact h
    · -- children backed
      intro j c hc
      by_cases hj : j = id
      · subst hj
        rw [hchσ_id] at hc
        cases hc
      · rcases (hch_mem j c hj).mp hc with h | ⟨rfl, hjps⟩
        · rcases childrenBacked_mem hcb j c h with ⟨hck, hjp⟩
          have hcid : c ≠ id := fun hcon => hidk (hcon ▸ hck)
          refine ⟨(hkeysσ c).mpr (Or.inr hck), ?_⟩
          rw [hparsσ c hcid]
          exact hjp
        · refine ⟨(hkeysσ c).mpr (Or.inl rfl), ?_⟩
          rw [hparσ_id]
          exact (hmem j).mpr hjps
  · -- a parent is missing: NotFound, state unchanged
    have hpar2 : ∃ q ∈ ps, findNode s q = none := by
      by_contra hno
      push_neg at hno
      refine hpar ?_
      intro q hq
      cases hq2 : findNode s q with
      | none => exact absurd hq2 (hno q hq)
      | some m => rfl
    have hlook : lookupParents s ps [] = (some Err.notFound, []) :=
      lookupParents_nosched_notFound hpar2
    have h : create s [] id ps = (some Err.notFound, s, []) := by
      simp [create, hps, hid, hlook]
    rw [h]
    exact ⟨hwf, h1, h2, h3, hcb⟩

/-- Successful `connect` under the empty failure schedule. -/
lemma connect_nosched_ok {s : GState} {c p : VId} {nc : Node} {np : Node}
    (hc : findNode s c = some nc) (hp : findNode s p = some np)
    (hmem : p ∉ nc.parent_ids) :
    connect s [] c p = (none,
      updNode (updNode s c (fun n => { n with parent_ids := setInsert p n.parent_ids }))
        p (fun n => { n with children := setInsert c n.children }), []) := by
  simp [connect, hc, hp, hmem, tick]

/-- `connect` on the empty failure schedule preserves the running invariant,
provided the child is not the stem (the code does not guard against
re-parenting the stem; doing so necessarily creates a cycle, see below). -/
lemma connect_preserves_invariant (s : GState) (c p : VId)
    (inv : Invariant s) (hcs : c ≠ s.stem_id) :
    Invariant (connect s [] c p).2.1 := by
  obtain ⟨hwf, h1, h2, h3, hcb⟩ := inv
  cases hc : findNode s c with
  | none =>
    have h : connect s [] c p = (some Err.notFound, s, []) := by
      cases hp : findNode s p with
      | none => simp [connect, hc, hp]
      | some np => simp [connect, hc, hp]
    rw [h]
    exact ⟨hwf, h1, h2, h3, hcb⟩
  | some nc =>
    cases hp : findNode s p with
    | none =>
      have h : connect s [] c p = (some Err.notFound, s, []) := by
        simp [connect, hc, hp]
      rw [h]
      exact ⟨hwf, h1, h2, h3, hcb⟩
    | some np =>
      by_cases hmem : p ∈ nc.parent_ids
      · have h : connect s [] c p = (none, s, []) := by
          simp [connect, hc, hp, hmem]
        rw [h]
        exact ⟨hwf, h1, h2, h3, hcb⟩
      rw [connect_nosched_ok hc hp hmem]
      show Invariant (updNode (updNode s c
        (fun n => { n with parent_ids := setInsert p n.parent_ids }))
        p (fun n => { n with children := setInsert c n.children }))
      have hwfσ : WF (updNode (updNode s c
          (fun n => { n with parent_ids := setInsert p n.parent_ids }))
          p (fun n => { n with children := setInsert c n.children })) :=
        WF_updNode (WF_updNode hwf (fun n hpn hcn => ⟨sorted_setInsert hpn, hcn⟩))
          (fun n hpn hcn => ⟨hpn, sorted_setInsert hcn⟩)
      have hkeysσ : keys (updNode (updNode s c
          (fun n => { n with parent_ids := setInsert p n.parent_ids }))
          p (fun n => { n with children := setInsert c n.children })) = keys s := by
        rw [keys_updNode, keys_updNode]
      have hparσ_c : parentsOf (updNode (updNode s c
          (fun n => { n with parent_ids := setInsert p n.parent_ids }))
          p (fun n => { n with children := setInsert c n.children })) c =
          setInsert p nc.parent_ids := by
        by_cases hcp : c = p
        · have hfind : findNode (updNode (updNode s c
              (fun n => { n with parent_ids := setInsert p n.parent_ids }))
              p (fun n => { n with children := setInsert c n.children })) c =
              some { parent_ids := setInsert p nc.parent_ids,
                     children := setInsert c nc.children } := by
            rw [← hcp, findNode_updNode_self, findNode_updNode_self, hc]
            rfl
          rw [parentsOf_eq hfind]
        · have hfind : findNode (updNode (updNode s c
              (fun n => { n with parent_ids := setInsert p n.parent_ids }))
              p (fun n => { n with children := setInsert c n.children })) c =
              some { nc with parent_ids := setInsert p nc.parent_ids } := by
            rw [findNode_updNode_ne _ _ hcp, findNode_updNode_self, hc]
            rfl
          rw [parentsOf_eq hfind]
      have hparσ_ne : ∀ j, j ≠ c → parentsOf (updNode (updNode s c
          (fun n => { n with parent_ids := setInsert p n.parent_ids }))
          p (fun n => { n with children := setInsert c n.children })) j =
          parentsOf s j := by
        intro j hj
        have h5 : findNode (updNode s c
            (fun n => { n with parent_ids := setInsert p n.parent_ids })) j =
            findNode s j := findNode_updNode_ne _ _ hj
        by_cases hjp : j = p
        · have h6 : findNode (updNode (updNode s c
              (fun n => { n with parent_ids := setInsert p n.parent_ids }))
              p (fun n => { n with children := setInsert c n.children })) j =
              (findNode s j).map
                (fun n => { n with children := setInsert c n.children }) := by
            rw [hjp, findNode_updNode_self]
            rw [hjp] at h5
            rw [h5]
          cases hfj : findNode s j with
          | none =>
            rw [hfj] at h6
            rw [parentsOf_none h6, parentsOf_none hfj]
          | some m =>
            rw [hfj] at h6
            rw [parentsOf_eq h6, parentsOf_eq hfj]
        · have h7 : findNode (updNode (updNode s c
              (fun n => { n with parent_ids := setInsert p n.parent_ids }))
              p (fun n => { n with children := setInsert c n.children })) j =
              findNode s j := by
            rw [findNode_updNode_ne _ _ hjp, h5]
          cases hfj : findNode s j with
          | none =>
            rw [hfj] at h7
            rw [parentsOf_none h7, parentsOf_none hfj]
          | some m =>
            rw [hfj] at h7
            rw [parentsOf_eq h7, parentsOf_eq hfj]
      have hchσ_p : childrenOf (updNode (updNode s c
          (fun n => { n with parent_ids := setInsert p n.parent_ids }))
          p (fun n => { n with children := setInsert c n.children })) p =
          setInsert c np.children := by
        by_cases hcp : c = p
        · have hnp_nc : np = nc := by
            rw [← hcp, hc] at hp
            exact (Option.some.inj hp).symm
          have hfind : findNode (updNode (updNode s c
              (fun n => { n with parent_ids := setInsert p n.parent_ids }))
              p (fun n => { n with children := setInsert c n.children })) p =
              some { parent_ids := setInsert p nc.parent_ids,
                     children := setInsert c nc.children } := by
            rw [← hcp, findNode_updNode_self, findNode_updNode_self, hc]
            rfl
          rw [childrenOf_eq hfind, hnp_nc]
        · have hfind : findNode (updNode (updNode s c
              (fun n => { n with parent_ids := setInsert p n.parent_ids }))
              p (fun n => { n with children := setInsert c n.children })) p =
              some { np with children := setInsert c np.children } := by
            rw [findNode_updNode_self, findNode_updNode_ne _ _ (fun h => hcp h.symm), hp]
            rfl
          rw [childrenOf_eq hfind]
      have hchσ_ne : ∀ j, j ≠ p → childrenOf (updNode (updNode s c
          (fun n => { n with parent_ids := setInsert p n.parent_ids }))
          p (fun n => { n with children := setInsert c n.children })) j =
          childrenOf s j := by
        intro j hj
        have h5 : findNode (updNode (updNode s c
            (fun n => { n with parent_ids := setInsert p n.parent_ids }))
            p (fun n => { n with children := setInsert c n.children })) j =
            findNode (updNode s c
              (fun n => { n with parent_ids := setInsert p n.parent_ids })) j :=
          findNode_updNode_ne _ _ hj
        by_cases hjc : j = c
        · have h6 : findNode (updNode (updNode s c
              (fun n => { n with parent_ids := setInsert p n.parent_ids }))
              p (fun n => { n with children := setInsert c n.children })) j =
              some { nc with parent_ids := setInsert p nc.parent_ids } := by
            rw [h5, hjc, findNode_updNode_self, hc]
            rfl
          rw [childrenOf_eq h6, hjc, childrenOf_eq hc]
        · have h7 : findNode (updNode (updNode s c
              (fun n => { n with parent_ids := setInsert p n.parent_ids }))
              p (fun n => { n with children := setInsert c n.children })) j =
              findNode s j := by
            rw [h5, findNode_updNode_ne _ _ hjc]
          cases hfj : findNode s j with
          | none =>
            rw [hfj] at h7
            rw [childrenOf_none h7, childrenOf_none hfj]
          | some m =>
            rw [hfj] at h7
            rw [childrenOf_eq h7, childrenOf_eq hfj]
      refine ⟨hwfσ, specI1_intro hwfσ ?_, ⟨?_, ?_⟩, specI3_intro hwfσ ?_,
        childrenBacked_intro hwfσ ?_⟩
      · -- I1
        intro j q hq
        by_cases hj : j = c
        · rw [hj, hparσ_c, mem_setInsert] at hq
          rcases hq with rfl | hq
          · refine ⟨by rw [hkeysσ]; exact mem_keys_iff.mpr (by rw [hp]; rfl), ?_⟩
            rw [hj, hchσ_p]
            exact mem_setInsert.mpr (Or.inl rfl)
          · have hq2 : q ∈ parentsOf s c := by
              rw [parentsOf_eq hc]
              exact hq
            rcases specI1_mem h1 c q hq2 with ⟨hqk, hjc2⟩
            refine ⟨by rw [hkeysσ]; exact hqk, ?_⟩
            by_cases hqp : q = p
            · rw [hqp, hchσ_p, mem_setInsert]
              rw [hj]
              exact Or.inl rfl
            · rw [hchσ_ne q hqp, hj]
              exact hjc2
        · rw [hparσ_ne j hj] at hq
          rcases specI1_mem h1 j q hq with ⟨hqk, hjc2⟩
          refine ⟨by rw [hkeysσ]; exact hqk, ?_⟩
          by_cases hqp : q = p
          · rw [hqp, hchσ_p, mem_setInsert]
            refine Or.inr ?_
            rw [← childrenOf_eq hp, ← hqp]
            exact hjc2
          · rw [hchσ_ne q hqp]
            exact hjc2
      · -- I2 membership
        show s.stem_id ∈ keys _
        rw [hkeysσ]
        exact h2.1
      · -- I2 no parents
        show parentsOf _ s.stem_id = []
        rw [hparσ_ne s.stem_id (fun h => hcs h.symm)]
        exact h2.2
      · -- I3
        intro j hjk hjstem
        by_cases hj : j = c
        · rw [hj, hparσ_c]
          exact setInsert_ne_nil
        · rw [hparσ_ne j hj]
          rw [hkeysσ] at hjk
          exact specI3_mem h3 j hjk hjstem
      · -- children backed
        intro j ch hch
        by_cases hj : j = p
        · rw [hj, hchσ_p, mem_setInsert] at hch
          rcases hch with rfl | hch
          · refine ⟨by rw [hkeysσ]; exact mem_keys_iff.mpr (by rw [hc]; rfl), ?_⟩
            rw [hparσ_c]
            exact mem_setInsert.mpr (Or.inl (by rw [hj]))
          · have hch2 : ch ∈ childrenOf s p := by
              rw [childrenOf_eq hp]
              exact hch
            rcases childrenBacked_mem hcb p ch hch2 with ⟨hck, hjp2⟩
            refine ⟨by rw [hkeysσ]; exact hck, ?_⟩
            by_cases hchc : ch = c
            · rw [hchc, hparσ_c]
              exact mem_setInsert.mpr (Or.inr (by
                rw [hj, ← parentsOf_eq hc, ← hchc]
                exact hjp2))
            · rw [hparσ_ne ch hchc, hj]
              exact hjp2
        · rw [hchσ_ne j hj] at hch
          rcases childrenBacked_mem hcb j ch hch with ⟨hck, hjp2⟩
          refine ⟨by rw [hkeysσ]; exact hck, ?_⟩
          by_cases hchc : ch = c
          · rw [hchc, hparσ_c]
            refine mem_setInsert.mpr (Or.inr ?_)
            rw [← parentsOf_eq hc, ← hchc]
            exact hjp2
          · rw [hparσ_ne ch hchc]
            exact hjp2

/-- Entry behaviour of `remove` on the stem: the check precedes any lookup,
so it raises on every state and schedule, untouched. -/
lemma remove_stem_eq (s : GState) (sched : List Bool) :
    remove s sched s.stem_id = (some Err.triedToRemoveStem, s, sched) := by
  simp [remove, removeAux]

/-- Entry behaviour of `remove` on an absent non-stem id. -/
lemma remove_absent_eq {s : GState} {id : VId} (sched : List Bool)
    (h1 : id ≠ s.stem_id) (h2 : findNode s id = none) :
    remove s sched id = (some Err.notFound, s, sched) := by
  simp [remove, removeAux, h1, h2]

/-- `remove` on the empty failure schedule preserves the running invariant
on acyclic states (whether it succeeds or raises). -/
lemma remove_preserves_invariant (s : GState) (id : VId)
    (inv : Invariant s) (hacyc : AcyclicP s) :
    Invariant (remove s [] id).2.1 := by
  by_cases hstem : id = s.stem_id
  · rw [hstem, remove_stem_eq]
    exact inv
  · cases hfind : findNode s id with
    | none =>
      rw [remove_absent_eq [] hstem hfind]
      exact inv
    | some nx =>
      rcases remove_spec inv hacyc (mem_keys_iff.mpr (by rw [hfind]; rfl)) hstem
        with ⟨σ, heq, C⟩
      rw [heq]
      exact invariant_of_frameConcl inv.2.2.1 hstem C

/-- Re-parenting the stem through `connect` — the only way any operation can
give the root a parent — necessarily closes a cycle, so it violates the
acyclicity contract I5 that callers are trusted to maintain. -/
lemma connect_stem_cycles {s : GState} {p : VId} (sched : List Bool)
    (h2 : SpecI2 s) (hp : p ∈ keys s) (hreach : ReachP s s.stem_id p)
    (hok : (connect s sched s.stem_id p).1 = none) :
    ¬ AcyclicP (connect s sched s.stem_id p).2.1 := by
  rcases Option.isSome_iff_exists.mp (mem_keys_iff.mp h2.1) with ⟨nst, hnst⟩
  rcases Option.isSome_iff_exists.mp (mem_keys_iff.mp hp) with ⟨np, hnp⟩
  have hnotpar : p ∉ nst.parent_ids := by
    intro hmem
    have h3 := parentsOf_eq hnst
    rw [h2.2] at h3
    rw [← h3] at hmem
    cases hmem
  by_cases ht1 : (tick sched).1
  · have h : connect s sched s.stem_id p = (some Err.injected, s, (tick sched).2) := by
      simp [connect, hnst, hnp, hnotpar, ht1]
    rw [h] at hok
    cases hok
  by_cases ht2 : (tick (tick sched).2).1
  · have h : connect s sched s.stem_id p = (some Err.injected,
        updNode (updNode s s.stem_id
          (fun n => { n with parent_ids := setInsert p n.parent_ids }))
          s.stem_id (fun n => { n with parent_ids := setErase p n.parent_ids }),
        (tick (tick sched).2).2) := by
      simp [connect, hnst, hnp, hnotpar, ht1, ht2]
    rw [h] at hok
    cases hok
  have h : connect s sched s.stem_id p = (none,
      updNode (updNode s s.stem_id
        (fun n => { n with parent_ids := setInsert p n.parent_ids }))
        p (fun n => { n with children := setInsert s.stem_id n.children }),
      (tick (tick sched).2).2) := by
    simp [connect, hnst, hnp, hnotpar, ht1, ht2]
  rw [h]
  intro hacyc
  have hkeysσ : keys (updNode (updNode s s.stem_id
      (fun n => { n with parent_ids := setInsert p n.parent_ids }))
      p (fun n => { n with children := setInsert s.stem_id n.children })) = keys s := by
    rw [keys_updNode, keys_updNode]
  have hmono : ∀ u v, chEdge s u v → chEdge (updNode (updNode s s.stem_id
      (fun n => { n with parent_ids := setInsert p n.parent_ids }))
      p (fun n => { n with children := setInsert s.stem_id n.children })) u v := by
    rintro u v ⟨nu, hnu, hv, hvk⟩
    have hstep1 : ∃ mu, findNode (updNode s s.stem_id
        (fun n => { n with parent_ids := setInsert p n.parent_ids })) u = some mu ∧
        mu.children = nu.children := by
      by_cases hus : u = s.stem_id
      · refine ⟨{ nu with parent_ids := setInsert p nu.parent_ids }, ?_, rfl⟩
        rw [hus, findNode_updNode_self]
        rw [hus] at hnu
        rw [hnu]
        rfl
      · exact ⟨nu, by rw [findNode_updNode_ne _ _ hus]; exact hnu, rfl⟩
    rcases hstep1 with ⟨mu, hmu, hmuc⟩
    by_cases hup : u = p
    · refine ⟨{ mu with children := setInsert s.stem_id mu.children }, ?_, ?_, ?_⟩
      · rw [hup, findNode_updNode_self]
        rw [hup] at hmu
        rw [hmu]
        rfl
      · show v ∈ setInsert s.stem_id mu.children
        rw [hmuc]
        exact mem_setInsert.mpr (Or.inr hv)
      · rw [hkeysσ]
        exact hvk
    · refine ⟨mu, ?_, ?_, ?_⟩
      · rw [findNode_updNode_ne _ _ hup]
        exact hmu
      · rw [hmuc]
        exact hv
      · rw [hkeysσ]
        exact hvk
  have hedge_new : chEdge (updNode (updNode s s.stem_id
      (fun n => { n with parent_ids := setInsert p n.parent_ids }))
      p (fun n => { n with children := setInsert s.stem_id n.children })) p s.stem_id := by
    have hstep1 : ∃ mp, findNode (updNode s s.stem_id
        (fun n => { n with parent_ids := setInsert p n.parent_ids })) p = some mp := by
      by_cases hps : p = s.stem_id
      · refine ⟨{ nst with parent_ids := setInsert p nst.parent_ids }, ?_⟩
        rw [hps, findNode_updNode_self, hnst]
        rfl
      · exact ⟨np, by rw [findNode_updNode_ne _ _ hps]; exact hnp⟩
    rcases hstep1 with ⟨mp, hmp⟩
    exact ⟨{ mp with children := setInsert s.stem_id mp.children },
      by rw [findNode_updNode_self, hmp]; rfl,
      mem_setInsert.mpr (Or.inl rfl),
      by rw [hkeysσ]; exact h2.1⟩
  exact hacyc s.stem_id
    (Relation.TransGen.tail' (Relation.ReflTransGen.mono hmono hreach) hedge_new)

/-! ### Claim C10: termination of the cascading removal on acyclic graphs -/

/-- Claim C10: on every invariant graph whose child-edge relation is acyclic
(the I5 precondition callers must maintain), `remove` terminates for every
identifier — the recursion, run with the fuel bound `totalParents + 1` that
dominates the C++ recursion depth, never exhausts its fuel (fuel exhaustion
is this embedding's model of a diverging C++ recursion). -/
theorem c10_remove_terminates (s : GState) (id : VId)
    (inv : Invariant s) (hacyc : AcyclicP s) :
    (remove s [] id).1 ≠ some Err.outOfFuel := by
  by_cases hstem : id = s.stem_id
  · rw [hstem, remove_stem_eq]
    intro h
    cases h
  · cases hfind : findNode s id with
    | none =>
      rw [remove_absent_eq [] hstem hfind]
      intro h
      cases h
    | some nx =>
      rcases remove_spec inv hacyc (mem_keys_iff.mpr (by rw [hfind]; rfl)) hstem
        with ⟨σ, heq, -⟩
      rw [heq]
      intro h
      cases h

/-- Witness for claim C10 at a concrete five-node graph. -/
theorem c10_witness : (remove cascadeState [] 1).1 ≠ some Err.outOfFuel :=
  c10_remove_terminates cascadeState 1 (by decide)
    ((acyclicP_iff_acyclicB (by decide)).mpr (by decide))

/-! ### Claim C1: the removal set is exactly the set of nodes made
unreachable from the stem -/

/-- The spec's cascading scenario: root `S = 0`, `create("X" = 1, [S])`,
`create("Y" = 2, [X])`, then `remove X`, all on the empty failure
schedule. -/
def scenarioCascade : Option Err × GState × List Bool :=
  remove (create (create (mkGenealogy 0) [] 1 [0]).2.1 [] 2 [1]).2.1 [] 1

/-- The spec's non-cascading scenario: root `S = 0`, `create("A" = 1, [S])`,
`create("B" = 2, [S])`, `create("C" = 3, [A, B])`, then `remove A`. -/
def scenarioDiamond : Option Err × GState × List Bool :=
  remove (create (create (create (mkGenealogy 0) [] 1 [0]).2.1 [] 2 [0]).2.1
    [] 3 [1, 2]).2.1 [] 1

/-- Claim C1: on every invariant acyclic graph, removing an existing
non-root id succeeds and keeps exactly the nodes that remain reachable from
the root through child edges avoiding the removed node — every descendant
with no surviving ancestry path is deleted, every node keeping a root path
survives.  In particular the spec's two concrete scenarios: `remove X`
leaves only `S` (both `X` and its sole-parented child `Y` are gone), and
the diamond's `remove A` keeps `C` alive with parent set `{B}`. -/
theorem c1_remove_exact_unreachable (s : GState) (x : VId)
    (inv : Invariant s) (hacyc : AcyclicP s) (hx : x ∈ keys s)
    (hxs : x ≠ s.stem_id) :
    (∃ σ, remove s [] x = (none, σ, []) ∧
      ∀ n, n ∈ keys σ ↔ n ∈ keys s ∧ ReachAvoidP s x s.stem_id n) ∧
    scenarioCascade.1 = none ∧ keys scenarioCascade.2.1 = [0] ∧
    scenarioDiamond.1 = none ∧ keys scenarioDiamond.2.1 = [0, 2, 3] ∧
    parentsOf scenarioDiamond.2.1 3 = [2] ∧
    parentsOf scenarioDiamond.2.1 2 = [0] := by
  refine ⟨?_, by decide, by decide, by decide, by decide, by decide, by decide⟩
  rcases remove_spec inv hacyc hx hxs with ⟨σ, heq, C⟩
  refine ⟨σ, heq, ?_⟩
  intro n
  rw [survivors_iff inv.2.2.1 hxs C n]
  constructor
  · rintro ⟨h1, h2⟩
    exact ⟨h1, alive_reachAvoid inv hacyc h1 h2⟩
  · rintro ⟨h1, h2⟩
    exact ⟨h1, fun hd => dead_not_reachAvoid inv hxs n hd h2⟩

/-- Witness for claim C1 at a concrete five-node graph. -/
theorem c1_witness :
    ∃ σ, remove cascadeState [] 1 = (none, σ, []) ∧
      ∀ n, n ∈ keys σ ↔ n ∈ keys cascadeState ∧
        ReachAvoidP cascadeState 1 cascadeState.stem_id n :=
  (c1_remove_exact_unreachable cascadeState 1 (by decide)
    ((acyclicP_iff_acyclicB (by decide)).mpr (by decide))
    (by decide) (by decide)).1

/-! ### Claim C2 (amended): rollback exactness of `remove` without injected
failures -/

/-- Claim C2 (amended): on an invariant acyclic graph and with no injected
resource failure, every `remove` that raises an error leaves the graph
exactly as before the call — the only errors then possible are the entry
checks `CannotRemoveRoot` and `NotFound`, both raised before any mutation.
(With a resource failure injected into a nested recursive removal the
rollback is incomplete, see the counterexample.) -/
theorem c2_amended_remove_error_unchanged (s : GState) (id : VId)
    (inv : Invariant s) (hacyc : AcyclicP s) {e : Err}
    (herr : (remove s [] id).1 = some e) :
    (remove s [] id).2.1 = s ∧ (e = Err.triedToRemoveStem ∨ e = Err.notFound) := by
  by_cases hstem : id = s.stem_id
  · rw [hstem, remove_stem_eq] at herr ⊢
    cases herr
    exact ⟨rfl, Or.inl rfl⟩
  · cases hfind : findNode s id with
    | none =>
      rw [remove_absent_eq [] hstem hfind] at herr ⊢
      cases herr
      exact ⟨rfl, Or.inr rfl⟩
    | some nx =>
      rcases remove_spec inv hacyc (mem_keys_iff.mpr (by rw [hfind]; rfl)) hstem
        with ⟨σ, heq, -⟩
      rw [heq] at herr
      cases herr

/-- Witness for the amended claim C2: removing the root raises and leaves
the graph untouched. -/
theorem c2_amended_witness :
    (remove cascadeState [] 0).2.1 = cascadeState ∧
    (Err.triedToRemoveStem = Err.triedToRemoveStem ∨
     Err.triedToRemoveStem = Err.notFound) :=
  c2_amended_remove_error_unchanged cascadeState 0 (by decide)
    ((acyclicP_iff_acyclicB (by decide)).mpr (by decide)) (by decide)

/-! ### Claim C3 (amended): the invariants after failure-free operations -/

/-- Claim C3 (amended): with no injected resource failures, invariants
I1-I4 (edge symmetry in both directions, root with no parents, minimum one
parent outside the root, key uniqueness) hold after every `create` — whether
it succeeds or raises — after every `connect` whose child is not the root,
and, on acyclic graphs, after every `remove`.  (After an injected failure
inside the cascade the invariants can break, see the counterexample; a
`connect` with the root as child breaks I2, but only by closing a cycle,
which the I5 caller contract already forbids.) -/
theorem c3_amended_invariants_preserved (s : GState) (inv : Invariant s) :
    (∀ id ps, Invariant (create s [] id ps).2.1) ∧
    (∀ c p, c ≠ s.stem_id → Invariant (connect s [] c p).2.1) ∧
    (AcyclicP s → ∀ id, Invariant (remove s [] id).2.1) :=
  ⟨fun id ps => create_preserves_invariant s id ps inv,
   fun c p hcs => connect_preserves_invariant s c p inv hcs,
   fun hacyc id => remove_preserves_invariant s id inv hacyc⟩

/-- Witness for the amended claim C3 at a concrete five-node graph. -/
theorem c3_amended_witness :
    Invariant (create cascadeState [] 7 [0, 3]).2.1 ∧
    Invariant (connect cascadeState [] 4 1).2.1 ∧
    Invariant (remove cascadeState [] 1).2.1 :=
  ⟨(c3_amended_invariants_preserved cascadeState (by decide)).1 7 [0, 3],
   (c3_amended_invariants_preserved cascadeState (by decide)).2.1 4 1 (by decide),
   (c3_amended_invariants_preserved cascadeState (by decide)).2.2
     ((acyclicP_iff_acyclicB (by decide)).mpr (by decide)) 1⟩

/-! ### Claim C5: the root's protection -/

/-- Claim C5: `remove(root)` raises `CannotRemoveRoot` on every state and
schedule, before any lookup (the equation holds even on states whose table
lacks the root), while removing any other absent id raises `NotFound`; the
root exists with an empty parent set after every failure-free operation
(`create` always, `connect` for a non-root child, `remove` on acyclic
states); and the only way `connect` can give the root a parent is by
closing a cycle through it — which violates the acyclicity contract I5 the
interface's callers are trusted to maintain, so within contract the root
keeps zero parents for the graph's lifetime. -/
theorem c5_root_protected_spec (s : GState) :
    (∀ sched, remove s sched s.stem_id = (some Err.triedToRemoveStem, s, sched)) ∧
    (∀ sched id, id ≠ s.stem_id → findNode s id = none →
      remove s sched id = (some Err.notFound, s, sched)) ∧
    (Invariant s → ∀ id ps, SpecI2 (create s [] id ps).2.1) ∧
    (Invariant s → ∀ c p, c ≠ s.stem_id → SpecI2 (connect s [] c p).2.1) ∧
    (Invariant s → AcyclicP s → ∀ id, SpecI2 (remove s [] id).2.1) ∧
    (∀ sched p, SpecI2 s → p ∈ keys s → ReachP s s.stem_id p →
      (connect s sched s.stem_id p).1 = none →
      ¬ AcyclicP (connect s sched s.stem_id p).2.1) :=
  ⟨fun sched => remove_stem_eq s sched,
   fun sched id h1 h2 => remove_absent_eq sched h1 h2,
   fun inv id ps => (create_preserves_invariant s id ps inv).2.2.1,
   fun inv c p hcs => (connect_preserves_invariant s c p inv hcs).2.2.1,
   fun inv hacyc id => (remove_preserves_invariant s id inv hacyc).2.2.1,
   fun sched p h2 hp hreach hok => connect_stem_cycles sched h2 hp hreach hok⟩

/-- Witness for claim C5 at a concrete two-node graph. -/
theorem c5_witness :
    remove linked [] 0 = (some Err.triedToRemoveStem, linked, []) ∧
    remove linked [] 9 = (some Err.notFound, linked, []) ∧
    SpecI2 (remove linked [] 1).2.1 ∧
    ¬ AcyclicP (connect linked [] 0 1).2.1 :=
  ⟨(c5_root_protected_spec linked).1 [],
   (c5_root_protected_spec linked).2.1 [] 9 (by decide) (by decide),
   (c5_root_protected_spec linked).2.2.2.2.1 (by decide)
     ((acyclicP_iff_acyclicB (by decide)).mpr (by decide)) 1,
   (c5_root_protected_spec linked).2.2.2.2.2 [] 1 (by decide) (by decide)
     (Relation.ReflTransGen.single
       ⟨{ parent_ids := [], children := [1] }, by decide, by decide, by decide⟩)
     (by decide)⟩

end VirusModel
